import Mathlib

/-!
# Dummy-edge construction and merge (`dummies.hpp`)

A shallow embedding of the dummy-edge core of the succinct de Bruijn graph builder:
`find_incoming_dummy_edges`, `count_incoming_dummy_edges`, the adapters `Unique` and
`FirstFlagger`, and the three-way merge `merge_dummies`.

Conventions of the embedding.

* `kmer_t` is an unsigned machine word of `W` bits, embedded as a natural number; `x << 2` is
  `shl W x = (x * 4) % 2 ^ W` and `x >> 2` is `shr x = x / 4`.
* `get_start_node` and `get_end_node` come from `kmer.hpp`, which the file only includes; they
  are fields of `KmerOps`.
* A table (`table_a`, `table_b`, `in_dummies`, `dummy_lengths`) is a pointer, embedded as a
  function from the index to the word read there; the record count is passed next to it, as in
  the source.
* A `while` loop is a function by recursion on a step budget; each loop is started with a budget
  that is shown to be enough (`inc_b_eq`, `check_for_in_dummies_eq`, `loops_from_eq`), so the
  functions are total and compute.
* A visitor call is recorded in a list, in call order.
-/

namespace Cosmo

/-! ## Data model -/

/-- The `edge_tag` enumeration. -/
inductive edge_tag where
  | standard
  | in_dummy
  | out_dummy
  deriving DecidableEq, Repr

/-- The k-mer capability layer of `kmer.hpp` consumed by `dummies.hpp`: the word width of
`kmer_t`, `get_start_node(x)` and `get_end_node(x, k)`. -/
structure KmerOps where
  W : Nat
  get_start_node : Nat → Nat
  get_end_node : Nat → Nat → Nat

/-- The shift `x << 2` on a `W`-bit unsigned word. -/
def shl (W x : Nat) : Nat := (x * 4) % 2 ^ W

/-- The shift `x >> 2` on an unsigned word. -/
def shr (x : Nat) : Nat := x / 4

/-- The arguments `(tag, x, k)` of one call of the three-argument visitor. -/
structure Event where
  tag : edge_tag
  x : Nat
  k : Nat
  deriving DecidableEq, Repr

/-- The arguments `(tag, x, k, first_flag)` of one call of the user visitor. -/
structure Flagged where
  tag : edge_tag
  x : Nat
  k : Nat
  first : Bool
  deriving DecidableEq, Repr

/-- The event a user-visitor call carries, without its flag. -/
def Flagged.event (e : Flagged) : Event := ⟨e.tag, e.x, e.k⟩

/-! ## `Unique` -/

/-- The state of a `Unique` adapter: the members `first_iter`, `last_tag`, `last_k` and the
function-scope static `last_kmer`. -/
structure UniqueState where
  first_iter : Bool
  last_tag : edge_tag
  last_kmer : Nat
  last_k : Nat
  deriving DecidableEq, Repr

/-- One call `Unique::operator()(tag, x, k)`: the event forwarded to the wrapped visitor, if
any, and the state after the call. -/
def Unique.call (s : UniqueState) (e : Event) : Option Event × UniqueState :=
  (if s.first_iter = true ∨ e.tag ≠ s.last_tag ∨ e.x ≠ s.last_kmer ∨ e.k ≠ s.last_k
     then some e else none,
   { first_iter := false, last_tag := e.tag, last_kmer := e.x, last_k := e.k })

/-- The calls a `Unique` adapter forwards when it receives the events of a list in order. -/
def Unique.run : UniqueState → List Event → List Event
  | _, [] => []
  | s, e :: es =>
    match (Unique.call s e).1 with
    | some f => f :: Unique.run (Unique.call s e).2 es
    | none => Unique.run (Unique.call s e).2 es

/-- A freshly constructed `Unique`: `first_iter` is `true`, the other members are not
initialised and the static keeps its value, so they are whatever `junk` holds. -/
def uniquify (junk : UniqueState) : UniqueState := { junk with first_iter := true }

/-- The events of a list that differ from the event right before them; `prev` is the event
before the head of the list. -/
def drop_repeats : Event → List Event → List Event
  | _, [] => []
  | prev, f :: fs => if f = prev then drop_repeats f fs else f :: drop_repeats f fs

/-- The sequence "the input with each event that equals its predecessor removed", written from
the specification: the first event stays, a later event stays when it differs from the event
right before it in the input. -/
def remove_repeats : List Event → List Event
  | [] => []
  | e :: es => e :: drop_repeats e es

/-- The sequence forwarded by a filter that "suppresses an event iff it equals the immediately
previous non-suppressed event", written from the specification; `prev` is the previous
non-suppressed event, if any. -/
def suppress_repeats : Option Event → List Event → List Event
  | _, [] => []
  | prev, e :: es =>
    if prev = some e then suppress_repeats prev es else e :: suppress_repeats (some e) es

/-! ## `FirstFlagger` -/

/-- The state of a `FirstFlagger` adapter: the member `first_iter` and the function-scope statics
`last_start_node` and `last_k`. -/
structure FirstFlaggerState where
  first_iter : Bool
  last_start_node : Nat
  last_k : Nat
  deriving DecidableEq, Repr

/-- One call `FirstFlagger::operator()(tag, x, k)`: the call made on the wrapped visitor and the
state after it. -/
def FirstFlagger.call (ops : KmerOps) (s : FirstFlaggerState) (e : Event) :
    Flagged × FirstFlaggerState :=
  let this_start_node := ops.get_start_node e.x
  let first_flag : Bool :=
    s.first_iter || decide (this_start_node ≠ s.last_start_node) || decide (e.k ≠ s.last_k)
  (⟨e.tag, e.x, e.k, first_flag⟩,
   { first_iter := false, last_start_node := this_start_node, last_k := e.k })

/-- The calls a `FirstFlagger` adapter makes when it receives the events of a list in order. -/
def FirstFlagger.run (ops : KmerOps) : FirstFlaggerState → List Event → List Flagged
  | _, [] => []
  | s, e :: es => (FirstFlagger.call ops s e).1 :: FirstFlagger.run ops (FirstFlagger.call ops s e).2 es

/-- A freshly constructed `FirstFlagger`: `first_iter` is `true`, the statics keep their
values. -/
def add_first_flag (junk : FirstFlaggerState) : FirstFlaggerState :=
  { junk with first_iter := true }

/-- The pair `(start_node(x), length)` the first flag is computed from. -/
def Flagged.group (ops : KmerOps) (e : Flagged) : Nat × Nat := (ops.get_start_node e.x, e.k)

/-- The keys `key 0, ..., key (n - 1)` are non-decreasing. -/
def nondecreasing (key : Nat → Nat) (n : Nat) : Prop :=
  ∀ j, j < n → ∀ i, i < j → key i ≤ key j

instance (key : Nat → Nat) (n : Nat) : Decidable (nondecreasing key n) := by
  unfold nondecreasing
  infer_instance

/-! ## Incoming-dummy discovery -/

/-- The range adaptor `uniqued` (Boost.Range): the values of the range with adjacent duplicates
removed. -/
def uniqued : List Nat → List Nat
  | [] => []
  | [a] => [a]
  | a :: b :: l => if a = b then uniqued (b :: l) else a :: uniqued (b :: l)

/-- The loop of `std::set_difference(first1, last1, first2, last2, out)`, which
`boost::set_difference` calls: `out` is the output iterator, as the effect of one write on the
state `σ` of the sink. The first argument bounds the number of steps. -/
def set_difference_loop {σ : Type} (out : σ → Nat → σ) : Nat → List Nat → List Nat → σ → σ
  | 0, _, _, s => s
  | _ + 1, [], _, s => s
  | fuel + 1, a :: r1, [], s => set_difference_loop out fuel r1 [] (out s a)
  | fuel + 1, a :: r1, b :: r2, s =>
    if a < b then set_difference_loop out fuel r1 (b :: r2) (out s a)
    else if b < a then set_difference_loop out fuel (a :: r1) r2 s
    else set_difference_loop out fuel r1 r2 s

/-- The algorithm `set_difference(a, b, out)`; every step consumes an element of one of the two
ranges, so `a.length + b.length` steps are enough (`set_difference_nil`,
`set_difference_cons_nil`, `set_difference_cons_cons`). -/
def set_difference {σ : Type} (out : σ → Nat → σ) (a b : List Nat) (s : σ) : σ :=
  set_difference_loop out (a.length + b.length) a b s

/-- The range `[table, table + num_kmers)`. -/
def table_range (table : Nat → Nat) (num_kmers : Nat) : List Nat :=
  (List.range num_kmers).map table

/-- The function `find_incoming_dummy_edges(table_a, table_b, num_kmers, k, out)`; `out` is the
output iterator and `s` the state of its sink before the call. -/
def find_incoming_dummy_edges {σ : Type} (ops : KmerOps) (table_a table_b : Nat → Nat)
    (num_kmers k : Nat) (out : σ → Nat → σ) (s : σ) : σ :=
  let a_range := table_range table_a num_kmers
  let b_range := table_range table_b num_kmers
  let a_lam := fun x => ops.get_start_node x
  let b_lam := fun x => ops.get_end_node x k
  let a := uniqued (a_range.map a_lam)
  let b := uniqued (b_range.map b_lam)
  set_difference out a b s

/-- The function `count_incoming_dummy_edges(table_a, table_b, num_kmers, k)`: the sink
`inc_count` increments `count`. -/
def count_incoming_dummy_edges (ops : KmerOps) (table_a table_b : Nat → Nat)
    (num_kmers k : Nat) : Nat :=
  let count := 0
  let inc_count := fun (count : Nat) (_ : Nat) => count + 1
  find_incoming_dummy_edges ops table_a table_b num_kmers k inc_count count

/-- The sink of the producing pass: an output iterator into a buffer, as the list of the values
written so far. -/
def write_slot (buf : List Nat) (v : Nat) : List Nat := buf ++ [v]

/-- The values `find_incoming_dummy_edges` writes to a buffer sink, in write order. -/
def incoming_dummy_seeds (ops : KmerOps) (table_a table_b : Nat → Nat) (num_kmers k : Nat) :
    List Nat :=
  find_incoming_dummy_edges ops table_a table_b num_kmers k write_slot []

/-! ## The three-way merge -/

/-- One call `visit(tag, x, k)` made by `merge_dummies`, with the index `src` of the table entry
(`table_a`, `table_b` or `in_dummies`, by tag) the call was made for. The index is bookkeeping of
the embedding; `Push.event` is the call itself. -/
structure Push where
  tag : edge_tag
  x : Nat
  k : Nat
  src : Nat
  deriving DecidableEq, Repr

/-- The visitor call of a push. -/
def Push.event (p : Push) : Event := ⟨p.tag, p.x, p.k⟩

/-- The macro `get_a(i)`. -/
def get_a (ops : KmerOps) (table_a : Nat → Nat) (i : Nat) : Nat :=
  shr (ops.get_start_node (table_a i))

/-- The macro `get_b(i)`. -/
def get_b (ops : KmerOps) (table_b : Nat → Nat) (k i : Nat) : Nat :=
  shr (ops.get_end_node (table_b i) k)

/-- The loop of the macro `inc_b()`, `while (b_idx < num_records && get_b(++b_idx) == b) {}`,
as the value of `b_idx` after it. The first argument bounds the number of steps. -/
def inc_b_loop (ops : KmerOps) (table_b : Nat → Nat) (num_records k b : Nat) : Nat → Nat → Nat
  | 0, b_idx => b_idx
  | fuel + 1, b_idx =>
    if b_idx < num_records then
      if get_b ops table_b k (b_idx + 1) = b then
        inc_b_loop ops table_b num_records k b fuel (b_idx + 1)
      else b_idx + 1
    else b_idx

/-- The macro `inc_b()`; `num_records - b_idx` steps are enough (`inc_b_eq`). -/
def inc_b (ops : KmerOps) (table_b : Nat → Nat) (num_records k b b_idx : Nat) : Nat :=
  inc_b_loop ops table_b num_records k b (num_records - b_idx) b_idx

/-- The loop of the macro `check_for_in_dummies(s)`: the calls it makes and `d_idx` after it.
The first argument bounds the number of steps. -/
def check_for_in_dummies_loop (W : Nat) (in_dummies dummy_lengths : Nat → Nat)
    (num_incoming_dummies s : Nat) : Nat → Nat → List Push × Nat
  | 0, d_idx => ([], d_idx)
  | fuel + 1, d_idx =>
    if d_idx < num_incoming_dummies then
      let d := in_dummies d_idx
      let len := dummy_lengths d_idx
      if shl W d ≤ shl W s then
        let r := check_for_in_dummies_loop W in_dummies dummy_lengths num_incoming_dummies s
          fuel (d_idx + 1)
        (⟨edge_tag.in_dummy, d, len, d_idx⟩ :: r.1, r.2)
      else ([], d_idx)
    else ([], d_idx)

/-- The macro `check_for_in_dummies(s)`; `num_incoming_dummies - d_idx` steps are enough
(`check_for_in_dummies_eq`). -/
def check_for_in_dummies (W : Nat) (in_dummies dummy_lengths : Nat → Nat)
    (num_incoming_dummies s d_idx : Nat) : List Push × Nat :=
  check_for_in_dummies_loop W in_dummies dummy_lengths num_incoming_dummies s
    (num_incoming_dummies - d_idx) d_idx

/-- The values of `a_idx`, `b_idx`, `d_idx`. -/
structure Indices where
  a_idx : Nat
  b_idx : Nat
  d_idx : Nat
  deriving DecidableEq, Repr

/-- The first loop of `merge_dummies`, `while (a_idx < num_records && b_idx < num_records)`: the
calls it makes and the indices after it. The first argument bounds the number of steps. -/
def main_loop (ops : KmerOps) (table_a table_b : Nat → Nat) (num_records k : Nat)
    (in_dummies : Nat → Nat) (num_incoming_dummies : Nat) (dummy_lengths : Nat → Nat) :
    Nat → Indices → List Push × Indices
  | 0, i => ([], i)
  | fuel + 1, i =>
    if i.a_idx < num_records ∧ i.b_idx < num_records then
      let x := table_a i.a_idx
      let a := get_a ops table_a i.a_idx
      let b := get_b ops table_b k i.b_idx
      if b < a then
        let r := check_for_in_dummies ops.W in_dummies dummy_lengths num_incoming_dummies b i.d_idx
        let t := main_loop ops table_a table_b num_records k in_dummies num_incoming_dummies
          dummy_lengths fuel ⟨i.a_idx, inc_b ops table_b num_records k b i.b_idx, r.2⟩
        (r.1 ++ ⟨edge_tag.out_dummy, b, k, i.b_idx⟩ :: t.1, t.2)
      else if a < b then
        let r := check_for_in_dummies ops.W in_dummies dummy_lengths num_incoming_dummies x i.d_idx
        let t := main_loop ops table_a table_b num_records k in_dummies num_incoming_dummies
          dummy_lengths fuel ⟨i.a_idx + 1, i.b_idx, r.2⟩
        (r.1 ++ ⟨edge_tag.standard, x, k, i.a_idx⟩ :: t.1, t.2)
      else
        let r := check_for_in_dummies ops.W in_dummies dummy_lengths num_incoming_dummies x i.d_idx
        let t := main_loop ops table_a table_b num_records k in_dummies num_incoming_dummies
          dummy_lengths fuel ⟨i.a_idx + 1, inc_b ops table_b num_records k b i.b_idx, r.2⟩
        (r.1 ++ ⟨edge_tag.standard, x, k, i.a_idx⟩ :: t.1, t.2)
    else ([], i)

/-- The second loop of `merge_dummies`, `while (a_idx < num_records)`: the calls it makes and
`d_idx` after it. The first argument bounds the number of steps. -/
def drain_a (W : Nat) (table_a : Nat → Nat) (num_records k : Nat)
    (in_dummies : Nat → Nat) (num_incoming_dummies : Nat) (dummy_lengths : Nat → Nat) :
    Nat → Nat → Nat → List Push × Nat
  | 0, _, d_idx => ([], d_idx)
  | fuel + 1, a_idx, d_idx =>
    if a_idx < num_records then
      let x := table_a a_idx
      let r := check_for_in_dummies W in_dummies dummy_lengths num_incoming_dummies x d_idx
      let t := drain_a W table_a num_records k in_dummies num_incoming_dummies dummy_lengths
        fuel (a_idx + 1) r.2
      (r.1 ++ ⟨edge_tag.standard, x, k, a_idx⟩ :: t.1, t.2)
    else ([], d_idx)

/-- The third loop of `merge_dummies`, `while (b_idx < num_records)`: the calls it makes and
`d_idx` after it. The first argument bounds the number of steps. -/
def drain_b (ops : KmerOps) (table_b : Nat → Nat) (num_records k : Nat)
    (in_dummies : Nat → Nat) (num_incoming_dummies : Nat) (dummy_lengths : Nat → Nat) :
    Nat → Nat → Nat → List Push × Nat
  | 0, _, d_idx => ([], d_idx)
  | fuel + 1, b_idx, d_idx =>
    if b_idx < num_records then
      let b := get_b ops table_b k b_idx
      let r := check_for_in_dummies ops.W in_dummies dummy_lengths num_incoming_dummies b d_idx
      let t := drain_b ops table_b num_records k in_dummies num_incoming_dummies dummy_lengths
        fuel (b_idx + 1) r.2
      (r.1 ++ ⟨edge_tag.out_dummy, b, k, b_idx⟩ :: t.1, t.2)
    else ([], d_idx)

/-- The last loop of `merge_dummies`, `while (d_idx < num_incoming_dummies)`: the calls it
makes. The first argument bounds the number of steps. -/
def drain_d (in_dummies dummy_lengths : Nat → Nat) (num_incoming_dummies : Nat) :
    Nat → Nat → List Push
  | 0, _ => []
  | fuel + 1, d_idx =>
    if d_idx < num_incoming_dummies then
      ⟨edge_tag.in_dummy, in_dummies d_idx, dummy_lengths d_idx, d_idx⟩ ::
        drain_d in_dummies dummy_lengths num_incoming_dummies fuel (d_idx + 1)
    else []

/-- The four loops of `merge_dummies`, one after the other, started with the indices `i`: the
calls `visit(tag, x, k)` they make on the adapter stack, in order. Each loop gets the number of
steps that is enough for it: the first loop advances `a_idx` or `b_idx` in every step, the
others advance their own index (`loops_from_eq`). -/
def loops_from (ops : KmerOps) (table_a table_b : Nat → Nat) (num_records k : Nat)
    (in_dummies : Nat → Nat) (num_incoming_dummies : Nat) (dummy_lengths : Nat → Nat)
    (i : Indices) : List Push :=
  let m := main_loop ops table_a table_b num_records k in_dummies num_incoming_dummies
    dummy_lengths ((num_records - i.a_idx) + (num_records - i.b_idx)) i
  let ra := drain_a ops.W table_a num_records k in_dummies num_incoming_dummies dummy_lengths
    (num_records - m.2.a_idx) m.2.a_idx m.2.d_idx
  let rb := drain_b ops table_b num_records k in_dummies num_incoming_dummies dummy_lengths
    (num_records - m.2.b_idx) m.2.b_idx ra.2
  let rd := drain_d in_dummies dummy_lengths num_incoming_dummies
    (num_incoming_dummies - rb.2) rb.2
  m.1 ++ (ra.1 ++ (rb.1 ++ rd))

/-- The calls `visit(tag, x, k)` that `merge_dummies` makes on the adapter stack, in order:
`size_t a_idx = 0, b_idx = 0, d_idx = 0;` and then the four loops. -/
def merge_dummies_pushes (ops : KmerOps) (table_a table_b : Nat → Nat) (num_records k : Nat)
    (in_dummies : Nat → Nat) (num_incoming_dummies : Nat) (dummy_lengths : Nat → Nat) :
    List Push :=
  loops_from ops table_a table_b num_records k in_dummies num_incoming_dummies dummy_lengths
    ⟨0, 0, 0⟩

/-- The events `merge_dummies` pushes into `uniquify(add_first_flag(visitor_f))`, in order. -/
def merge_dummies_raw (ops : KmerOps) (table_a table_b : Nat → Nat) (num_records k : Nat)
    (in_dummies : Nat → Nat) (num_incoming_dummies : Nat) (dummy_lengths : Nat → Nat) :
    List Event :=
  (merge_dummies_pushes ops table_a table_b num_records k in_dummies num_incoming_dummies
    dummy_lengths).map Push.event

/-- The function `merge_dummies`: the calls the user visitor `visitor_f` receives, in order.
`u` and `f` hold whatever the uninitialised members and the function-scope statics of the two
adapters hold when the stack `uniquify(add_first_flag(visitor_f))` is built. -/
def merge_dummies (ops : KmerOps) (u : UniqueState) (f : FirstFlaggerState)
    (table_a table_b : Nat → Nat) (num_records k : Nat)
    (in_dummies : Nat → Nat) (num_incoming_dummies : Nat) (dummy_lengths : Nat → Nat) :
    List Flagged :=
  FirstFlagger.run ops (add_first_flag f)
    (Unique.run (uniquify u)
      (merge_dummies_raw ops table_a table_b num_records k in_dummies num_incoming_dummies
        dummy_lengths))

/-- The call `visit(in_dummy, in_dummies[i], dummy_lengths[i])` made for dummy `i`. -/
def dummy_push (in_dummies dummy_lengths : Nat → Nat) (i : Nat) : Push :=
  ⟨edge_tag.in_dummy, in_dummies i, dummy_lengths i, i⟩

/-- The call `visit(standard, table_a[j], k)` made for entry `j` of table A. -/
def standard_push (table_a : Nat → Nat) (k j : Nat) : Push :=
  ⟨edge_tag.standard, table_a j, k, j⟩

/-- The call `visit(out_dummy, b, k)` made with `b = get_b(j)` for entry `j` of table B. -/
def out_dummy_push (ops : KmerOps) (table_b : Nat → Nat) (k j : Nat) : Push :=
  ⟨edge_tag.out_dummy, get_b ops table_b k j, k, j⟩

/-- The call `p` is made before the call `q` in the sequence `l`: both are made, and the first
`p` comes at an earlier position than the first `q`. -/
def Before (p q : Push) (l : List Push) : Prop :=
  p ∈ l ∧ q ∈ l ∧ l.indexOf p < l.indexOf q

instance (p q : Push) (l : List Push) : Decidable (Before p q l) := by
  unfold Before
  infer_instance

/-- The position of a dummy call against that of a standard call, for the dummies from `d` on
and the entries of table A from `a` on, in the calls `T` still to come: both calls are made, the
dummy comes first when it is not above the edge, and, on input satisfying `V`, the edge comes
first otherwise. -/
def order_ok (W : Nat) (A : Nat → Nat) (N k : Nat) (D L : Nat → Nat) (M : Nat) (V : Prop)
    (d a : Nat) (T : List Push) : Prop :=
  (∀ di, d ≤ di → di < M → dummy_push D L di ∈ T) ∧
  (∀ j, a ≤ j → j < N → standard_push A k j ∈ T) ∧
  ∀ di j, d ≤ di → di < M → a ≤ j → j < N →
    (shl W (D di) ≤ shl W (A j) →
      T.indexOf (dummy_push D L di) < T.indexOf (standard_push A k j)) ∧
    (V → ¬ shl W (D di) ≤ shl W (A j) →
      T.indexOf (standard_push A k j) < T.indexOf (dummy_push D L di))

/-- The previous non-suppressed event of a `Unique` adapter after it has received the events
of a list: the last event of the list, or `prev` when the list is empty. -/
def last_event : Option Event → List Event → Option Event
  | prev, [] => prev
  | _, e :: es => last_event (some e) es

/-- The events `(standard, table_a[j], k)` for `j = a, ..., num_records - 1`. -/
def standard_events (table_a : Nat → Nat) (num_records k a : Nat) : List Event :=
  (List.range' a (num_records - a)).map (fun j => (standard_push table_a k j).event)

/-- The node keys `get_a(0), ..., get_a(num_records - 1)` of table A. -/
def a_keys (ops : KmerOps) (table_a : Nat → Nat) (num_records : Nat) : List Nat :=
  (List.range num_records).map (get_a ops table_a)

/-- The node keys `get_b(0), ..., get_b(num_records - 1)` of table B. -/
def b_keys (ops : KmerOps) (table_b : Nat → Nat) (num_records k : Nat) : List Nat :=
  (List.range num_records).map (get_b ops table_b k)

/-- The events `(out_dummy, get_b(j), k)` for the entries `j = b, ..., num_records - 1` of
table B whose node key is the key of no entry of table A. -/
def out_dummy_events (ops : KmerOps) (table_a table_b : Nat → Nat) (num_records k b : Nat) :
    List Event :=
  (((List.range' b (num_records - b)).map (get_b ops table_b k)).filter
    (fun v => decide (v ∉ a_keys ops table_a num_records))).map
    (fun v => Event.mk edge_tag.out_dummy v k)

/-- The events `(in_dummy, in_dummies[j], dummy_lengths[j])` for the dummies
`j = d, ..., num_incoming_dummies - 1`. -/
def dummy_events (in_dummies dummy_lengths : Nat → Nat) (num_incoming_dummies d : Nat) :
    List Event :=
  (List.range' d (num_incoming_dummies - d)).map
    (fun j => (dummy_push in_dummies dummy_lengths j).event)

/-- The event of the dummy before dummy `d`, if there is one. -/
def dummy_before (in_dummies dummy_lengths : Nat → Nat) (d : Nat) : Option Event :=
  if d = 0 then none else some (dummy_push in_dummies dummy_lengths (d - 1)).event

/-- The number of distinct pairs `(D[i], L[i])` with `i < M`. -/
def distinct_pairs (in_dummies dummy_lengths : Nat → Nat) (num_incoming_dummies : Nat) : Nat :=
  ((List.range num_incoming_dummies).map (fun i => (in_dummies i, dummy_lengths i))).dedup.length

/-- The pairs `(D[i], L[i])`, `i < M`, are non-decreasing in the lexicographic order: by k-mer
value, and by length among equal k-mers. -/
def pairs_nondecreasing (in_dummies dummy_lengths : Nat → Nat) (num_incoming_dummies : Nat) :
    Prop :=
  ∀ j, j < num_incoming_dummies → ∀ i, i < j →
    in_dummies i < in_dummies j ∨
      (in_dummies i = in_dummies j ∧ dummy_lengths i ≤ dummy_lengths j)

instance (D L : Nat → Nat) (M : Nat) : Decidable (pairs_nondecreasing D L M) := by
  unfold pairs_nondecreasing
  infer_instance

/-- The lexicographic order on the pair `(x, k)` of an event, non-strict. -/
def lex_le (e1 e2 : Event) : Prop := e1.x < e2.x ∨ (e1.x = e2.x ∧ e1.k ≤ e2.k)

/-- The lexicographic order on the pair `(x, k)` of an event, strict. -/
def lex_lt (e1 e2 : Event) : Prop := e1.x < e2.x ∨ (e1.x = e2.x ∧ e1.k < e2.k)

/-- The number `common` of entries of table B whose node key is the node key of some entry
of table A. -/
def common (ops : KmerOps) (table_a table_b : Nat → Nat) (num_records k : Nat) : Nat :=
  (List.range num_records).countP
    (fun j => decide (get_b ops table_b k j ∈ a_keys ops table_a num_records))

/-- The number of entries `j = b, ..., num_records - 1` of table B whose node key is the key of
no entry of table A. -/
def uncommon_from (ops : KmerOps) (table_a table_b : Nat → Nat) (num_records k b : Nat) : Nat :=
  (List.range' b (num_records - b)).countP
    (fun j => decide (get_b ops table_b k j ∉ a_keys ops table_a num_records))

/-! ## The array reads of `merge_dummies` -/

/-- One array read made by `merge_dummies`: the array and the index read. -/
inductive Read where
  | table_a (i : Nat)
  | table_b (i : Nat)
  | in_dummies (i : Nat)
  | dummy_lengths (i : Nat)
  deriving DecidableEq, Repr

/-- The read is inside its array: `table_a` and `table_b` hold `num_records` entries,
`in_dummies` and `dummy_lengths` hold `num_incoming_dummies` entries. -/
def Read.in_bounds (num_records num_incoming_dummies : Nat) : Read → Prop
  | Read.table_a i => i < num_records
  | Read.table_b i => i < num_records
  | Read.in_dummies i => i < num_incoming_dummies
  | Read.dummy_lengths i => i < num_incoming_dummies

instance (N M : Nat) (r : Read) : Decidable (Read.in_bounds N M r) := by
  cases r <;> unfold Read.in_bounds <;> infer_instance

/-- The reads of the loop of `inc_b()`, `while (b_idx < num_records && get_b(++b_idx) == b) {}`:
every evaluation of `get_b(++b_idx)` reads `table_b` at the incremented index. The first
argument bounds the number of steps. -/
def inc_b_reads_loop (ops : KmerOps) (table_b : Nat → Nat) (num_records k b : Nat) :
    Nat → Nat → List Read
  | 0, _ => []
  | fuel + 1, b_idx =>
    if b_idx < num_records then
      Read.table_b (b_idx + 1) ::
        (if get_b ops table_b k (b_idx + 1) = b then
          inc_b_reads_loop ops table_b num_records k b fuel (b_idx + 1)
        else [])
    else []

/-- The reads of the macro `inc_b()`; `num_records - b_idx` steps are enough
(`inc_b_reads_eq`). -/
def inc_b_reads (ops : KmerOps) (table_b : Nat → Nat) (num_records k b b_idx : Nat) :
    List Read :=
  inc_b_reads_loop ops table_b num_records k b (num_records - b_idx) b_idx

/-- The reads of the loop of `check_for_in_dummies(s)`: `in_dummies[d_idx]` and
`dummy_lengths[d_idx]` in every step. The first argument bounds the number of steps. -/
def check_for_in_dummies_reads_loop (W : Nat) (in_dummies : Nat → Nat)
    (num_incoming_dummies s : Nat) : Nat → Nat → List Read
  | 0, _ => []
  | fuel + 1, d_idx =>
    if d_idx < num_incoming_dummies then
      let d := in_dummies d_idx
      Read.in_dummies d_idx :: Read.dummy_lengths d_idx ::
        (if shl W d ≤ shl W s then
          check_for_in_dummies_reads_loop W in_dummies num_incoming_dummies s fuel (d_idx + 1)
        else [])
    else []

/-- The reads of the macro `check_for_in_dummies(s)`; `num_incoming_dummies - d_idx` steps are
enough (`check_for_in_dummies_reads_eq`). -/
def check_for_in_dummies_reads (W : Nat) (in_dummies : Nat → Nat)
    (num_incoming_dummies s d_idx : Nat) : List Read :=
  check_for_in_dummies_reads_loop W in_dummies num_incoming_dummies s
    (num_incoming_dummies - d_idx) d_idx

/-- The reads of the first loop of `merge_dummies`: `table_a[a_idx]` for `x`, `table_a[a_idx]`
for `get_a(a_idx)`, `table_b[b_idx]` for `get_b(b_idx)`, then those of the branch taken. The
first argument bounds the number of steps; the indices move as in `main_loop`. -/
def main_loop_reads (ops : KmerOps) (table_a table_b : Nat → Nat) (num_records k : Nat)
    (in_dummies : Nat → Nat) (num_incoming_dummies : Nat) (dummy_lengths : Nat → Nat) :
    Nat → Indices → List Read
  | 0, _ => []
  | fuel + 1, i =>
    if i.a_idx < num_records ∧ i.b_idx < num_records then
      let x := table_a i.a_idx
      let a := get_a ops table_a i.a_idx
      let b := get_b ops table_b k i.b_idx
      Read.table_a i.a_idx :: Read.table_a i.a_idx :: Read.table_b i.b_idx ::
        (if b < a then
          let r := check_for_in_dummies ops.W in_dummies dummy_lengths num_incoming_dummies b
            i.d_idx
          check_for_in_dummies_reads ops.W in_dummies num_incoming_dummies b i.d_idx ++
            (inc_b_reads ops table_b num_records k b i.b_idx ++
              main_loop_reads ops table_a table_b num_records k in_dummies num_incoming_dummies
                dummy_lengths fuel ⟨i.a_idx, inc_b ops table_b num_records k b i.b_idx, r.2⟩)
        else if a < b then
          let r := check_for_in_dummies ops.W in_dummies dummy_lengths num_incoming_dummies x
            i.d_idx
          check_for_in_dummies_reads ops.W in_dummies num_incoming_dummies x i.d_idx ++
            main_loop_reads ops table_a table_b num_records k in_dummies num_incoming_dummies
              dummy_lengths fuel ⟨i.a_idx + 1, i.b_idx, r.2⟩
        else
          let r := check_for_in_dummies ops.W in_dummies dummy_lengths num_incoming_dummies x
            i.d_idx
          check_for_in_dummies_reads ops.W in_dummies num_incoming_dummies x i.d_idx ++
            (inc_b_reads ops table_b num_records k b i.b_idx ++
              main_loop_reads ops table_a table_b num_records k in_dummies num_incoming_dummies
                dummy_lengths fuel
                ⟨i.a_idx + 1, inc_b ops table_b num_records k b i.b_idx, r.2⟩))
    else []

/-- The reads of the second loop of `merge_dummies`: `table_a[a_idx++]`, then those of
`check_for_in_dummies(x)`. The first argument bounds the number of steps. -/
def drain_a_reads (W : Nat) (table_a : Nat → Nat) (num_records : Nat)
    (in_dummies : Nat → Nat) (num_incoming_dummies : Nat) (dummy_lengths : Nat → Nat) :
    Nat → Nat → Nat → List Read
  | 0, _, _ => []
  | fuel + 1, a_idx, d_idx =>
    if a_idx < num_records then
      let x := table_a a_idx
      let r := check_for_in_dummies W in_dummies dummy_lengths num_incoming_dummies x d_idx
      Read.table_a a_idx ::
        (check_for_in_dummies_reads W in_dummies num_incoming_dummies x d_idx ++
          drain_a_reads W table_a num_records in_dummies num_incoming_dummies dummy_lengths
            fuel (a_idx + 1) r.2)
    else []

/-- The reads of the third loop of `merge_dummies`: `table_b[b_idx]` for `get_b(b_idx++)`, then
those of `check_for_in_dummies(b)`. The first argument bounds the number of steps. -/
def drain_b_reads (ops : KmerOps) (table_b : Nat → Nat) (num_records k : Nat)
    (in_dummies : Nat → Nat) (num_incoming_dummies : Nat) (dummy_lengths : Nat → Nat) :
    Nat → Nat → Nat → List Read
  | 0, _, _ => []
  | fuel + 1, b_idx, d_idx =>
    if b_idx < num_records then
      let b := get_b ops table_b k b_idx
      let r := check_for_in_dummies ops.W in_dummies dummy_lengths num_incoming_dummies b d_idx
      Read.table_b b_idx ::
        (check_for_in_dummies_reads ops.W in_dummies num_incoming_dummies b d_idx ++
          drain_b_reads ops table_b num_records k in_dummies num_incoming_dummies dummy_lengths
            fuel (b_idx + 1) r.2)
    else []

/-- The reads of the last loop of `merge_dummies`: `in_dummies[d_idx]` and
`dummy_lengths[d_idx]` in every step. The first argument bounds the number of steps. -/
def drain_d_reads (num_incoming_dummies : Nat) : Nat → Nat → List Read
  | 0, _ => []
  | fuel + 1, d_idx =>
    if d_idx < num_incoming_dummies then
      Read.in_dummies d_idx :: Read.dummy_lengths d_idx ::
        drain_d_reads num_incoming_dummies fuel (d_idx + 1)
    else []

/-- The array reads of the four loops of `merge_dummies`, started with the indices `i`, in
order; every loop starts where `loops_from` starts it and gets the same number of steps
(`loops_reads_from_eq`). -/
def loops_reads_from (ops : KmerOps) (table_a table_b : Nat → Nat) (num_records k : Nat)
    (in_dummies : Nat → Nat) (num_incoming_dummies : Nat) (dummy_lengths : Nat → Nat)
    (i : Indices) : List Read :=
  let m := main_loop ops table_a table_b num_records k in_dummies num_incoming_dummies
    dummy_lengths ((num_records - i.a_idx) + (num_records - i.b_idx)) i
  let ra := drain_a ops.W table_a num_records k in_dummies num_incoming_dummies dummy_lengths
    (num_records - m.2.a_idx) m.2.a_idx m.2.d_idx
  let rb := drain_b ops table_b num_records k in_dummies num_incoming_dummies dummy_lengths
    (num_records - m.2.b_idx) m.2.b_idx ra.2
  main_loop_reads ops table_a table_b num_records k in_dummies num_incoming_dummies
      dummy_lengths ((num_records - i.a_idx) + (num_records - i.b_idx)) i ++
    (drain_a_reads ops.W table_a num_records in_dummies num_incoming_dummies dummy_lengths
        (num_records - m.2.a_idx) m.2.a_idx m.2.d_idx ++
      (drain_b_reads ops table_b num_records k in_dummies num_incoming_dummies dummy_lengths
          (num_records - m.2.b_idx) m.2.b_idx ra.2 ++
        drain_d_reads num_incoming_dummies (num_incoming_dummies - rb.2) rb.2))

/-- The array reads `merge_dummies` makes, in order. -/
def merge_dummies_reads (ops : KmerOps) (table_a table_b : Nat → Nat) (num_records k : Nat)
    (in_dummies : Nat → Nat) (num_incoming_dummies : Nat) (dummy_lengths : Nat → Nat) :
    List Read :=
  loops_reads_from ops table_a table_b num_records k in_dummies num_incoming_dummies
    dummy_lengths ⟨0, 0, 0⟩

/-! ## Dummy expansion -/

/-- Modelled from the spec: the constant `NT_WIDTH` of `kmer.hpp`, the width of one nucleotide,
2 bits. -/
def NT_WIDTH : Nat := 2

/-- The value of `k - 1` for `uint32_t k`: the subtraction wraps at `2 ^ 32`. -/
def k_minus_1 (k : Nat) : Nat := (k + 4294967295) % 4294967296

/-- The assignment `buf[i] = v` on a buffer given by its base pointer. -/
def write (buf : Nat → Nat) (i v : Nat) : Nat → Nat := fun s => if s = i then v else buf s

/-- The loop of `generate_dummies(dummy_node, output, k)`, where `output` is the slot `out` of
the buffer `buf`: the buffer after the loop. The first argument bounds the number of steps, the
second is the loop counter `i`. Offsets are `size_t` values inside one allocation and are not
wrapped. -/
def generate_dummies_loop (W k out : Nat) : Nat → Nat → Nat → (Nat → Nat) → (Nat → Nat)
  | 0, _, _, buf => buf
  | fuel + 1, i, dummy_node, buf =>
    if i < k_minus_1 k then
      let shifted := (dummy_node * 2 ^ NT_WIDTH) % 2 ^ W
      generate_dummies_loop W k out fuel (i + 1) shifted (write buf (out + i) shifted)
    else buf

/-- The function `generate_dummies(dummy_node, output, k)`; `k - 1` steps are enough. -/
def generate_dummies (W : Nat) (dummy_node : Nat) (buf : Nat → Nat) (out k : Nat) : Nat → Nat :=
  generate_dummies_loop W k out (k_minus_1 k) 0 dummy_node buf

/-- The call `memset(buf, c, n)` on a buffer of bytes. -/
def memset (buf : Nat → Nat) (c n : Nat) : Nat → Nat := fun s => if s < n then c % 256 else buf s

/-- The difference `a - b` of two `size_t` values: the subtraction wraps at `2 ^ 64`. -/
def sub64 (a b : Nat) : Nat := (a + 2 ^ 64 - b % 2 ^ 64) % 2 ^ 64

/-- The loop of `prepare_k_values`, with `new_k_values = k_values + num_dummies`: the byte
buffer after the loop. The first argument bounds the number of steps, the second is the loop
counter `i`; the value stored is converted to `uint8_t`. -/
def prepare_k_values_loop (num_dummies k : Nat) : Nat → Nat → (Nat → Nat) → (Nat → Nat)
  | 0, _, k_values => k_values
  | fuel + 1, i, k_values =>
    if i < num_dummies * k_minus_1 k then
      prepare_k_values_loop num_dummies k fuel (i + 1)
        (write k_values (num_dummies + i) (sub64 (sub64 k (i % k_minus_1 k)) 1 % 256))
    else k_values

/-- The function `prepare_k_values(k_values, num_dummies, k)`; `num_dummies * (k - 1)` steps are
enough for its loop. -/
def prepare_k_values (k_values : Nat → Nat) (num_dummies k : Nat) : Nat → Nat :=
  prepare_k_values_loop num_dummies k (num_dummies * k_minus_1 k) 0
    (memset k_values k num_dummies)

/-- The loop of `prepare_incoming_dummy_edges`, with `output = dummy_nodes + num_dummies`: the
k-mer buffer after the loop. The first argument bounds the number of steps, the second is the
loop counter `i`. -/
def prepare_incoming_dummy_edges_loop (W num_dummies k : Nat) :
    Nat → Nat → (Nat → Nat) → (Nat → Nat)
  | 0, _, dummy_nodes => dummy_nodes
  | fuel + 1, i, dummy_nodes =>
    if i < num_dummies then
      prepare_incoming_dummy_edges_loop W num_dummies k fuel (i + 1)
        (generate_dummies W (dummy_nodes i) dummy_nodes (num_dummies + i * k_minus_1 k) k)
    else dummy_nodes

/-- The function `prepare_incoming_dummy_edges(dummy_nodes, k_values, num_dummies, k)`: the
k-mer buffer and the length buffer after the call; `num_dummies` steps are enough for its
loop. -/
def prepare_incoming_dummy_edges (W : Nat) (dummy_nodes k_values : Nat → Nat)
    (num_dummies k : Nat) : (Nat → Nat) × (Nat → Nat) :=
  (prepare_incoming_dummy_edges_loop W num_dummies k num_dummies 0 dummy_nodes,
    prepare_k_values k_values num_dummies k)

/-- Modelled from the spec: `kmer.hpp` is not among the sources. A 64-bit `kmer_t` holding the
`k` symbols of a k-mer in its top `2 * k` bits, the last symbol highest, so that
`get_start_node(x)` is `x << 2` and `get_end_node(x, k)` clears the first symbol. It is used for
concrete inputs only; with `k = 32` the whole word is in use. -/
def kmer64 : KmerOps :=
  { W := 64
    get_start_node := fun x => shl 64 x
    get_end_node := fun x k => x - (x / 2 ^ (64 - 2 * k) % 4) * 2 ^ (64 - 2 * k) }

/-- Modelled from the spec: the 3-mer with symbols `s1 s2 s3` (`A = 0`, `C = 1`, `G = 2`,
`T = 3`) packed as `kmer64` expects it, in the top six bits of the word, the last symbol
highest. -/
def kmer3 (s1 s2 s3 : Nat) : Nat := s3 * 4 ^ 31 + s2 * 4 ^ 30 + s1 * 4 ^ 29

/-- A table given by its entries, for concrete inputs: the word at index `i`, and `0` past the
end. -/
def tbl (l : List Nat) : Nat → Nat := fun i => l.getD i 0

end Cosmo

/-! # Theorems -/

namespace Cosmo

/-! ## `Unique` -/

theorem Unique_run_cons (s : UniqueState) (e : Event) (es : List Event) :
    Unique.run s (e :: es) =
      if s.first_iter = true ∨ e.tag ≠ s.last_tag ∨ e.x ≠ s.last_kmer ∨ e.k ≠ s.last_k
      then e :: Unique.run ⟨false, e.tag, e.x, e.k⟩ es
      else Unique.run ⟨false, e.tag, e.x, e.k⟩ es := by
  by_cases h : s.first_iter = true ∨ e.tag ≠ s.last_tag ∨ e.x ≠ s.last_kmer ∨ e.k ≠ s.last_k
  · simp only [Unique.run, Unique.call, if_pos h]
  · simp only [Unique.run, Unique.call, if_neg h]

theorem Event_ne_iff (e p : Event) : e ≠ p ↔ (e.tag ≠ p.tag ∨ e.x ≠ p.x ∨ e.k ≠ p.k) := by
  cases e; cases p
  simp only [ne_eq, Event.mk.injEq]
  tauto

/-- After its first call a `Unique` adapter forwards the events that differ from the one right
before them. -/
theorem Unique_run_after (p : Event) (l : List Event) :
    Unique.run ⟨false, p.tag, p.x, p.k⟩ l = drop_repeats p l := by
  induction l generalizing p with
  | nil => rfl
  | cons e es ih =>
    rw [Unique_run_cons, drop_repeats, ih e]
    by_cases h : e = p
    · subst h; simp
    · have h2 := (Event_ne_iff e p).1 h
      simp [h, h2]

theorem Unique_run_fresh (u : UniqueState) (l : List Event) :
    Unique.run (uniquify u) l = remove_repeats l := by
  cases l with
  | nil => rfl
  | cons e es =>
    rw [Unique_run_cons, remove_repeats, Unique_run_after]
    simp [uniquify]

theorem drop_repeats_eq_suppress (p : Event) (l : List Event) :
    drop_repeats p l = suppress_repeats (some p) l := by
  induction l generalizing p with
  | nil => rfl
  | cons e es ih =>
    rw [drop_repeats, suppress_repeats]
    by_cases h : e = p
    · subst h; simp [ih]
    · have h2 : ¬ (some p = some e) := fun hh => h (Option.some.inj hh).symm
      simp [h, h2, ih]

theorem remove_repeats_eq_suppress (l : List Event) :
    remove_repeats l = suppress_repeats none l := by
  cases l with
  | nil => rfl
  | cons e es => simp [remove_repeats, suppress_repeats, drop_repeats_eq_suppress]

theorem drop_repeats_sublist (p : Event) (l : List Event) : (drop_repeats p l).Sublist l := by
  induction l generalizing p with
  | nil => exact List.Sublist.slnil
  | cons e es ih =>
    rw [drop_repeats]
    split
    · exact (ih e).cons e
    · exact (ih e).cons₂ e

theorem remove_repeats_sublist (l : List Event) : (remove_repeats l).Sublist l := by
  cases l with
  | nil => exact List.Sublist.slnil
  | cons e es => exact (drop_repeats_sublist e es).cons₂ e

theorem drop_repeats_chain (p : Event) (l : List Event) :
    List.Chain (fun a b => a ≠ b) p (drop_repeats p l) := by
  induction l generalizing p with
  | nil => exact List.Chain.nil
  | cons e es ih =>
    rw [drop_repeats]
    by_cases h : e = p
    · subst h; simpa using ih e
    · simp only [h, if_false]
      exact List.Chain.cons (fun hh => h hh.symm) (ih e)

theorem remove_repeats_chain (l : List Event) :
    List.Chain' (fun a b => a ≠ b) (remove_repeats l) := by
  cases l with
  | nil => exact List.chain'_nil
  | cons e es => exact drop_repeats_chain e es

/-- C8. `Unique` suppresses an event exactly when it equals the previous non-suppressed event on
tag, k-mer and length. Whatever the uninitialised members and the static hold when the adapter
is built, for every input sequence the forwarded sequence is the one of a filter that suppresses
an event iff it equals the previous non-suppressed one, it is the input with each event that
equals its predecessor removed, the first event is forwarded, the order is that of the input
(the output is a subsequence of it), and no two consecutive forwarded events are equal. -/
theorem Unique_suppresses_repeats (u : UniqueState) (l : List Event) :
    Unique.run (uniquify u) l = suppress_repeats none l ∧
    Unique.run (uniquify u) l = remove_repeats l ∧
    (Unique.run (uniquify u) l).head? = l.head? ∧
    (Unique.run (uniquify u) l).Sublist l ∧
    List.Chain' (fun a b => a ≠ b) (Unique.run (uniquify u) l) := by
  rw [Unique_run_fresh]
  refine ⟨remove_repeats_eq_suppress l, rfl, ?_, remove_repeats_sublist l,
    remove_repeats_chain l⟩
  cases l <;> rfl

/-! ## `FirstFlagger` -/

theorem FirstFlagger_run_map_event (ops : KmerOps) (s : FirstFlaggerState) (l : List Event) :
    (FirstFlagger.run ops s l).map Flagged.event = l := by
  induction l generalizing s with
  | nil => rfl
  | cons e es ih =>
    simp only [FirstFlagger.run, List.map_cons, ih]
    rfl

/-- The flag of the call at position `i`: at the head it is decided by the state at entry,
further on by the call right before it. -/
theorem FirstFlagger_run_flag (ops : KmerOps) (s : FirstFlaggerState) (l : List Event)
    (i : Nat) (e : Flagged) (he : (FirstFlagger.run ops s l)[i]? = some e) :
    (i = 0 → (e.first = true ↔
      (s.first_iter = true ∨ e.group ops ≠ (s.last_start_node, s.last_k)))) ∧
    (0 < i → ∀ p, (FirstFlagger.run ops s l)[i - 1]? = some p →
      (e.first = true ↔ e.group ops ≠ p.group ops)) := by
  induction l generalizing s i with
  | nil => simp [FirstFlagger.run] at he
  | cons a es ih =>
    cases i with
    | zero =>
      simp only [FirstFlagger.run, List.getElem?_cons_zero, Option.some.injEq] at he
      subst he
      refine ⟨fun _ => ?_, fun h => absurd h (lt_irrefl 0)⟩
      simp only [FirstFlagger.call, Flagged.group, Bool.or_eq_true, decide_eq_true_eq, ne_eq,
        Prod.mk.injEq, not_and_or]
      tauto
    | succ j =>
      simp only [FirstFlagger.run, List.getElem?_cons_succ] at he
      have IH := ih (FirstFlagger.call ops s a).2 j he
      refine ⟨fun h => absurd h (Nat.succ_ne_zero j), fun _ p hp => ?_⟩
      cases j with
      | zero =>
        simp only [FirstFlagger.run, Nat.zero_add, Nat.sub_self, List.getElem?_cons_zero,
          Option.some.injEq] at hp
        subst hp
        have h0 := IH.1 rfl
        rw [h0]
        simp [FirstFlagger.call, Flagged.group]
      | succ m =>
        simp only [FirstFlagger.run, Nat.add_sub_cancel, List.getElem?_cons_succ] at hp
        exact IH.2 (Nat.succ_pos m) p (by simpa using hp)

/-- C7. First-flag law. The calls the user visitor receives are, flags apart, exactly the
events `Unique` forwards, tags untouched; the call at position `i` carries `first = true` iff
`i = 0` or its pair `(start_node(x), length)` differs from that of the call at position `i - 1`.
Hence in a run of calls sharing that pair, starting at position `i` and reaching position `j`,
the call at `j` carries `first = true` iff `j = i`. -/
theorem first_flag_law (ops : KmerOps) (u : UniqueState) (f : FirstFlaggerState)
    (A B : Nat → Nat) (N k : Nat) (D : Nat → Nat) (M : Nat) (L : Nat → Nat) :
    (merge_dummies ops u f A B N k D M L).map Flagged.event =
      Unique.run (uniquify u) (merge_dummies_raw ops A B N k D M L) ∧
    (∀ i e, (merge_dummies ops u f A B N k D M L)[i]? = some e →
      (e.first = true ↔
        (i = 0 ∨ ∃ p, (merge_dummies ops u f A B N k D M L)[i - 1]? = some p ∧
          e.group ops ≠ p.group ops))) ∧
    (∀ i j ei ej, i ≤ j →
      (merge_dummies ops u f A B N k D M L)[i]? = some ei →
      (merge_dummies ops u f A B N k D M L)[j]? = some ej →
      (i = 0 ∨ ∃ p, (merge_dummies ops u f A B N k D M L)[i - 1]? = some p ∧
          ei.group ops ≠ p.group ops) →
      (∀ m em, i < m → m ≤ j → (merge_dummies ops u f A B N k D M L)[m]? = some em →
          em.group ops = ei.group ops) →
      (ej.first = true ↔ j = i)) := by
  have key : ∀ i e, (merge_dummies ops u f A B N k D M L)[i]? = some e →
      (e.first = true ↔
        (i = 0 ∨ ∃ p, (merge_dummies ops u f A B N k D M L)[i - 1]? = some p ∧
          e.group ops ≠ p.group ops)) := by
    intro i e he
    have h := FirstFlagger_run_flag ops (add_first_flag f) _ i e he
    rcases Nat.eq_zero_or_pos i with hi | hi
    · subst hi
      have h0 := h.1 rfl
      simp only [add_first_flag, true_or, iff_true] at h0
      simp [h0]
    · have hlt : i - 1 < (merge_dummies ops u f A B N k D M L).length := by
        have := (List.getElem?_eq_some_iff.1 he).1
        omega
      constructor
      · intro hf
        right
        refine ⟨_, List.getElem?_eq_getElem hlt, ?_⟩
        exact (h.2 hi _ (List.getElem?_eq_getElem hlt)).1 hf
      · rintro (h0 | ⟨p, hp, hne⟩)
        · omega
        · exact (h.2 hi p hp).2 hne
  refine ⟨FirstFlagger_run_map_event ops _ _, key, ?_⟩
  intro i j ei ej hij hei hej hstart hrun
  rcases Nat.eq_or_lt_of_le hij with h | h
  · subst h
    rw [hei] at hej
    cases hej
    rw [key i ei hei]
    simp [hstart]
  · rw [key j ej hej]
    have hjl : j < (merge_dummies ops u f A B N k D M L).length :=
      (List.getElem?_eq_some_iff.1 hej).1
    have hpl : j - 1 < (merge_dummies ops u f A B N k D M L).length := by omega
    have hgj := hrun j ej h (le_refl j) hej
    have hgp : ((merge_dummies ops u f A B N k D M L)[j - 1]).group ops = ei.group ops := by
      rcases Nat.eq_or_lt_of_le (Nat.le_sub_one_of_lt h) with h1 | h1
      · have : (merge_dummies ops u f A B N k D M L)[j - 1]? = some ei := by
          rw [← h1]; exact hei
        rw [List.getElem?_eq_getElem hpl] at this
        cases this
        rfl
      · exact hrun (j - 1) _ h1 (Nat.sub_le j 1) (List.getElem?_eq_getElem hpl)
    constructor
    · rintro (h0 | ⟨p, hp, hne⟩)
      · omega
      · rw [List.getElem?_eq_getElem hpl] at hp
        cases hp
        exact absurd (hgj.trans hgp.symm) hne
    · intro hji
      omega

/-! ## Incoming-dummy discovery -/

theorem set_difference_loop_fuel {σ : Type} (out : σ → Nat → σ) (n m : Nat) (a b : List Nat)
    (s : σ) (hn : a.length + b.length ≤ n) (hm : a.length + b.length ≤ m) :
    set_difference_loop out n a b s = set_difference_loop out m a b s := by
  induction n generalizing m a b s with
  | zero =>
    have ha : a = [] := List.eq_nil_of_length_eq_zero (by omega)
    subst ha
    cases m <;> simp [set_difference_loop]
  | succ n ih =>
    cases m with
    | zero =>
      have ha : a = [] := List.eq_nil_of_length_eq_zero (by omega)
      subst ha
      simp [set_difference_loop]
    | succ m =>
      cases a with
      | nil => simp [set_difference_loop]
      | cons x r1 =>
        cases b with
        | nil =>
          simp only [set_difference_loop]
          simp only [List.length_cons, List.length_nil] at hn hm
          exact ih m r1 [] _ (by simp; omega) (by simp; omega)
        | cons y r2 =>
          simp only [List.length_cons] at hn hm
          simp only [set_difference_loop]
          split
          · exact ih m r1 (y :: r2) _ (by simp; omega) (by simp; omega)
          · split
            · exact ih m (x :: r1) r2 _ (by simp; omega) (by simp; omega)
            · exact ih m r1 r2 _ (by omega) (by omega)

theorem set_difference_nil {σ : Type} (out : σ → Nat → σ) (b : List Nat) (s : σ) :
    set_difference out [] b s = s := by
  unfold set_difference
  cases h : ([] : List Nat).length + b.length <;> simp [set_difference_loop]

theorem set_difference_cons_nil {σ : Type} (out : σ → Nat → σ) (x : Nat) (r1 : List Nat)
    (s : σ) : set_difference out (x :: r1) [] s = set_difference out r1 [] (out s x) := by
  simp only [set_difference, List.length_cons, List.length_nil, Nat.add_zero,
    set_difference_loop]

theorem set_difference_cons_cons {σ : Type} (out : σ → Nat → σ) (x y : Nat)
    (r1 r2 : List Nat) (s : σ) :
    set_difference out (x :: r1) (y :: r2) s =
      if x < y then set_difference out r1 (y :: r2) (out s x)
      else if y < x then set_difference out (x :: r1) r2 s
      else set_difference out r1 r2 s := by
  have e : set_difference out (x :: r1) (y :: r2) s =
      set_difference_loop out ((r1.length + r2.length + 1) + 1) (x :: r1) (y :: r2) s :=
    set_difference_loop_fuel out _ _ _ _ _ (le_refl _)
      (by simp only [List.length_cons]; omega)
  have e1 : ∀ t, set_difference_loop out (r1.length + r2.length + 1) r1 (y :: r2) t =
      set_difference out r1 (y :: r2) t := fun t =>
    set_difference_loop_fuel out _ _ _ _ _ (by simp only [List.length_cons]; omega)
      (le_refl _)
  have e2 : ∀ t, set_difference_loop out (r1.length + r2.length + 1) (x :: r1) r2 t =
      set_difference out (x :: r1) r2 t := fun t =>
    set_difference_loop_fuel out _ _ _ _ _ (by simp only [List.length_cons]; omega)
      (le_refl _)
  have e3 : ∀ t, set_difference_loop out (r1.length + r2.length + 1) r1 r2 t =
      set_difference out r1 r2 t := fun t =>
    set_difference_loop_fuel out _ _ _ _ _ (by omega) (le_refl _)
  rw [e, set_difference_loop, e1, e2, e3]

/-- Any sink receives the writes a buffer sink receives, in the same order. -/
theorem set_difference_loop_sink {σ : Type} (out : σ → Nat → σ) (n : Nat) (a b : List Nat)
    (s : σ) (buf : List Nat) :
    set_difference_loop write_slot n a b buf =
      buf ++ set_difference_loop write_slot n a b [] ∧
    set_difference_loop out n a b s =
      List.foldl out s (set_difference_loop write_slot n a b []) := by
  induction n generalizing a b s buf with
  | zero => simp [set_difference_loop]
  | succ n ih =>
    cases a with
    | nil => simp [set_difference_loop]
    | cons x r1 =>
      cases b with
      | nil =>
        simp only [set_difference_loop]
        have h1 := (ih r1 [] s (write_slot buf x)).1
        have h2 := (ih r1 [] s (write_slot [] x)).1
        have h3 := (ih r1 [] (out s x) []).2
        rw [h1, h2, h3]
        simp [write_slot]
      | cons y r2 =>
        simp only [set_difference_loop]
        split
        · have h1 := (ih r1 (y :: r2) s (write_slot buf x)).1
          have h2 := (ih r1 (y :: r2) s (write_slot [] x)).1
          have h3 := (ih r1 (y :: r2) (out s x) []).2
          rw [h1, h2, h3]
          simp [write_slot]
        · split
          · exact ih (x :: r1) r2 s buf
          · exact ih r1 r2 s buf

theorem uniqued_mem (l : List Nat) (v : Nat) : v ∈ uniqued l ↔ v ∈ l := by
  induction l with
  | nil => simp [uniqued]
  | cons a t ih =>
    cases t with
    | nil => simp [uniqued]
    | cons b r =>
      rw [uniqued]
      by_cases h : a = b
      · subst h
        simp only [if_true]
        rw [ih]
        simp
      · simp only [h, if_false, List.mem_cons]
        rw [ih]
        simp

theorem uniqued_sorted (l : List Nat) (h : l.Pairwise (fun a b => a ≤ b)) :
    (uniqued l).Pairwise (fun a b => a < b) := by
  induction l with
  | nil => simp [uniqued]
  | cons a t ih =>
    cases t with
    | nil => simp [uniqued]
    | cons b r =>
      have ht := ih (List.Pairwise.of_cons h)
      rw [uniqued]
      by_cases hab : a = b
      · simpa [hab] using ht
      · simp only [hab, if_false]
        refine List.Pairwise.cons ?_ ht
        intro v hv
        have hv2 : v ∈ b :: r := (uniqued_mem (b :: r) v).1 hv
        have hav : a ≤ v := List.rel_of_pairwise_cons h hv2
        have hab2 : a ≤ b := List.rel_of_pairwise_cons h (List.mem_cons_self b r)
        have hbv : b ≤ v := by
          rcases List.mem_cons.1 hv2 with e | e
          · exact le_of_eq e.symm
          · exact List.rel_of_pairwise_cons (List.Pairwise.of_cons h) e
        omega

/-- On strictly increasing ranges `set_difference` writes the elements of the first range that
do not occur in the second, in order. -/
theorem set_difference_loop_sorted (n : Nat) (a b : List Nat)
    (hn : a.length + b.length ≤ n)
    (ha : a.Pairwise (fun x y => x < y)) (hb : b.Pairwise (fun x y => x < y)) :
    set_difference_loop write_slot n a b [] = a.filter (fun v => decide (v ∉ b)) := by
  induction n generalizing a b with
  | zero =>
    have : a = [] := List.eq_nil_of_length_eq_zero (by omega)
    subst this
    simp [set_difference_loop]
  | succ n ih =>
    cases a with
    | nil => simp [set_difference_loop]
    | cons x r1 =>
      have hr1 := List.Pairwise.of_cons ha
      have hx : ∀ v ∈ r1, x < v := fun v hv => List.rel_of_pairwise_cons ha hv
      cases b with
      | nil =>
        simp only [set_difference_loop]
        rw [(set_difference_loop_sink write_slot n r1 [] [] (write_slot [] x)).1,
          ih r1 [] (by simp at hn ⊢; omega) hr1 hb]
        simp [write_slot]
      | cons y r2 =>
        have hr2 := List.Pairwise.of_cons hb
        have hy : ∀ v ∈ r2, y < v := fun v hv => List.rel_of_pairwise_cons hb hv
        simp only [List.length_cons] at hn
        simp only [set_difference_loop]
        split
        · rename_i hxy
          rw [(set_difference_loop_sink write_slot n r1 (y :: r2) [] (write_slot [] x)).1,
            ih r1 (y :: r2) (by simp; omega) hr1 hb]
          have h1 : ¬ x = y := by omega
          have h2 : x ∉ r2 := fun e => by have := hy x e; omega
          simp [write_slot, List.filter_cons, h1, h2]
        · split
          · rename_i hxy hyx
            rw [ih (x :: r1) r2 (by simp; omega) ha hr2]
            apply List.filter_congr
            intro v hv
            have hyv : y < v := by
              rcases List.mem_cons.1 hv with e | e
              · omega
              · have := hx v e; omega
            have : v ≠ y := by omega
            simp [this]
          · rename_i hxy hyx
            have hxy2 : x = y := by omega
            subst hxy2
            rw [ih r1 r2 (by omega) hr1 hr2]
            rw [List.filter_cons]
            have hmem : decide (x ∉ x :: r2) = false := by simp
            rw [hmem]
            simp only [Bool.false_eq_true, if_false]
            apply List.filter_congr
            intro v hv
            have : v ≠ x := by have := hx v hv; omega
            simp [this]

theorem table_range_sorted (f t : Nat → Nat) (N : Nat)
    (h : nondecreasing (fun i => f (t i)) N) :
    ((table_range t N).map f).Pairwise (fun a b => a ≤ b) := by
  unfold table_range
  rw [List.map_map, List.pairwise_map]
  refine List.Pairwise.imp_of_mem ?_ (List.pairwise_lt_range N)
  intro i j _ hj hij
  exact h j (List.mem_range.1 hj) i hij

theorem table_range_mem (f t : Nat → Nat) (N v : Nat) :
    v ∈ (table_range t N).map f ↔ ∃ i, i < N ∧ v = f (t i) := by
  unfold table_range
  simp only [List.map_map, List.mem_map, List.mem_range, Function.comp_apply]
  constructor
  · rintro ⟨i, hi, rfl⟩; exact ⟨i, hi, rfl⟩
  · rintro ⟨i, hi, rfl⟩; exact ⟨i, hi, rfl⟩

/-- Any sink of `find_incoming_dummy_edges` receives the writes a buffer sink receives. -/
theorem find_incoming_dummy_edges_sink {σ : Type} (ops : KmerOps) (A B : Nat → Nat)
    (N k : Nat) (out : σ → Nat → σ) (s : σ) :
    find_incoming_dummy_edges ops A B N k out s =
      List.foldl out s (incoming_dummy_seeds ops A B N k) := by
  unfold incoming_dummy_seeds find_incoming_dummy_edges set_difference
  exact (set_difference_loop_sink out _ _ _ s []).2

/-- C9. When the start nodes of `A` and the end nodes of `B` are each non-decreasing,
`find_incoming_dummy_edges` writes to its sink, whatever the sink, a strictly increasing
sequence without repetition that holds exactly the values `v` with `v = start_node(A[i])` for
some `i < N` and `v ≠ end_node(B[j], k)` for every `j < N`. -/
theorem find_incoming_dummy_edges_set_difference (ops : KmerOps) (A B : Nat → Nat) (N k : Nat)
    (hA : nondecreasing (fun i => ops.get_start_node (A i)) N)
    (hB : nondecreasing (fun i => ops.get_end_node (B i) k) N) :
    (∀ (σ : Type) (out : σ → Nat → σ) (s : σ),
      find_incoming_dummy_edges ops A B N k out s =
        List.foldl out s (incoming_dummy_seeds ops A B N k)) ∧
    (incoming_dummy_seeds ops A B N k).Pairwise (fun v w => v < w) ∧
    (incoming_dummy_seeds ops A B N k).Nodup ∧
    (∀ v, v ∈ incoming_dummy_seeds ops A B N k ↔
      ((∃ i, i < N ∧ v = ops.get_start_node (A i)) ∧
        ∀ j, j < N → v ≠ ops.get_end_node (B j) k)) := by
  have sa := uniqued_sorted _ (table_range_sorted (fun x => ops.get_start_node x) A N hA)
  have sb := uniqued_sorted _ (table_range_sorted (fun x => ops.get_end_node x k) B N hB)
  have e : incoming_dummy_seeds ops A B N k =
      (uniqued ((table_range A N).map (fun x => ops.get_start_node x))).filter
        (fun v => decide (v ∉ uniqued ((table_range B N).map (fun x => ops.get_end_node x k)))) := by
    unfold incoming_dummy_seeds find_incoming_dummy_edges set_difference
    exact set_difference_loop_sorted _ _ _ (le_refl _) sa sb
  have hs : (incoming_dummy_seeds ops A B N k).Pairwise (fun v w => v < w) := by
    rw [e]; exact List.Pairwise.filter _ sa
  refine ⟨fun σ out s => find_incoming_dummy_edges_sink ops A B N k out s, hs,
    hs.imp (fun h => Nat.ne_of_lt h), ?_⟩
  intro v
  rw [e, List.mem_filter, uniqued_mem, decide_eq_true_eq, uniqued_mem,
    table_range_mem (fun x => ops.get_start_node x), table_range_mem (fun x => ops.get_end_node x k)]
  constructor
  · rintro ⟨h1, h2⟩
    exact ⟨h1, fun j hj hv => h2 ⟨j, hj, hv⟩⟩
  · rintro ⟨h1, h2⟩
    exact ⟨h1, fun ⟨j, hj, hv⟩ => h2 j hj hv⟩

/-- C9, at a concrete input: three edges whose start nodes are `20, 20, 36` and whose end nodes
are `4, 80, 80`. -/
theorem find_incoming_dummy_edges_set_difference_witness :
    (incoming_dummy_seeds kmer64
        (tbl [5, 5, 9]) (tbl [4, 80, 80]) 3 32).Pairwise (fun v w => v < w) ∧
    incoming_dummy_seeds kmer64
        (tbl [5, 5, 9]) (tbl [4, 80, 80]) 3 32 = [20, 36] :=
  ⟨(find_incoming_dummy_edges_set_difference kmer64
      (tbl [5, 5, 9]) (tbl [4, 80, 80]) 3 32 (by decide) (by decide)).2.1, by decide⟩

theorem foldl_count (l : List Nat) (c : Nat) :
    List.foldl (fun (count : Nat) (_ : Nat) => count + 1) c l = c + l.length := by
  induction l generalizing c with
  | nil => rfl
  | cons a t ih => simp [List.foldl, ih]; omega

/-- C10. The counting pass and the producing pass agree: for all tables, sorted or not,
`count_incoming_dummy_edges` returns the number of values `find_incoming_dummy_edges` writes to
a buffer sink for the same arguments. -/
theorem count_incoming_dummy_edges_eq_length (ops : KmerOps) (A B : Nat → Nat) (N k : Nat) :
    count_incoming_dummy_edges ops A B N k = (incoming_dummy_seeds ops A B N k).length := by
  unfold count_incoming_dummy_edges
  simp only []
  rw [find_incoming_dummy_edges_sink, foldl_count]
  simp

/-! ## The loops of `merge_dummies` run to completion -/

theorem inc_b_loop_fuel (ops : KmerOps) (B : Nat → Nat) (N k b : Nat) (n m b_idx : Nat)
    (hn : N - b_idx ≤ n) (hm : N - b_idx ≤ m) :
    inc_b_loop ops B N k b n b_idx = inc_b_loop ops B N k b m b_idx := by
  induction n generalizing m b_idx with
  | zero =>
    have h : ¬ b_idx < N := by omega
    cases m <;> simp [inc_b_loop, h]
  | succ n ih =>
    cases m with
    | zero =>
      have h : ¬ b_idx < N := by omega
      simp [inc_b_loop, h]
    | succ m =>
      simp only [inc_b_loop]
      split
      · split
        · exact ih m (b_idx + 1) (by omega) (by omega)
        · rfl
      · rfl

/-- The macro `inc_b()` as the source writes it: the model follows the loop to its exit. -/
theorem inc_b_eq (ops : KmerOps) (B : Nat → Nat) (N k b b_idx : Nat) :
    inc_b ops B N k b b_idx =
      if b_idx < N then
        if get_b ops B k (b_idx + 1) = b then inc_b ops B N k b (b_idx + 1) else b_idx + 1
      else b_idx := by
  unfold inc_b
  by_cases h : b_idx < N
  · obtain ⟨n, hn⟩ : ∃ n, N - b_idx = n + 1 := ⟨N - b_idx - 1, by omega⟩
    rw [hn, inc_b_loop]
    simp only [h, if_true]
    split
    · exact inc_b_loop_fuel ops B N k b _ _ _ (by omega) (le_refl _)
    · rfl
  · have h0 : N - b_idx = 0 := by omega
    rw [h0]
    simp [inc_b_loop, h]

/-- Where `inc_b()` leaves `b_idx`: strictly further when there was an entry left, never past
`num_records`, past entries whose key is the one skipped, and not on such an entry. -/
theorem inc_b_spec (ops : KmerOps) (B : Nat → Nat) (N k b b_idx : Nat) :
    (b_idx < N → b_idx < inc_b ops B N k b b_idx ∧ inc_b ops B N k b b_idx ≤ N) ∧
    (¬ b_idx < N → inc_b ops B N k b b_idx = b_idx) ∧
    (∀ j, b_idx < j → j < inc_b ops B N k b b_idx → get_b ops B k j = b) ∧
    (b_idx < N → inc_b ops B N k b b_idx < N →
      get_b ops B k (inc_b ops B N k b b_idx) ≠ b) := by
  generalize hn : N - b_idx = n
  induction n generalizing b_idx with
  | zero =>
    have h : ¬ b_idx < N := by omega
    have e : inc_b ops B N k b b_idx = b_idx := by rw [inc_b_eq, if_neg h]
    rw [e]
    exact ⟨fun h1 => absurd h1 h, fun _ => rfl, fun j h1 h2 => by omega,
      fun h1 => absurd h1 h⟩
  | succ n ih =>
    have h : b_idx < N := by omega
    by_cases hb : get_b ops B k (b_idx + 1) = b
    · have e : inc_b ops B N k b b_idx = inc_b ops B N k b (b_idx + 1) := by
        rw [inc_b_eq, if_pos h, if_pos hb]
      rw [e]
      have IH := ih (b_idx + 1) (by omega)
      by_cases h1 : b_idx + 1 < N
      · refine ⟨fun _ => ⟨by have := (IH.1 h1).1; omega, (IH.1 h1).2⟩,
          fun h2 => absurd h h2, ?_, fun _ h3 => IH.2.2.2 h1 h3⟩
        intro j hj1 hj2
        rcases Nat.eq_or_lt_of_le (Nat.succ_le_of_lt hj1) with e2 | e2
        · rw [← e2]; exact hb
        · exact IH.2.2.1 j e2 hj2
      · have e2 := IH.2.1 h1
        rw [e2]
        exact ⟨fun _ => ⟨by omega, by omega⟩, fun h2 => absurd h h2,
          fun j hj1 hj2 => by omega, fun _ h3 => absurd h3 h1⟩
    · have e : inc_b ops B N k b b_idx = b_idx + 1 := by
        rw [inc_b_eq, if_pos h, if_neg hb]
      rw [e]
      exact ⟨fun _ => ⟨by omega, by omega⟩, fun h2 => absurd h h2,
        fun j hj1 hj2 => by omega, fun _ _ => hb⟩

theorem check_for_in_dummies_loop_fuel (W : Nat) (D L : Nat → Nat) (M s n m d : Nat)
    (hn : M - d ≤ n) (hm : M - d ≤ m) :
    check_for_in_dummies_loop W D L M s n d = check_for_in_dummies_loop W D L M s m d := by
  induction n generalizing m d with
  | zero =>
    have h : ¬ d < M := by omega
    cases m <;> simp [check_for_in_dummies_loop, h]
  | succ n ih =>
    cases m with
    | zero =>
      have h : ¬ d < M := by omega
      simp [check_for_in_dummies_loop, h]
    | succ m =>
      simp only [check_for_in_dummies_loop]
      split
      · split
        · rw [ih m (d + 1) (by omega) (by omega)]
        · rfl
      · rfl

/-- The macro `check_for_in_dummies(s)` as the source writes it: the model follows the loop to
its exit. -/
theorem check_for_in_dummies_eq (W : Nat) (D L : Nat → Nat) (M s d : Nat) :
    check_for_in_dummies W D L M s d =
      if d < M then
        if shl W (D d) ≤ shl W s then
          (dummy_push D L d :: (check_for_in_dummies W D L M s (d + 1)).1,
            (check_for_in_dummies W D L M s (d + 1)).2)
        else ([], d)
      else ([], d) := by
  unfold check_for_in_dummies
  by_cases h : d < M
  · obtain ⟨n, hn⟩ : ∃ n, M - d = n + 1 := ⟨M - d - 1, by omega⟩
    rw [hn, check_for_in_dummies_loop]
    simp only [h, if_true]
    split
    · rw [check_for_in_dummies_loop_fuel W D L M s n (M - (d + 1)) (d + 1) (by omega)
        (le_refl _)]
      rfl
    · rfl
  · have h0 : M - d = 0 := by omega
    rw [h0]
    simp [check_for_in_dummies_loop, h]

/-- What `check_for_in_dummies(s)` does from `d_idx = d`: it calls the visitor for the dummies
`d, ..., d' - 1`, all of them not above `s`, and stops at `d'`, the end of the array or a dummy
above `s`. -/
theorem check_for_in_dummies_spec (W : Nat) (D L : Nat → Nat) (M s d : Nat) :
    d ≤ (check_for_in_dummies W D L M s d).2 ∧
    ((check_for_in_dummies W D L M s d).2 ≤ M ∨ (check_for_in_dummies W D L M s d).2 = d) ∧
    (check_for_in_dummies W D L M s d).1 =
      (List.range' d ((check_for_in_dummies W D L M s d).2 - d)).map (dummy_push D L) ∧
    (∀ j, d ≤ j → j < (check_for_in_dummies W D L M s d).2 → shl W (D j) ≤ shl W s) ∧
    ((check_for_in_dummies W D L M s d).2 < M →
      ¬ shl W (D (check_for_in_dummies W D L M s d).2) ≤ shl W s) := by
  generalize hn : M - d = n
  induction n generalizing d with
  | zero =>
    have h : ¬ d < M := by omega
    have e : check_for_in_dummies W D L M s d = ([], d) := by
      rw [check_for_in_dummies_eq, if_neg h]
    rw [e]
    exact ⟨le_refl _, Or.inr rfl, by simp, fun j h1 h2 => by simp at h2; omega,
      fun h1 => absurd h1 h⟩
  | succ n ih =>
    have h : d < M := by omega
    by_cases hc : shl W (D d) ≤ shl W s
    · have e : check_for_in_dummies W D L M s d =
          (dummy_push D L d :: (check_for_in_dummies W D L M s (d + 1)).1,
            (check_for_in_dummies W D L M s (d + 1)).2) := by
        rw [check_for_in_dummies_eq, if_pos h, if_pos hc]
      rw [e]
      obtain ⟨h1, h2, h3, h4, h5⟩ := ih (d + 1) (by omega)
      refine ⟨by simp only; omega, Or.inl (by simp only; omega), ?_, ?_, h5⟩
      · have e2 : (check_for_in_dummies W D L M s (d + 1)).2 - d =
            ((check_for_in_dummies W D L M s (d + 1)).2 - (d + 1)) + 1 := by omega
        simp only
        rw [e2, List.range'_succ, List.map_cons, ← h3]
      · intro j hj1 hj2
        rcases Nat.eq_or_lt_of_le hj1 with e2 | e2
        · rw [← e2]; exact hc
        · exact h4 j e2 hj2
    · have e : check_for_in_dummies W D L M s d = ([], d) := by
        rw [check_for_in_dummies_eq, if_pos h, if_neg hc]
      rw [e]
      exact ⟨le_refl _, Or.inl (le_of_lt h), by simp, fun j h1 h2 => by simp at h2; omega,
        fun _ => hc⟩

theorem main_loop_fuel (ops : KmerOps) (A B : Nat → Nat) (N k : Nat) (D : Nat → Nat)
    (M : Nat) (L : Nat → Nat) (n m : Nat) (i : Indices)
    (hn : (N - i.a_idx) + (N - i.b_idx) ≤ n) (hm : (N - i.a_idx) + (N - i.b_idx) ≤ m) :
    main_loop ops A B N k D M L n i = main_loop ops A B N k D M L m i := by
  induction n generalizing m i with
  | zero =>
    have h : ¬ (i.a_idx < N ∧ i.b_idx < N) := by omega
    cases m <;> simp [main_loop, h]
  | succ n ih =>
    cases m with
    | zero =>
      have h : ¬ (i.a_idx < N ∧ i.b_idx < N) := by omega
      simp [main_loop, h]
    | succ m =>
      simp only [main_loop]
      by_cases h : i.a_idx < N ∧ i.b_idx < N
      · have hb := (inc_b_spec ops B N k (get_b ops B k i.b_idx) i.b_idx).1 h.2
        simp only [h, and_self, if_true]
        split
        · rw [ih m _ (by simp only; omega) (by simp only; omega)]
        · split
          · rw [ih m _ (by simp only; omega) (by simp only; omega)]
          · rw [ih m _ (by simp only; omega) (by simp only; omega)]
      · simp only [h, if_false]

theorem drain_d_eq (D L : Nat → Nat) (M d : Nat) :
    drain_d D L M (M - d) d = (List.range' d (M - d)).map (dummy_push D L) := by
  generalize hn : M - d = n
  induction n generalizing d with
  | zero => rfl
  | succ n ih =>
    have h : d < M := by omega
    simp only [drain_d, h, if_true, List.range'_succ, List.map_cons]
    rw [ih (d + 1) (by omega)]
    rfl

/-- The four loops of `merge_dummies` as one recursion on the indices: a step of the first loop
while both tables have entries left, a step of the second loop while only A has, a step of the
third loop while only B has, and the last loop. The model follows every loop to its exit. -/
theorem loops_from_eq (ops : KmerOps) (A B : Nat → Nat) (N k : Nat) (D : Nat → Nat)
    (M : Nat) (L : Nat → Nat) (i : Indices) :
    loops_from ops A B N k D M L i =
      if i.a_idx < N ∧ i.b_idx < N then
        if get_b ops B k i.b_idx < get_a ops A i.a_idx then
          (check_for_in_dummies ops.W D L M (get_b ops B k i.b_idx) i.d_idx).1 ++
            out_dummy_push ops B k i.b_idx ::
              loops_from ops A B N k D M L
                ⟨i.a_idx, inc_b ops B N k (get_b ops B k i.b_idx) i.b_idx,
                  (check_for_in_dummies ops.W D L M (get_b ops B k i.b_idx) i.d_idx).2⟩
        else if get_a ops A i.a_idx < get_b ops B k i.b_idx then
          (check_for_in_dummies ops.W D L M (A i.a_idx) i.d_idx).1 ++
            standard_push A k i.a_idx ::
              loops_from ops A B N k D M L
                ⟨i.a_idx + 1, i.b_idx, (check_for_in_dummies ops.W D L M (A i.a_idx) i.d_idx).2⟩
        else
          (check_for_in_dummies ops.W D L M (A i.a_idx) i.d_idx).1 ++
            standard_push A k i.a_idx ::
              loops_from ops A B N k D M L
                ⟨i.a_idx + 1, inc_b ops B N k (get_b ops B k i.b_idx) i.b_idx,
                  (check_for_in_dummies ops.W D L M (A i.a_idx) i.d_idx).2⟩
      else if i.a_idx < N then
        (check_for_in_dummies ops.W D L M (A i.a_idx) i.d_idx).1 ++
          standard_push A k i.a_idx ::
            loops_from ops A B N k D M L
              ⟨i.a_idx + 1, i.b_idx, (check_for_in_dummies ops.W D L M (A i.a_idx) i.d_idx).2⟩
      else if i.b_idx < N then
        (check_for_in_dummies ops.W D L M (get_b ops B k i.b_idx) i.d_idx).1 ++
          out_dummy_push ops B k i.b_idx ::
            loops_from ops A B N k D M L
              ⟨i.a_idx, i.b_idx + 1,
                (check_for_in_dummies ops.W D L M (get_b ops B k i.b_idx) i.d_idx).2⟩
      else (List.range' i.d_idx (M - i.d_idx)).map (dummy_push D L) := by
  have stop : ∀ j : Indices, ¬ (j.a_idx < N ∧ j.b_idx < N) →
      main_loop ops A B N k D M L ((N - j.a_idx) + (N - j.b_idx)) j = ([], j) := by
    intro j hj
    cases h : (N - j.a_idx) + (N - j.b_idx) <;> simp [main_loop, hj]
  by_cases h : i.a_idx < N ∧ i.b_idx < N
  · have hb := (inc_b_spec ops B N k (get_b ops B k i.b_idx) i.b_idx).1 h.2
    obtain ⟨n, hn⟩ : ∃ n, (N - i.a_idx) + (N - i.b_idx) = n + 1 :=
      ⟨(N - i.a_idx) + (N - i.b_idx) - 1, by omega⟩
    rw [if_pos h]
    unfold loops_from
    rw [hn]
    simp only [main_loop, h, and_self, if_true]
    split
    · rw [main_loop_fuel ops A B N k D M L n _ _ (by simp only; omega) (le_refl _)]
      simp only [List.append_assoc, List.cons_append]
      rfl
    · split
      · rw [main_loop_fuel ops A B N k D M L n _ _ (by simp only; omega) (le_refl _)]
        simp only [List.append_assoc, List.cons_append]
        rfl
      · rw [main_loop_fuel ops A B N k D M L n _ _ (by simp only; omega) (le_refl _)]
        simp only [List.append_assoc, List.cons_append]
        rfl
  · rw [if_neg h]
    by_cases ha : i.a_idx < N
    · have hb : ¬ i.b_idx < N := fun hb => h ⟨ha, hb⟩
      have h2 : ¬ (i.a_idx + 1 < N ∧ i.b_idx < N) := fun hh => hb hh.2
      obtain ⟨n, hn⟩ : ∃ n, N - i.a_idx = n + 1 := ⟨N - i.a_idx - 1, by omega⟩
      have hn2 : N - (i.a_idx + 1) = n := by omega
      rw [if_pos ha]
      unfold loops_from
      rw [stop i h, stop ⟨i.a_idx + 1, i.b_idx, _⟩ h2]
      simp only [List.nil_append]
      rw [hn, hn2]
      simp only [drain_a, ha, if_true, List.append_assoc, List.cons_append]
      rfl
    · rw [if_neg ha]
      have da : ∀ d, drain_a ops.W A N k D M L (N - i.a_idx) i.a_idx d = ([], d) := by
        intro d
        cases h3 : N - i.a_idx <;> simp [drain_a, ha]
      by_cases hb : i.b_idx < N
      · have h2 : ¬ (i.a_idx < N ∧ i.b_idx + 1 < N) := fun hh => ha hh.1
        obtain ⟨n, hn⟩ : ∃ n, N - i.b_idx = n + 1 := ⟨N - i.b_idx - 1, by omega⟩
        have hn2 : N - (i.b_idx + 1) = n := by omega
        rw [if_pos hb]
        unfold loops_from
        rw [stop i h, stop ⟨i.a_idx, i.b_idx + 1, _⟩ h2]
        simp only [List.nil_append, da]
        rw [hn, hn2]
        simp only [drain_b, hb, if_true, List.append_assoc, List.cons_append]
        rfl
      · rw [if_neg hb]
        have db : ∀ d, drain_b ops B N k D M L (N - i.b_idx) i.b_idx d = ([], d) := by
          intro d
          cases h3 : N - i.b_idx <;> simp [drain_b, hb]
        unfold loops_from
        rw [stop i h]
        simp only [List.nil_append, da, db]
        exact drain_d_eq D L M i.d_idx

/-- Induction along the run of `merge_dummies`: a property of the indices and of the calls
still to come holds at every point of the run when it holds after the last loop and every step
of the first three loops preserves it. -/
theorem loops_induct (ops : KmerOps) (A B : Nat → Nat) (N k : Nat) (D : Nat → Nat)
    (M : Nat) (L : Nat → Nat) (motive : Indices → List Push → Prop)
    (h_out : ∀ (i : Indices) (T : List Push), i.a_idx < N → i.b_idx < N →
      get_b ops B k i.b_idx < get_a ops A i.a_idx →
      motive ⟨i.a_idx, inc_b ops B N k (get_b ops B k i.b_idx) i.b_idx,
        (check_for_in_dummies ops.W D L M (get_b ops B k i.b_idx) i.d_idx).2⟩ T →
      motive i ((check_for_in_dummies ops.W D L M (get_b ops B k i.b_idx) i.d_idx).1 ++
        out_dummy_push ops B k i.b_idx :: T))
    (h_lt : ∀ (i : Indices) (T : List Push), i.a_idx < N → i.b_idx < N →
      get_a ops A i.a_idx < get_b ops B k i.b_idx →
      motive ⟨i.a_idx + 1, i.b_idx,
        (check_for_in_dummies ops.W D L M (A i.a_idx) i.d_idx).2⟩ T →
      motive i ((check_for_in_dummies ops.W D L M (A i.a_idx) i.d_idx).1 ++
        standard_push A k i.a_idx :: T))
    (h_eq : ∀ (i : Indices) (T : List Push), i.a_idx < N → i.b_idx < N →
      get_a ops A i.a_idx = get_b ops B k i.b_idx →
      motive ⟨i.a_idx + 1, inc_b ops B N k (get_b ops B k i.b_idx) i.b_idx,
        (check_for_in_dummies ops.W D L M (A i.a_idx) i.d_idx).2⟩ T →
      motive i ((check_for_in_dummies ops.W D L M (A i.a_idx) i.d_idx).1 ++
        standard_push A k i.a_idx :: T))
    (h_a : ∀ (i : Indices) (T : List Push), i.a_idx < N → ¬ i.b_idx < N →
      motive ⟨i.a_idx + 1, i.b_idx,
        (check_for_in_dummies ops.W D L M (A i.a_idx) i.d_idx).2⟩ T →
      motive i ((check_for_in_dummies ops.W D L M (A i.a_idx) i.d_idx).1 ++
        standard_push A k i.a_idx :: T))
    (h_b : ∀ (i : Indices) (T : List Push), ¬ i.a_idx < N → i.b_idx < N →
      motive ⟨i.a_idx, i.b_idx + 1,
        (check_for_in_dummies ops.W D L M (get_b ops B k i.b_idx) i.d_idx).2⟩ T →
      motive i ((check_for_in_dummies ops.W D L M (get_b ops B k i.b_idx) i.d_idx).1 ++
        out_dummy_push ops B k i.b_idx :: T))
    (h_d : ∀ (i : Indices), ¬ i.a_idx < N → ¬ i.b_idx < N →
      motive i ((List.range' i.d_idx (M - i.d_idx)).map (dummy_push D L)))
    (i : Indices) : motive i (loops_from ops A B N k D M L i) := by
  generalize hn : (N - i.a_idx) + (N - i.b_idx) = n
  induction n using Nat.strong_induction_on generalizing i with
  | _ n ih =>
    rw [loops_from_eq]
    by_cases h : i.a_idx < N ∧ i.b_idx < N
    · have hb := (inc_b_spec ops B N k (get_b ops B k i.b_idx) i.b_idx).1 h.2
      rw [if_pos h]
      by_cases h1 : get_b ops B k i.b_idx < get_a ops A i.a_idx
      · rw [if_pos h1]
        exact h_out i _ h.1 h.2 h1 (ih _ (by simp only; omega) _ rfl)
      · rw [if_neg h1]
        by_cases h2 : get_a ops A i.a_idx < get_b ops B k i.b_idx
        · rw [if_pos h2]
          exact h_lt i _ h.1 h.2 h2 (ih _ (by simp only; omega) _ rfl)
        · rw [if_neg h2]
          exact h_eq i _ h.1 h.2 (by omega) (ih _ (by simp only; omega) _ rfl)
    · rw [if_neg h]
      by_cases ha : i.a_idx < N
      · rw [if_pos ha]
        exact h_a i _ ha (fun hb => h ⟨ha, hb⟩) (ih _ (by simp only; omega) _ rfl)
      · rw [if_neg ha]
        by_cases hb : i.b_idx < N
        · rw [if_pos hb]
          exact h_b i _ ha hb (ih _ (by simp only; omega) _ rfl)
        · rw [if_neg hb]
          exact h_d i ha hb

/-! ## Shifts -/

theorem four_dvd_shl (W x : Nat) : 4 ∣ shl W x := by
  unfold shl
  rcases Nat.lt_or_ge W 2 with h | h
  · have h4 : 2 ^ W ∣ x * 4 := by
      have : 2 ^ W ∣ 4 := by
        interval_cases W
        · exact one_dvd 4
        · exact ⟨2, rfl⟩
      exact Dvd.dvd.mul_left this x
    rw [Nat.mod_eq_zero_of_dvd h4]
    exact dvd_zero 4
  · obtain ⟨m, rfl⟩ : ∃ m, W = m + 2 := ⟨W - 2, by omega⟩
    have e : 2 ^ (m + 2) = 2 ^ m * 4 := by rw [pow_succ, pow_succ]; ring
    rw [e, Nat.mul_mod_mul_right]
    exact Dvd.intro_left _ rfl

theorem shl_eq_four_mul_shr (W x : Nat) : shl W x = 4 * shr (shl W x) := by
  unfold shr
  exact (Nat.mul_div_cancel' (four_dvd_shl W x)).symm

theorem shl_shr_of_lt (W y : Nat) (h : y < 2 ^ W) : shl W (shr y) = 4 * shr y := by
  unfold shl shr
  rw [Nat.mod_eq_of_lt (lt_of_le_of_lt (Nat.div_mul_le_self y 4) h)]
  ring

/-- The node-level key of a `standard` call, when `get_start_node(x)` is `x << 2`. -/
theorem shl_table_a (ops : KmerOps) (A : Nat → Nat) (j : Nat)
    (h : ops.get_start_node (A j) = shl ops.W (A j)) :
    shl ops.W (A j) = 4 * get_a ops A j := by
  unfold get_a
  rw [h]
  exact shl_eq_four_mul_shr ops.W (A j)

/-- The node-level key of an `out_dummy` call. -/
theorem shl_get_b (ops : KmerOps) (B : Nat → Nat) (k j : Nat)
    (h : ops.get_end_node (B j) k < 2 ^ ops.W) :
    shl ops.W (get_b ops B k j) = 4 * get_b ops B k j :=
  shl_shr_of_lt ops.W _ h

theorem nondecreasing_le (key : Nat → Nat) (n : Nat) (h : nondecreasing key n) (i j : Nat)
    (hij : i ≤ j) (hj : j < n) : key i ≤ key j := by
  rcases Nat.eq_or_lt_of_le hij with e | e
  · rw [e]
  · exact h j hj i e

/-! ## C1: the calls come in node order -/

/-- One step of a merge loop keeps the calls still to come in node order: the dummies flushed
before the call `p` are in order and not above `p`, and the calls after it are not below it. -/
theorem sorted_step (W : Nat) (D L : Nat → Nat) (M : Nat)
    (hD : nondecreasing (fun i => shl W (D i)) M) (p : Push) (d lo : Nat) (T : List Push)
    (hp : lo ≤ shl W p.x) (hd : d < M → lo ≤ shl W (D d))
    (hT : ((check_for_in_dummies W D L M p.x d).2 < M →
        shl W p.x ≤ shl W (D (check_for_in_dummies W D L M p.x d).2)) →
      T.Pairwise (fun u v => shl W u.x ≤ shl W v.x) ∧ ∀ q ∈ T, shl W p.x ≤ shl W q.x) :
    ((check_for_in_dummies W D L M p.x d).1 ++ p :: T).Pairwise
        (fun u v => shl W u.x ≤ shl W v.x) ∧
      ∀ q ∈ (check_for_in_dummies W D L M p.x d).1 ++ p :: T, lo ≤ shl W q.x := by
  obtain ⟨h1, h2, h3, h4, h5⟩ := check_for_in_dummies_spec W D L M p.x d
  obtain ⟨hT1, hT2⟩ := hT (fun h => le_of_lt (Nat.lt_of_not_le (h5 h)))
  have hflush : ∀ q ∈ (check_for_in_dummies W D L M p.x d).1,
      ∃ j, d ≤ j ∧ j < (check_for_in_dummies W D L M p.x d).2 ∧ q = dummy_push D L j := by
    intro q hq
    rw [h3] at hq
    obtain ⟨j, hj, rfl⟩ := List.mem_map.1 hq
    rw [List.mem_range'_1] at hj
    exact ⟨j, hj.1, by omega, rfl⟩
  have hM : ∀ j, d ≤ j → j < (check_for_in_dummies W D L M p.x d).2 → j < M := by
    intro j hj1 hj2
    rcases h2 with h2 | h2 <;> omega
  constructor
  · rw [List.pairwise_append]
    refine ⟨?_, List.Pairwise.cons hT2 hT1, ?_⟩
    · rw [h3, List.pairwise_map]
      refine List.Pairwise.imp_of_mem ?_ (List.pairwise_lt_range' d _)
      intro i j _ hj hij
      rw [List.mem_range'_1] at hj
      exact hD j (hM j hj.1 (by omega)) i hij
    · intro q hq r hr
      obtain ⟨j, hj1, hj2, rfl⟩ := hflush q hq
      have hqp : shl W (D j) ≤ shl W p.x := h4 j hj1 hj2
      rcases List.mem_cons.1 hr with e | e
      · rw [e]; exact hqp
      · exact le_trans hqp (hT2 r e)
  · intro q hq
    rcases List.mem_append.1 hq with hq | hq
    · obtain ⟨j, hj1, hj2, rfl⟩ := hflush q hq
      have hjM := hM j hj1 hj2
      exact le_trans (hd (by omega)) (nondecreasing_le _ M hD d j hj1 hjM)
    · rcases List.mem_cons.1 hq with e | e
      · rw [e]; exact hp
      · exact le_trans hp (hT2 q e)

/-- The calls `merge_dummies` makes on the adapter stack are in node order. -/
theorem merge_dummies_pushes_sorted (ops : KmerOps) (A B : Nat → Nat) (N k : Nat)
    (D : Nat → Nat) (M : Nat) (L : Nat → Nat)
    (hstart : ∀ j, j < N → ops.get_start_node (A j) = shl ops.W (A j))
    (hend : ∀ j, j < N → ops.get_end_node (B j) k < 2 ^ ops.W)
    (hA : nondecreasing (get_a ops A) N) (hB : nondecreasing (get_b ops B k) N)
    (hD : nondecreasing (fun i => shl ops.W (D i)) M) (i : Indices) (lo : Nat)
    (ha : i.a_idx < N → lo ≤ 4 * get_a ops A i.a_idx)
    (hb : i.b_idx < N → lo ≤ 4 * get_b ops B k i.b_idx)
    (hd : i.d_idx < M → lo ≤ shl ops.W (D i.d_idx)) :
    (loops_from ops A B N k D M L i).Pairwise (fun u v => shl ops.W u.x ≤ shl ops.W v.x) ∧
      ∀ q ∈ loops_from ops A B N k D M L i, lo ≤ shl ops.W q.x := by
  revert lo
  refine loops_induct ops A B N k D M L
    (fun i T => ∀ lo, (i.a_idx < N → lo ≤ 4 * get_a ops A i.a_idx) →
      (i.b_idx < N → lo ≤ 4 * get_b ops B k i.b_idx) →
      (i.d_idx < M → lo ≤ shl ops.W (D i.d_idx)) →
      T.Pairwise (fun u v => shl ops.W u.x ≤ shl ops.W v.x) ∧
        ∀ q ∈ T, lo ≤ shl ops.W q.x) ?_ ?_ ?_ ?_ ?_ ?_ i
  · intro i T ha hb hlt ih lo hla hlb hld
    have hbs := inc_b_spec ops B N k (get_b ops B k i.b_idx) i.b_idx
    have hx : shl ops.W (out_dummy_push ops B k i.b_idx).x = 4 * get_b ops B k i.b_idx :=
      shl_get_b ops B k i.b_idx (hend _ hb)
    refine sorted_step ops.W D L M hD (out_dummy_push ops B k i.b_idx) i.d_idx lo T
      (by rw [hx]; exact hlb hb) hld (fun h => ih _ ?_ ?_ h)
    · intro _; dsimp only; rw [hx]; omega
    · intro h
      dsimp only at h ⊢
      rw [hx]
      have := nondecreasing_le _ N hB i.b_idx _ (le_of_lt (hbs.1 hb).1) h
      omega
  · intro i T ha hb hlt ih lo hla hlb hld
    have hx : shl ops.W (standard_push A k i.a_idx).x = 4 * get_a ops A i.a_idx :=
      shl_table_a ops A i.a_idx (hstart _ ha)
    refine sorted_step ops.W D L M hD (standard_push A k i.a_idx) i.d_idx lo T
      (by rw [hx]; exact hla ha) hld (fun h => ih _ ?_ ?_ h)
    · intro h
      dsimp only at h ⊢
      rw [hx]
      have := nondecreasing_le _ N hA i.a_idx _ (Nat.le_add_right _ 1) h
      omega
    · intro _; dsimp only; rw [hx]; omega
  · intro i T ha hb heq ih lo hla hlb hld
    have hbs := inc_b_spec ops B N k (get_b ops B k i.b_idx) i.b_idx
    have hx : shl ops.W (standard_push A k i.a_idx).x = 4 * get_a ops A i.a_idx :=
      shl_table_a ops A i.a_idx (hstart _ ha)
    refine sorted_step ops.W D L M hD (standard_push A k i.a_idx) i.d_idx lo T
      (by rw [hx]; exact hla ha) hld (fun h => ih _ ?_ ?_ h)
    · intro h
      dsimp only at h ⊢
      rw [hx]
      have := nondecreasing_le _ N hA i.a_idx _ (Nat.le_add_right _ 1) h
      omega
    · intro h
      dsimp only at h ⊢
      rw [hx]
      have := nondecreasing_le _ N hB i.b_idx _ (le_of_lt (hbs.1 hb).1) h
      omega
  · intro i T ha hb ih lo hla hlb hld
    have hx : shl ops.W (standard_push A k i.a_idx).x = 4 * get_a ops A i.a_idx :=
      shl_table_a ops A i.a_idx (hstart _ ha)
    refine sorted_step ops.W D L M hD (standard_push A k i.a_idx) i.d_idx lo T
      (by rw [hx]; exact hla ha) hld (fun h => ih _ ?_ ?_ h)
    · intro h
      dsimp only at h ⊢
      rw [hx]
      have := nondecreasing_le _ N hA i.a_idx _ (Nat.le_add_right _ 1) h
      omega
    · intro h; exact absurd h hb
  · intro i T ha hb ih lo hla hlb hld
    have hx : shl ops.W (out_dummy_push ops B k i.b_idx).x = 4 * get_b ops B k i.b_idx :=
      shl_get_b ops B k i.b_idx (hend _ hb)
    refine sorted_step ops.W D L M hD (out_dummy_push ops B k i.b_idx) i.d_idx lo T
      (by rw [hx]; exact hlb hb) hld (fun h => ih _ ?_ ?_ h)
    · intro h; exact absurd h ha
    · intro h
      dsimp only at h ⊢
      rw [hx]
      have := nondecreasing_le _ N hB i.b_idx _ (Nat.le_add_right _ 1) h
      omega
  · intro i ha hb lo hla hlb hld
    constructor
    · rw [List.pairwise_map]
      refine List.Pairwise.imp_of_mem ?_ (List.pairwise_lt_range' i.d_idx _)
      intro x y _ hy hxy
      rw [List.mem_range'_1] at hy
      exact hD y (by omega) x hxy
    · intro q hq
      obtain ⟨j, hj, rfl⟩ := List.mem_map.1 hq
      rw [List.mem_range'_1] at hj
      exact le_trans (hld (by omega)) (nondecreasing_le _ M hD i.d_idx j hj.1 (by omega))

theorem merge_dummies_events (ops : KmerOps) (u : UniqueState) (f : FirstFlaggerState)
    (A B : Nat → Nat) (N k : Nat) (D : Nat → Nat) (M : Nat) (L : Nat → Nat) :
    (merge_dummies ops u f A B N k D M L).map Flagged.event =
      remove_repeats ((merge_dummies_pushes ops A B N k D M L).map Push.event) := by
  unfold merge_dummies merge_dummies_raw
  rw [FirstFlagger_run_map_event, Unique_run_fresh]

/-- C1. For every valid input of `merge_dummies`, that is, the node keys `get_a(i)` and
`get_b(i)` non-decreasing over the records, the dummies non-decreasing under `d << 2`,
`get_start_node(x) = x << 2` on the entries of table A, and the end nodes of table B within the
k-mer word, the calls the visitor receives are non-decreasing under the node-level comparison:
for two consecutive calls with k-mers `u` then `v`, `(u << 2) <= (v << 2)`. -/
theorem merge_dummies_monotone (ops : KmerOps) (u : UniqueState) (f : FirstFlaggerState)
    (A B : Nat → Nat) (N k : Nat) (D : Nat → Nat) (M : Nat) (L : Nat → Nat)
    (hstart : ∀ j, j < N → ops.get_start_node (A j) = shl ops.W (A j))
    (hend : ∀ j, j < N → ops.get_end_node (B j) k < 2 ^ ops.W)
    (hA : nondecreasing (get_a ops A) N) (hB : nondecreasing (get_b ops B k) N)
    (hD : nondecreasing (fun i => shl ops.W (D i)) M) :
    List.Chain' (fun (e1 e2 : Flagged) => shl ops.W e1.x ≤ shl ops.W e2.x)
      (merge_dummies ops u f A B N k D M L) := by
  have h1 := (merge_dummies_pushes_sorted ops A B N k D M L hstart hend hA hB hD ⟨0, 0, 0⟩ 0
    (fun _ => Nat.zero_le _) (fun _ => Nat.zero_le _) (fun _ => Nat.zero_le _)).1
  have h2 : ((merge_dummies_pushes ops A B N k D M L).map Push.event).Pairwise
      (fun (e1 e2 : Event) => shl ops.W e1.x ≤ shl ops.W e2.x) := by
    rw [List.pairwise_map]
    exact h1
  have h3 := List.Pairwise.sublist (remove_repeats_sublist _) h2
  rw [← merge_dummies_events ops u f, List.pairwise_map] at h3
  exact List.Pairwise.chain' h3

/-- C1, at a concrete input: three edges with node keys `5, 5, 9` in A and `1, 20, 20` in B, and
four dummies. -/
theorem merge_dummies_monotone_witness :
    List.Chain' (fun (e1 e2 : Flagged) => shl 64 e1.x ≤ shl 64 e2.x)
        (merge_dummies kmer64 ⟨false, edge_tag.standard, 0, 0⟩ ⟨false, 0, 0⟩
          (tbl [5, 5, 9]) (tbl [4, 80, 80]) 3 32 (tbl [1, 1, 2, 3]) 4 (tbl [1, 1, 2, 3])) ∧
    (merge_dummies kmer64 ⟨false, edge_tag.standard, 0, 0⟩ ⟨false, 0, 0⟩
          (tbl [5, 5, 9]) (tbl [4, 80, 80]) 3 32 (tbl [1, 1, 2, 3]) 4 (tbl [1, 1, 2, 3])).map
        (fun e => shl 64 e.x) = [4, 4, 8, 12, 20, 36, 80] :=
  ⟨merge_dummies_monotone kmer64 ⟨false, edge_tag.standard, 0, 0⟩ ⟨false, 0, 0⟩
      (tbl [5, 5, 9]) (tbl [4, 80, 80]) 3 32 (tbl [1, 1, 2, 3]) 4 (tbl [1, 1, 2, 3])
      (by decide) (by decide) (by decide) (by decide) (by decide), by decide⟩

/-! ## C2: dummies against standard edges -/

theorem flush_mem (W : Nat) (D L : Nat → Nat) (M s d : Nat) (q : Push) :
    q ∈ (check_for_in_dummies W D L M s d).1 ↔
      ∃ j, d ≤ j ∧ j < (check_for_in_dummies W D L M s d).2 ∧ q = dummy_push D L j := by
  obtain ⟨h1, h2, h3, h4, h5⟩ := check_for_in_dummies_spec W D L M s d
  rw [h3, List.mem_map]
  constructor
  · rintro ⟨j, hj, rfl⟩
    rw [List.mem_range'_1] at hj
    exact ⟨j, hj.1, by omega, rfl⟩
  · rintro ⟨j, hj1, hj2, rfl⟩
    exact ⟨j, by rw [List.mem_range'_1]; omega, rfl⟩

theorem order_step (W : Nat) (A : Nat → Nat) (N k : Nat) (D L : Nat → Nat) (M : Nat)
    (V : Prop) (hD : nondecreasing (fun i => shl W (D i)) M) (p : Push)
    (hp : p.tag ≠ edge_tag.in_dummy) (d a a2 : Nat) (T : List Push)
    (hsp : ∀ j, a ≤ j → j < N → standard_push A k j = p ∨ (a2 ≤ j ∧ standard_push A k j ≠ p))
    (hkey : V → ∀ j, a ≤ j → j < N → shl W p.x ≤ shl W (A j))
    (ih : order_ok W A N k D L M V (check_for_in_dummies W D L M p.x d).2 a2 T) :
    order_ok W A N k D L M V d a ((check_for_in_dummies W D L M p.x d).1 ++ p :: T) := by
  obtain ⟨h1, h2, h3, h4, h5⟩ := check_for_in_dummies_spec W D L M p.x d
  have hF := flush_mem W D L M p.x d
  obtain ⟨ihd, iha, iho⟩ := ih
  have memd : ∀ di, d ≤ di → di < M →
      dummy_push D L di ∈ (check_for_in_dummies W D L M p.x d).1 ++ p :: T := by
    intro di hd1 hd2
    by_cases hdi : di < (check_for_in_dummies W D L M p.x d).2
    · exact List.mem_append_left _ ((hF _).2 ⟨di, hd1, hdi, rfl⟩)
    · exact List.mem_append_right _ (List.mem_cons_of_mem _ (ihd di (Nat.le_of_not_lt hdi) hd2))
  have mema : ∀ j, a ≤ j → j < N →
      standard_push A k j ∈ (check_for_in_dummies W D L M p.x d).1 ++ p :: T := by
    intro j ha1 ha2
    rcases hsp j ha1 ha2 with e | ⟨e1, _⟩
    · rw [e]; simp
    · exact List.mem_append_right _ (List.mem_cons_of_mem _ (iha j e1 ha2))
  refine ⟨memd, mema, ?_⟩
  intro di j hd1 hd2 ha1 ha2
  have hdp : dummy_push D L di ≠ p := fun e => hp (by rw [← e]; rfl)
  have hspF : standard_push A k j ∉ (check_for_in_dummies W D L M p.x d).1 := by
    intro h
    obtain ⟨m, _, _, e⟩ := (hF _).1 h
    have := congrArg Push.tag e
    simp [standard_push, dummy_push] at this
  have idx_sp : List.indexOf (standard_push A k j)
      ((check_for_in_dummies W D L M p.x d).1 ++ p :: T) =
      (check_for_in_dummies W D L M p.x d).1.length +
        List.indexOf (standard_push A k j) (p :: T) :=
    List.indexOf_append_of_not_mem hspF
  by_cases hdi : di < (check_for_in_dummies W D L M p.x d).2
  · -- the dummy is flushed before `p`
    have hmem : dummy_push D L di ∈ (check_for_in_dummies W D L M p.x d).1 :=
      (hF _).2 ⟨di, hd1, hdi, rfl⟩
    have idx_dp : List.indexOf (dummy_push D L di)
        ((check_for_in_dummies W D L M p.x d).1 ++ p :: T) <
        (check_for_in_dummies W D L M p.x d).1.length := by
      rw [List.indexOf_append_of_mem hmem]
      exact List.indexOf_lt_length.2 hmem
    refine ⟨fun _ => by rw [idx_sp]; omega, ?_⟩
    intro hV hle
    exact absurd (le_trans (h4 di hd1 hdi) (hkey hV j ha1 ha2)) hle
  · -- the dummy stays for later
    have hdi2 : (check_for_in_dummies W D L M p.x d).2 ≤ di := Nat.le_of_not_lt hdi
    have hlt : (check_for_in_dummies W D L M p.x d).2 < M := by omega
    have hgt : shl W p.x < shl W (D di) :=
      lt_of_lt_of_le (Nat.lt_of_not_le (h5 hlt)) (nondecreasing_le _ M hD _ di hdi2 hd2)
    have hdpF : dummy_push D L di ∉ (check_for_in_dummies W D L M p.x d).1 := by
      intro h
      obtain ⟨m, _, hm, e⟩ := (hF _).1 h
      have := congrArg Push.src e
      simp only [dummy_push] at this
      omega
    have idx_dp : List.indexOf (dummy_push D L di)
        ((check_for_in_dummies W D L M p.x d).1 ++ p :: T) =
        (check_for_in_dummies W D L M p.x d).1.length +
          (List.indexOf (dummy_push D L di) T + 1) := by
      rw [List.indexOf_append_of_not_mem hdpF, List.indexOf_cons_ne _ (Ne.symm hdp)]
    rcases hsp j ha1 ha2 with e | ⟨e1, e2⟩
    · -- `p` is the standard call itself
      have hx : p.x = A j := by rw [← e]; rfl
      constructor
      · intro hle
        rw [hx] at hgt
        omega
      · intro _ _
        rw [idx_sp, idx_dp, e, List.indexOf_cons_self]
        omega
    · have IH := iho di j hdi2 hd2 e1 ha2
      have idx_sp2 : List.indexOf (standard_push A k j) (p :: T) =
          List.indexOf (standard_push A k j) T + 1 :=
        List.indexOf_cons_ne _ (Ne.symm e2)
      constructor
      · intro hle
        have := IH.1 hle
        rw [idx_sp, idx_dp, idx_sp2]
        omega
      · intro hV hle
        have := IH.2 hV hle
        rw [idx_sp, idx_dp, idx_sp2]
        omega

/-- When `get_start_node(x)` is `x << 2` on the entries of A and the node keys `get_a` are
non-decreasing, the entries of A are non-decreasing under `x << 2`. -/
theorem tables_valid_keys (ops : KmerOps) (A : Nat → Nat) (N : Nat)
    (hstart : ∀ j, j < N → ops.get_start_node (A j) = shl ops.W (A j))
    (hA : nondecreasing (get_a ops A) N) (a j : Nat) (h1 : a ≤ j) (h2 : j < N) :
    shl ops.W (A a) ≤ shl ops.W (A j) := by
  rw [shl_table_a ops A a (hstart a (by omega)), shl_table_a ops A j (hstart j h2)]
  have := nondecreasing_le _ N hA a j h1 h2
  omega

theorem merge_dummies_pushes_order (ops : KmerOps) (A B : Nat → Nat) (N k : Nat)
    (D : Nat → Nat) (M : Nat) (L : Nat → Nat)
    (hD : nondecreasing (fun i => shl ops.W (D i)) M) (i : Indices) :
    order_ok ops.W A N k D L M
      ((∀ j, j < N → ops.get_start_node (A j) = shl ops.W (A j)) ∧
        (∀ j, j < N → ops.get_end_node (B j) k < 2 ^ ops.W) ∧
        nondecreasing (get_a ops A) N ∧ nondecreasing (get_b ops B k) N)
      i.d_idx i.a_idx (loops_from ops A B N k D M L i) := by
  have hstd : ∀ (a : Nat), ∀ j, a ≤ j → j < N →
      standard_push A k j = standard_push A k a ∨
        (a + 1 ≤ j ∧ standard_push A k j ≠ standard_push A k a) := by
    intro a j h1 h2
    rcases Nat.eq_or_lt_of_le h1 with e | e
    · left; rw [e]
    · right
      refine ⟨e, fun h => ?_⟩
      have := congrArg Push.src h
      simp only [standard_push] at this
      omega
  have hout : ∀ (a b : Nat), ∀ j, a ≤ j → j < N →
      standard_push A k j = out_dummy_push ops B k b ∨
        (a ≤ j ∧ standard_push A k j ≠ out_dummy_push ops B k b) := by
    intro a b j h1 _
    right
    refine ⟨h1, fun h => ?_⟩
    have := congrArg Push.tag h
    simp [standard_push, out_dummy_push] at this
  have kstd : ∀ a, ((∀ j, j < N → ops.get_start_node (A j) = shl ops.W (A j)) ∧
        (∀ j, j < N → ops.get_end_node (B j) k < 2 ^ ops.W) ∧
        nondecreasing (get_a ops A) N ∧ nondecreasing (get_b ops B k) N) →
      ∀ j, a ≤ j → j < N → shl ops.W (standard_push A k a).x ≤ shl ops.W (A j) :=
    fun a hV j h1 h2 => tables_valid_keys ops A N hV.1 hV.2.2.1 a j h1 h2
  refine loops_induct ops A B N k D M L
    (fun i T => order_ok ops.W A N k D L M _ i.d_idx i.a_idx T) ?_ ?_ ?_ ?_ ?_ ?_ i
  · intro i T ha hb hlt ih
    refine order_step ops.W A N k D L M _ hD (out_dummy_push ops B k i.b_idx)
      (by simp [out_dummy_push]) i.d_idx i.a_idx i.a_idx T (hout i.a_idx i.b_idx) ?_ ih
    intro hV j h1 h2
    have e1 : shl ops.W (out_dummy_push ops B k i.b_idx).x = 4 * get_b ops B k i.b_idx :=
      shl_get_b ops B k i.b_idx (hV.2.1 _ hb)
    rw [e1, shl_table_a ops A j (hV.1 j h2)]
    have := nondecreasing_le _ N hV.2.2.1 i.a_idx j h1 h2
    omega
  · intro i T ha hb hlt ih
    exact order_step ops.W A N k D L M _ hD (standard_push A k i.a_idx)
      (by simp [standard_push]) i.d_idx i.a_idx (i.a_idx + 1) T (hstd i.a_idx)
      (kstd i.a_idx) ih
  · intro i T ha hb heq ih
    exact order_step ops.W A N k D L M _ hD (standard_push A k i.a_idx)
      (by simp [standard_push]) i.d_idx i.a_idx (i.a_idx + 1) T (hstd i.a_idx)
      (kstd i.a_idx) ih
  · intro i T ha hb ih
    exact order_step ops.W A N k D L M _ hD (standard_push A k i.a_idx)
      (by simp [standard_push]) i.d_idx i.a_idx (i.a_idx + 1) T (hstd i.a_idx)
      (kstd i.a_idx) ih
  · intro i T ha hb ih
    refine order_step ops.W A N k D L M _ hD (out_dummy_push ops B k i.b_idx)
      (by simp [out_dummy_push]) i.d_idx i.a_idx i.a_idx T (hout i.a_idx i.b_idx) ?_ ih
    intro _ j h1 h2
    omega
  · intro i ha hb
    refine ⟨?_, fun j h1 h2 => by omega, fun di j _ _ h1 h2 => by omega⟩
    intro di h1 h2
    exact List.mem_map.2 ⟨di, by rw [List.mem_range'_1]; omega, rfl⟩

/-- C2, as amended. In `merge_dummies`, with D non-decreasing under `d << 2`, for every dummy
`i < M` and every entry `j < N` of table A both calls are made and the `in_dummy` call of
`(D[i], L[i])` comes before the `standard` call of `A[j]` whenever `(D[i] << 2) <= (A[j] << 2)`:
a dummy whose node key equals that of a standard edge is emitted before that edge, never after
it. When moreover `get_start_node(x) = x << 2` on A, the end nodes of B fit the k-mer word and
the node keys `get_a`, `get_b` are non-decreasing, the `in_dummy` call comes before the
`standard` call if and only if `(D[i] << 2) <= (A[j] << 2)`. -/
theorem in_dummy_before_standard (ops : KmerOps) (A B : Nat → Nat) (N k : Nat)
    (D : Nat → Nat) (M : Nat) (L : Nat → Nat)
    (hD : nondecreasing (fun i => shl ops.W (D i)) M) (i j : Nat) (hi : i < M) (hj : j < N) :
    (shl ops.W (D i) ≤ shl ops.W (A j) →
      Before (dummy_push D L i) (standard_push A k j)
        (merge_dummies_pushes ops A B N k D M L)) ∧
    ((∀ j, j < N → ops.get_start_node (A j) = shl ops.W (A j)) →
      (∀ j, j < N → ops.get_end_node (B j) k < 2 ^ ops.W) →
      nondecreasing (get_a ops A) N → nondecreasing (get_b ops B k) N →
      (Before (dummy_push D L i) (standard_push A k j)
          (merge_dummies_pushes ops A B N k D M L) ↔
        shl ops.W (D i) ≤ shl ops.W (A j))) := by
  obtain ⟨hd, ha, ho⟩ := merge_dummies_pushes_order ops A B N k D M L hD ⟨0, 0, 0⟩
  have hdm := hd i (Nat.zero_le _) hi
  have ham := ha j (Nat.zero_le _) hj
  have hoo := ho i j (Nat.zero_le _) hi (Nat.zero_le _) hj
  refine ⟨fun hle => ⟨hdm, ham, hoo.1 hle⟩, ?_⟩
  intro h1 h2 h3 h4
  constructor
  · intro hb
    by_contra hle
    have := hoo.2 ⟨h1, h2, h3, h4⟩ hle
    have := hb.2.2
    unfold merge_dummies_pushes at this
    omega
  · intro hle
    exact ⟨hdm, ham, hoo.1 hle⟩

/-- C2, as amended, at a concrete input: the dummy `1` of node key `4` against the edge `5` of
node key `20`. -/
theorem in_dummy_before_standard_witness :
    Before (dummy_push (tbl [1, 1, 2, 3]) (tbl [1, 1, 2, 3]) 1) (standard_push (tbl [5, 5, 9]) 32 0)
      (merge_dummies_pushes kmer64 (tbl [5, 5, 9]) (tbl [4, 80, 80]) 3 32 (tbl [1, 1, 2, 3]) 4
        (tbl [1, 1, 2, 3])) :=
  (in_dummy_before_standard kmer64 (tbl [5, 5, 9]) (tbl [4, 80, 80]) 3 32 (tbl [1, 1, 2, 3]) 4
    (tbl [1, 1, 2, 3]) (by decide) 1 0 (by decide) (by decide)).1 (by decide)

/-- C2, as stated, fails: with table A not in node order (edges `5` then `1`), the one dummy
`3` is pushed before the edge `1` although `3 << 2 = 12` is above `1 << 2 = 4`; D, a single
dummy, is non-decreasing. -/
theorem in_dummy_before_standard_unsorted :
    nondecreasing (fun i => shl 64 (tbl [3] i)) 1 ∧
    ¬ (Before (dummy_push (tbl [3]) (tbl [1]) 0) (standard_push (tbl [5, 1]) 32 1)
        (merge_dummies_pushes kmer64 (tbl [5, 1]) (tbl [400, 400]) 2 32 (tbl [3]) 1 (tbl [1])) ↔
      shl 64 (tbl [3] 0) ≤ shl 64 (tbl [5, 1] 1)) := by
  decide

/-! ## C3: the standard events -/

theorem suppress_repeats_append (prev : Option Event) (l1 l2 : List Event) :
    suppress_repeats prev (l1 ++ l2) =
      suppress_repeats prev l1 ++ suppress_repeats (last_event prev l1) l2 := by
  induction l1 generalizing prev with
  | nil => rfl
  | cons e es ih =>
    rw [List.cons_append, suppress_repeats, suppress_repeats, last_event]
    by_cases h : prev = some e
    · rw [if_pos h, if_pos h, h, ih]
    · rw [if_neg h, if_neg h, ih, List.cons_append]

theorem suppress_repeats_sublist (prev : Option Event) (l : List Event) :
    (suppress_repeats prev l).Sublist l := by
  induction l generalizing prev with
  | nil => exact List.Sublist.slnil
  | cons e es ih =>
    rw [suppress_repeats]
    split
    · exact (ih _).cons e
    · exact (ih _).cons₂ e

/-- A `Unique` adapter in any state treats the rest of the input as after the event `e`, once
it has received `e`. -/
theorem suppress_repeats_cons (prev : Option Event) (e : Event) (l : List Event) :
    suppress_repeats prev (e :: l) =
      (if prev = some e then [] else [e]) ++ suppress_repeats (some e) l := by
  rw [suppress_repeats]
  by_cases h : prev = some e
  · rw [if_pos h, if_pos h, h]; rfl
  · rw [if_neg h, if_neg h]; rfl

theorem flush_events_tag (W : Nat) (D L : Nat → Nat) (M s d : Nat) (e : Event)
    (h : e ∈ (check_for_in_dummies W D L M s d).1.map Push.event) :
    e.tag = edge_tag.in_dummy := by
  obtain ⟨q, hq, rfl⟩ := List.mem_map.1 h
  obtain ⟨j, _, _, rfl⟩ := (flush_mem W D L M s d q).1 hq
  rfl

theorem filter_suppress_nil (P : Event → Bool) (prev : Option Event) (l : List Event)
    (h : ∀ e ∈ l, P e = false) : (suppress_repeats prev l).filter P = [] := by
  rw [List.filter_eq_nil_iff]
  intro e he
  have := h e ((suppress_repeats_sublist prev l).subset he)
  simp [this]

theorem last_event_tag (prev : Option Event) (l : List Event) (t : edge_tag)
    (h : ∀ e ∈ l, e.tag = t) (hl : l ≠ []) :
    ∃ e, last_event prev l = some e ∧ e.tag = t := by
  induction l generalizing prev with
  | nil => exact absurd rfl hl
  | cons a r ih =>
    rw [last_event]
    cases r with
    | nil => exact ⟨a, rfl, h a (List.mem_cons_self a [])⟩
    | cons b r2 =>
      exact ih (some a) (fun e he => h e (List.mem_cons_of_mem _ he)) (List.cons_ne_nil b r2)

/-- The flush before a call whose k-mer was the threshold of the flush before makes no call. -/
theorem flush_nil_of_not_le (W : Nat) (D L : Nat → Nat) (M s d : Nat)
    (h : d < M → ¬ shl W (D d) ≤ shl W s) :
    (check_for_in_dummies W D L M s d).1 = [] := by
  rw [check_for_in_dummies_eq]
  by_cases hd : d < M
  · rw [if_pos hd, if_neg (h hd)]
  · rw [if_neg hd]

theorem standard_events_cons (A : Nat → Nat) (N k a : Nat) (h : a < N) :
    standard_events A N k a = (standard_push A k a).event :: standard_events A N k (a + 1) := by
  unfold standard_events
  obtain ⟨n, hn⟩ : ∃ n, N - a = n + 1 := ⟨N - a - 1, by omega⟩
  have hn2 : N - (a + 1) = n := by omega
  rw [hn, hn2, List.range'_succ, List.map_cons]

theorem standard_events_nil (A : Nat → Nat) (N k a : Nat) (h : ¬ a < N) :
    standard_events A N k a = [] := by
  unfold standard_events
  have : N - a = 0 := by omega
  rw [this]
  rfl

/-- The condition under which the next `standard` call is a repeat for `Unique` exactly when it
repeats the entry of table A before it: when the previous call was the `standard` call of the
same k-mer, nothing comes in between. -/
theorem standard_step (W : Nat) (A : Nat → Nat) (N k : Nat) (D L : Nat → Nat) (M : Nat)
    (prev : Option Event) (a d : Nat) (T : List Push) (ha : a < N)
    (hprev : prev = some (standard_push A k a).event → d < M → ¬ shl W (D d) ≤ shl W (A a))
    (ih : ((suppress_repeats (some (standard_push A k a).event) (T.map Push.event)).filter
        (fun e => decide (e.tag = edge_tag.standard))) =
      suppress_repeats (some (standard_push A k a).event) (standard_events A N k (a + 1))) :
    ((suppress_repeats prev
        (((check_for_in_dummies W D L M (A a) d).1 ++ standard_push A k a :: T).map
          Push.event)).filter (fun e => decide (e.tag = edge_tag.standard))) =
      suppress_repeats prev (standard_events A N k a) := by
  rw [standard_events_cons A N k a ha, List.map_append, List.map_cons,
    suppress_repeats_append, List.filter_append,
    filter_suppress_nil _ prev _ (fun e he => by
      rw [flush_events_tag W D L M (A a) d e he]; rfl),
    List.nil_append, suppress_repeats_cons, suppress_repeats_cons prev, List.filter_append, ih]
  congr 1
  by_cases hp : prev = some (standard_push A k a).event
  · have hF := flush_nil_of_not_le W D L M (A a) d (hprev hp)
    rw [hF]
    simp [last_event, hp]
  · rw [if_neg hp]
    by_cases hF : (check_for_in_dummies W D L M (A a) d).1 = []
    · rw [hF]
      simp only [List.map_nil, last_event]
      rw [if_neg hp]
      simp [standard_push, Push.event]
    · obtain ⟨e, he1, he2⟩ := last_event_tag prev
        ((check_for_in_dummies W D L M (A a) d).1.map Push.event) edge_tag.in_dummy
        (fun e he => flush_events_tag W D L M (A a) d e he) (by simpa using hF)
      rw [he1]
      have hne : ¬ (some e = some (standard_push A k a).event) := by
        intro h
        have h2 := Option.some.inj h
        rw [h2] at he2
        simp [standard_push, Push.event] at he2
      rw [if_neg hne]
      simp [standard_push, Push.event]

/-- After an `out_dummy` call `Unique` forwards the `standard` events to come as it would have
without that call, unless the call sits between two equal entries of table A. -/
theorem out_dummy_step (W : Nat) (ops : KmerOps) (A B : Nat → Nat) (N k : Nat)
    (D L : Nat → Nat) (M : Nat) (prev : Option Event) (a b d : Nat) (T : List Push)
    (hprev : a < N → prev ≠ some (standard_push A k a).event)
    (ih : ((suppress_repeats (some (out_dummy_push ops B k b).event) (T.map Push.event)).filter
        (fun e => decide (e.tag = edge_tag.standard))) =
      suppress_repeats (some (out_dummy_push ops B k b).event) (standard_events A N k a)) :
    ((suppress_repeats prev
        (((check_for_in_dummies W D L M (get_b ops B k b) d).1 ++
          out_dummy_push ops B k b :: T).map Push.event)).filter
        (fun e => decide (e.tag = edge_tag.standard))) =
      suppress_repeats prev (standard_events A N k a) := by
  rw [List.map_append, List.map_cons, suppress_repeats_append, List.filter_append,
    filter_suppress_nil _ prev _ (fun e he => by
      rw [flush_events_tag W D L M _ d e he]; rfl),
    List.nil_append, suppress_repeats_cons, List.filter_append, ih]
  have h1 : (if last_event prev ((check_for_in_dummies W D L M (get_b ops B k b) d).1.map
      Push.event) = some (out_dummy_push ops B k b).event then []
      else [(out_dummy_push ops B k b).event]).filter
        (fun e => decide (e.tag = edge_tag.standard)) = [] := by
    split <;> simp [out_dummy_push, Push.event]
  rw [h1, List.nil_append]
  by_cases ha : a < N
  · rw [standard_events_cons A N k a ha, suppress_repeats_cons, suppress_repeats_cons prev,
      if_neg (hprev ha)]
    have hne : ¬ (some (out_dummy_push ops B k b).event = some (standard_push A k a).event) := by
      intro h
      have := congrArg Event.tag (Option.some.inj h)
      simp [out_dummy_push, standard_push, Push.event] at this
    rw [if_neg hne]
  · rw [standard_events_nil A N k a ha]
    rfl

theorem standard_push_event_inj (A : Nat → Nat) (k a b : Nat)
    (h : some (standard_push A k a).event = some (standard_push A k b).event) : A a = A b :=
  congrArg Event.x (Option.some.inj h)

theorem get_a_congr (ops : KmerOps) (A : Nat → Nat) (a b : Nat) (h : A a = A b) :
    get_a ops A a = get_a ops A b := by
  unfold get_a
  rw [h]

/-- Along the run of `merge_dummies`, on input whose keys `get_b` are non-decreasing, `Unique`
forwards of the `standard` calls still to come those that do not repeat the entry of table A
before them. -/
theorem merge_dummies_pushes_standard (ops : KmerOps) (A B : Nat → Nat) (N k : Nat)
    (D : Nat → Nat) (M : Nat) (L : Nat → Nat) (hB : nondecreasing (get_b ops B k) N)
    (i : Indices) (prev : Option Event)
    (hprev : i.a_idx < N → prev = some (standard_push A k i.a_idx).event →
      (i.d_idx < M → ¬ shl ops.W (D i.d_idx) ≤ shl ops.W (A i.a_idx)) ∧
      (i.b_idx < N → ¬ get_b ops B k i.b_idx < get_a ops A i.a_idx)) :
    (suppress_repeats prev ((loops_from ops A B N k D M L i).map Push.event)).filter
        (fun e => decide (e.tag = edge_tag.standard)) =
      suppress_repeats prev (standard_events A N k i.a_idx) := by
  revert prev
  refine loops_induct ops A B N k D M L
    (fun i T => ∀ prev : Option Event,
      (i.a_idx < N → prev = some (standard_push A k i.a_idx).event →
        (i.d_idx < M → ¬ shl ops.W (D i.d_idx) ≤ shl ops.W (A i.a_idx)) ∧
        (i.b_idx < N → ¬ get_b ops B k i.b_idx < get_a ops A i.a_idx)) →
      (suppress_repeats prev (T.map Push.event)).filter
          (fun e => decide (e.tag = edge_tag.standard)) =
        suppress_repeats prev (standard_events A N k i.a_idx)) ?_ ?_ ?_ ?_ ?_ ?_ i
  · intro i T ha hb hlt ih prev hprev
    refine out_dummy_step ops.W ops A B N k D L M prev i.a_idx i.b_idx i.d_idx T
      (fun h hp => ((hprev h hp).2 hb) hlt) (ih _ ?_)
    intro _ h
    have := congrArg Event.tag (Option.some.inj h)
    simp [out_dummy_push, standard_push, Push.event] at this
  · intro i T ha hb hlt ih prev hprev
    refine standard_step ops.W A N k D L M prev i.a_idx i.d_idx T ha
      (fun hp => (hprev ha hp).1) (ih _ ?_)
    intro h1 h2
    dsimp only at h1 h2 ⊢
    have e := standard_push_event_inj A k _ _ h2
    have h5 := (check_for_in_dummies_spec ops.W D L M (A i.a_idx) i.d_idx).2.2.2.2
    refine ⟨fun h => by rw [← e]; exact h5 h, fun _ => ?_⟩
    rw [← get_a_congr ops A _ _ e]
    omega
  · intro i T ha hb heq ih prev hprev
    refine standard_step ops.W A N k D L M prev i.a_idx i.d_idx T ha
      (fun hp => (hprev ha hp).1) (ih _ ?_)
    intro h1 h2
    dsimp only at h1 h2 ⊢
    have e := standard_push_event_inj A k _ _ h2
    have h5 := (check_for_in_dummies_spec ops.W D L M (A i.a_idx) i.d_idx).2.2.2.2
    have hbs := inc_b_spec ops B N k (get_b ops B k i.b_idx) i.b_idx
    refine ⟨fun h => by rw [← e]; exact h5 h, fun h => ?_⟩
    rw [← get_a_congr ops A _ _ e]
    have h6 := hbs.2.2.2 hb h
    have h7 := nondecreasing_le _ N hB i.b_idx _ (le_of_lt (hbs.1 hb).1) h
    omega
  · intro i T ha hb ih prev hprev
    refine standard_step ops.W A N k D L M prev i.a_idx i.d_idx T ha
      (fun hp => (hprev ha hp).1) (ih _ ?_)
    intro h1 h2
    dsimp only at h1 h2 ⊢
    have e := standard_push_event_inj A k _ _ h2
    have h5 := (check_for_in_dummies_spec ops.W D L M (A i.a_idx) i.d_idx).2.2.2.2
    exact ⟨fun h => by rw [← e]; exact h5 h, fun h => absurd h hb⟩
  · intro i T ha hb ih prev hprev
    refine out_dummy_step ops.W ops A B N k D L M prev i.a_idx i.b_idx i.d_idx T
      (fun h => absurd h ha) (ih _ ?_)
    intro h
    exact absurd h ha
  · intro i ha hb prev _
    rw [standard_events_nil A N k i.a_idx ha]
    refine filter_suppress_nil _ prev _ ?_
    intro e he
    obtain ⟨q, hq, rfl⟩ := List.mem_map.1 he
    obtain ⟨j, _, rfl⟩ := List.mem_map.1 hq
    rfl

theorem uniqued_map_event (t : edge_tag) (k a : Nat) (l : List Nat) :
    (uniqued (a :: l)).map (fun x => Event.mk t x k) =
      Event.mk t a k :: drop_repeats (Event.mk t a k) (l.map (fun x => Event.mk t x k)) := by
  induction l generalizing a with
  | nil => rfl
  | cons b r ih =>
    rw [uniqued, List.map_cons, drop_repeats]
    by_cases h : a = b
    · subst h
      rw [if_pos rfl, if_pos rfl]
      exact ih a
    · have h2 : ¬ (Event.mk t b k = Event.mk t a k) := fun e => h (congrArg Event.x e).symm
      rw [if_neg h, if_neg h2, List.map_cons, ih b]

theorem remove_repeats_map_event (t : edge_tag) (k : Nat) (l : List Nat) :
    remove_repeats (l.map (fun x => Event.mk t x k)) =
      (uniqued l).map (fun x => Event.mk t x k) := by
  cases l with
  | nil => rfl
  | cons a r => rw [uniqued_map_event, List.map_cons, remove_repeats]

theorem merge_dummies_filter_events (ops : KmerOps) (u : UniqueState) (f : FirstFlaggerState)
    (A B : Nat → Nat) (N k : Nat) (D : Nat → Nat) (M : Nat) (L : Nat → Nat) (t : edge_tag) :
    ((merge_dummies ops u f A B N k D M L).filter (fun e => decide (e.tag = t))).map
        Flagged.event =
      (suppress_repeats none ((merge_dummies_pushes ops A B N k D M L).map Push.event)).filter
        (fun e => decide (e.tag = t)) := by
  rw [← remove_repeats_eq_suppress, ← merge_dummies_events ops u f, List.filter_map]
  rfl

/-- C3. On input whose node keys `get_b` are non-decreasing (those of A may be anything), the
`standard` calls the visitor receives from `merge_dummies` are exactly table A with consecutive
equal entries collapsed to one, in A's order and each with length `k`. -/
theorem standard_events_are_table_a (ops : KmerOps) (u : UniqueState) (f : FirstFlaggerState)
    (A B : Nat → Nat) (N k : Nat) (D : Nat → Nat) (M : Nat) (L : Nat → Nat)
    (hB : nondecreasing (get_b ops B k) N) :
    ((merge_dummies ops u f A B N k D M L).filter
        (fun e => decide (e.tag = edge_tag.standard))).map Flagged.event =
      (uniqued (table_range A N)).map (fun x => Event.mk edge_tag.standard x k) := by
  rw [merge_dummies_filter_events]
  unfold merge_dummies_pushes
  rw [merge_dummies_pushes_standard ops A B N k D M L hB ⟨0, 0, 0⟩ none
    (fun _ h => by simp at h), ← remove_repeats_eq_suppress, ← remove_repeats_map_event]
  unfold standard_events table_range
  rw [List.range_eq_range', List.map_map]
  rfl

/-- C3, at a concrete input: table A holds the edge `5` twice in a row. -/
theorem standard_events_are_table_a_witness :
    ((merge_dummies kmer64 ⟨false, edge_tag.standard, 0, 0⟩ ⟨false, 0, 0⟩
          (tbl [5, 5, 9]) (tbl [4, 80, 80]) 3 32 (tbl [1, 1, 2, 3]) 4 (tbl [1, 1, 2, 3])).filter
        (fun e => decide (e.tag = edge_tag.standard))).map Flagged.event =
      [⟨edge_tag.standard, 5, 32⟩, ⟨edge_tag.standard, 9, 32⟩] :=
  (standard_events_are_table_a kmer64 ⟨false, edge_tag.standard, 0, 0⟩ ⟨false, 0, 0⟩
    (tbl [5, 5, 9]) (tbl [4, 80, 80]) 3 32 (tbl [1, 1, 2, 3]) 4 (tbl [1, 1, 2, 3])
    (by decide)).trans (by decide)

/-! ## C4: the out_dummy events -/

theorem out_dummy_events_nil (ops : KmerOps) (A B : Nat → Nat) (N k b : Nat) (h : ¬ b < N) :
    out_dummy_events ops A B N k b = [] := by
  unfold out_dummy_events
  have : N - b = 0 := by omega
  rw [this]
  rfl

theorem out_dummy_events_cons (ops : KmerOps) (A B : Nat → Nat) (N k b : Nat) (h : b < N)
    (hk : get_b ops B k b ∉ a_keys ops A N) :
    out_dummy_events ops A B N k b =
      (out_dummy_push ops B k b).event :: out_dummy_events ops A B N k (b + 1) := by
  unfold out_dummy_events
  obtain ⟨n, hn⟩ : ∃ n, N - b = n + 1 := ⟨N - b - 1, by omega⟩
  have hn2 : N - (b + 1) = n := by omega
  rw [hn, hn2, List.range'_succ, List.map_cons, List.filter_cons_of_pos (by simpa using hk),
    List.map_cons]
  rfl

theorem out_dummy_events_skip (ops : KmerOps) (A B : Nat → Nat) (N k b : Nat) (h : b < N)
    (hk : get_b ops B k b ∈ a_keys ops A N) :
    out_dummy_events ops A B N k b = out_dummy_events ops A B N k (b + 1) := by
  unfold out_dummy_events
  obtain ⟨n, hn⟩ : ∃ n, N - b = n + 1 := ⟨N - b - 1, by omega⟩
  have hn2 : N - (b + 1) = n := by omega
  rw [hn, hn2, List.range'_succ, List.map_cons, List.filter_cons_of_neg (by simpa using hk)]

theorem out_dummy_events_mem (ops : KmerOps) (A B : Nat → Nat) (N k b : Nat) (e : Event)
    (h : e ∈ out_dummy_events ops A B N k b) :
    ∃ j, b ≤ j ∧ j < N ∧ e = (out_dummy_push ops B k j).event := by
  unfold out_dummy_events at h
  obtain ⟨v, hv, rfl⟩ := List.mem_map.1 h
  obtain ⟨j, hj, rfl⟩ := List.mem_map.1 (List.mem_filter.1 hv).1
  rw [List.mem_range'_1] at hj
  exact ⟨j, hj.1, by omega, rfl⟩

/-- Entries of B whose key is a key of A contribute no `out_dummy` event. -/
theorem out_dummy_events_skip_range (ops : KmerOps) (A B : Nat → Nat) (N k b b2 : Nat)
    (h1 : b ≤ b2) (h2 : b2 ≤ N)
    (hk : ∀ j, b ≤ j → j < b2 → get_b ops B k j ∈ a_keys ops A N) :
    out_dummy_events ops A B N k b = out_dummy_events ops A B N k b2 := by
  obtain ⟨n, hn⟩ : ∃ n, b2 = b + n := ⟨b2 - b, by omega⟩
  subst hn
  clear h1
  induction n with
  | zero => rfl
  | succ n ih =>
    rw [ih (by omega) (fun j hj1 hj2 => hk j hj1 (by omega)),
      out_dummy_events_skip ops A B N k (b + n) (by omega) (hk _ (by omega) (by omega))]
    rfl

/-- Entries of B that repeat the key of the `out_dummy` call just made are repeats for
`Unique`. -/
theorem out_dummy_events_skip_same (ops : KmerOps) (A B : Nat → Nat) (N k b b2 v : Nat)
    (h1 : b ≤ b2) (h2 : b2 ≤ N) (hk : ∀ j, b ≤ j → j < b2 → get_b ops B k j = v) :
    suppress_repeats (some ⟨edge_tag.out_dummy, v, k⟩) (out_dummy_events ops A B N k b) =
      suppress_repeats (some ⟨edge_tag.out_dummy, v, k⟩) (out_dummy_events ops A B N k b2) := by
  obtain ⟨n, hn⟩ : ∃ n, b2 = b + n := ⟨b2 - b, by omega⟩
  subst hn
  clear h1
  induction n with
  | zero => rfl
  | succ n ih =>
    rw [ih (by omega) (fun j hj1 hj2 => hk j hj1 (by omega))]
    by_cases hm : get_b ops B k (b + n) ∈ a_keys ops A N
    · rw [out_dummy_events_skip ops A B N k (b + n) (by omega) hm]
      rfl
    · rw [out_dummy_events_cons ops A B N k (b + n) (by omega) hm, suppress_repeats_cons]
      have e : (out_dummy_push ops B k (b + n)).event = ⟨edge_tag.out_dummy, v, k⟩ := by
        simp only [out_dummy_push, Push.event, hk (b + n) (by omega) (by omega)]
      rw [e, if_pos rfl]
      rfl

theorem suppress_repeats_head_congr (p q : Option Event) (l : List Event)
    (h : ∀ e, l.head? = some e → p ≠ some e ∧ q ≠ some e) :
    suppress_repeats p l = suppress_repeats q l := by
  cases l with
  | nil => rfl
  | cons e es =>
    obtain ⟨h1, h2⟩ := h e rfl
    rw [suppress_repeats_cons, suppress_repeats_cons q, if_neg h1, if_neg h2]

/-- A step of `merge_dummies` that makes an `out_dummy` call, seen through `Unique`. -/
theorem out_events_out_step (ops : KmerOps) (A B : Nat → Nat) (N k : Nat) (D L : Nat → Nat)
    (M : Nat) (prev : Option Event) (b b2 d : Nat) (T : List Push) (hb : b < N)
    (hk : get_b ops B k b ∉ a_keys ops A N)
    (hprev : prev = some (out_dummy_push ops B k b).event →
      d < M → ¬ shl ops.W (D d) ≤ shl ops.W (get_b ops B k b))
    (hskip : suppress_repeats (some (out_dummy_push ops B k b).event)
        (out_dummy_events ops A B N k (b + 1)) =
      suppress_repeats (some (out_dummy_push ops B k b).event)
        (out_dummy_events ops A B N k b2))
    (ih : (suppress_repeats (some (out_dummy_push ops B k b).event) (T.map Push.event)).filter
        (fun e => decide (e.tag = edge_tag.out_dummy)) =
      suppress_repeats (some (out_dummy_push ops B k b).event)
        (out_dummy_events ops A B N k b2)) :
    (suppress_repeats prev
        (((check_for_in_dummies ops.W D L M (get_b ops B k b) d).1 ++
          out_dummy_push ops B k b :: T).map Push.event)).filter
        (fun e => decide (e.tag = edge_tag.out_dummy)) =
      suppress_repeats prev (out_dummy_events ops A B N k b) := by
  rw [out_dummy_events_cons ops A B N k b hb hk, List.map_append, List.map_cons,
    suppress_repeats_append, List.filter_append,
    filter_suppress_nil _ prev _ (fun e he => by
      rw [flush_events_tag ops.W D L M _ d e he]; rfl),
    List.nil_append, suppress_repeats_cons, suppress_repeats_cons prev, List.filter_append, ih,
    hskip]
  congr 1
  by_cases hp : prev = some (out_dummy_push ops B k b).event
  · have hF := flush_nil_of_not_le ops.W D L M (get_b ops B k b) d (hprev hp)
    rw [hF]
    simp [last_event, hp]
  · rw [if_neg hp]
    by_cases hF : (check_for_in_dummies ops.W D L M (get_b ops B k b) d).1 = []
    · rw [hF]
      simp only [List.map_nil, last_event]
      rw [if_neg hp]
      simp [out_dummy_push, Push.event]
    · obtain ⟨e, he1, he2⟩ := last_event_tag prev
        ((check_for_in_dummies ops.W D L M (get_b ops B k b) d).1.map Push.event)
        edge_tag.in_dummy
        (fun e he => flush_events_tag ops.W D L M _ d e he) (by simpa using hF)
      rw [he1]
      have hne : ¬ (some e = some (out_dummy_push ops B k b).event) := by
        intro h
        have h2 := Option.some.inj h
        rw [h2] at he2
        simp [out_dummy_push, Push.event] at he2
      rw [if_neg hne]
      simp [out_dummy_push, Push.event]

/-- A step of `merge_dummies` that makes a `standard` call, seen through `Unique`. -/
theorem out_events_standard_step (ops : KmerOps) (A B : Nat → Nat) (N k : Nat)
    (D L : Nat → Nat) (M : Nat) (prev : Option Event) (a b b2 d : Nat) (T : List Push)
    (hprev : ∀ e ∈ out_dummy_events ops A B N k b2, prev ≠ some e)
    (hskip : out_dummy_events ops A B N k b = out_dummy_events ops A B N k b2)
    (ih : (suppress_repeats (some (standard_push A k a).event) (T.map Push.event)).filter
        (fun e => decide (e.tag = edge_tag.out_dummy)) =
      suppress_repeats (some (standard_push A k a).event)
        (out_dummy_events ops A B N k b2)) :
    (suppress_repeats prev
        (((check_for_in_dummies ops.W D L M (A a) d).1 ++
          standard_push A k a :: T).map Push.event)).filter
        (fun e => decide (e.tag = edge_tag.out_dummy)) =
      suppress_repeats prev (out_dummy_events ops A B N k b) := by
  rw [List.map_append, List.map_cons, suppress_repeats_append, List.filter_append,
    filter_suppress_nil _ prev _ (fun e he => by
      rw [flush_events_tag ops.W D L M _ d e he]; rfl),
    List.nil_append, suppress_repeats_cons, List.filter_append, ih, hskip]
  have h1 : (if last_event prev ((check_for_in_dummies ops.W D L M (A a) d).1.map
      Push.event) = some (standard_push A k a).event then []
      else [(standard_push A k a).event]).filter
        (fun e => decide (e.tag = edge_tag.out_dummy)) = [] := by
    split <;> simp [standard_push, Push.event]
  rw [h1, List.nil_append]
  refine suppress_repeats_head_congr _ _ _
    (fun e he => ⟨?_, hprev e (List.mem_of_mem_head? he)⟩)
  obtain ⟨j, _, _, rfl⟩ := out_dummy_events_mem ops A B N k b2 e (List.mem_of_mem_head? he)
  intro h
  have := congrArg Event.tag (Option.some.inj h)
  simp [out_dummy_push, standard_push, Push.event] at this

theorem not_mem_a_keys (ops : KmerOps) (A : Nat → Nat) (N v : Nat) :
    v ∉ a_keys ops A N ↔ ∀ j, j < N → get_a ops A j ≠ v := by
  unfold a_keys
  simp only [List.mem_map, List.mem_range, not_exists, not_and]

/-- Along the run of `merge_dummies`, on input whose keys are non-decreasing, `Unique` forwards
of the `out_dummy` calls still to come one for every run of entries of B that share a key which
is no key of A. -/
theorem merge_dummies_pushes_out_dummy (ops : KmerOps) (A B : Nat → Nat) (N k : Nat)
    (D : Nat → Nat) (M : Nat) (L : Nat → Nat)
    (hA : nondecreasing (get_a ops A) N) (hB : nondecreasing (get_b ops B k) N)
    (i : Indices)
    (hinv : i.b_idx < N → ∀ j, j < i.a_idx → j < N → get_a ops A j < get_b ops B k i.b_idx)
    (prev : Option Event)
    (hprev : ∀ v, prev = some ⟨edge_tag.out_dummy, v, k⟩ →
      (i.d_idx < M → ¬ shl ops.W (D i.d_idx) ≤ shl ops.W v) ∧
      (i.a_idx < N → ∀ j, i.b_idx ≤ j → j < N → get_b ops B k j ≠ v)) :
    (suppress_repeats prev ((loops_from ops A B N k D M L i).map Push.event)).filter
        (fun e => decide (e.tag = edge_tag.out_dummy)) =
      suppress_repeats prev (out_dummy_events ops A B N k i.b_idx) := by
  revert prev
  revert hinv
  refine loops_induct ops A B N k D M L
    (fun i T =>
      (i.b_idx < N → ∀ j, j < i.a_idx → j < N → get_a ops A j < get_b ops B k i.b_idx) →
      ∀ prev : Option Event,
      (∀ v, prev = some ⟨edge_tag.out_dummy, v, k⟩ →
        (i.d_idx < M → ¬ shl ops.W (D i.d_idx) ≤ shl ops.W v) ∧
        (i.a_idx < N → ∀ j, i.b_idx ≤ j → j < N → get_b ops B k j ≠ v)) →
      (suppress_repeats prev (T.map Push.event)).filter
          (fun e => decide (e.tag = edge_tag.out_dummy)) =
        suppress_repeats prev (out_dummy_events ops A B N k i.b_idx)) ?_ ?_ ?_ ?_ ?_ ?_ i
  · -- first loop, `b < a`
    intro i T ha hb hlt ih hinv prev hprev
    have hbs := inc_b_spec ops B N k (get_b ops B k i.b_idx) i.b_idx
    have h5 := (check_for_in_dummies_spec ops.W D L M (get_b ops B k i.b_idx) i.d_idx).2.2.2.2
    have hk : get_b ops B k i.b_idx ∉ a_keys ops A N := by
      rw [not_mem_a_keys]
      intro j hj
      rcases Nat.lt_or_ge j i.a_idx with h | h
      · have := hinv hb j h hj; omega
      · have := nondecreasing_le _ N hA i.a_idx j h hj; omega
    refine out_events_out_step ops A B N k D L M prev i.b_idx _ i.d_idx T hb hk
      (fun hp => absurd rfl ((hprev _ hp).2 ha i.b_idx (le_refl _) hb))
      (out_dummy_events_skip_same ops A B N k (i.b_idx + 1) _ _ (hbs.1 hb).1 (hbs.1 hb).2
        (fun j h1 h2 => hbs.2.2.1 j h1 h2)) (ih ?_ _ ?_)
    · intro h j hj1 hj2
      dsimp only at h hj1 ⊢
      have := hinv hb j hj1 hj2
      have := nondecreasing_le _ N hB i.b_idx _ (le_of_lt (hbs.1 hb).1) h
      omega
    · intro v hv
      have ev : get_b ops B k i.b_idx = v := congrArg Event.x (Option.some.inj hv)
      dsimp only
      refine ⟨fun h => by rw [← ev]; exact h5 h, fun _ j hj1 hj2 => ?_⟩
      have hlt2 : inc_b ops B N k (get_b ops B k i.b_idx) i.b_idx < N := by omega
      have h6 := hbs.2.2.2 hb hlt2
      have h7 := nondecreasing_le _ N hB i.b_idx _ (le_of_lt (hbs.1 hb).1) hlt2
      have h8 := nondecreasing_le _ N hB _ j hj1 hj2
      omega
  · -- first loop, `a < b`
    intro i T ha hb hlt ih hinv prev hprev
    refine out_events_standard_step ops A B N k D L M prev i.a_idx i.b_idx i.b_idx i.d_idx T
      ?_ rfl (ih ?_ _ ?_)
    · intro e he hp
      obtain ⟨j, hj1, hj2, rfl⟩ := out_dummy_events_mem ops A B N k _ e he
      exact (hprev _ hp).2 ha j hj1 hj2 rfl
    · intro h j hj1 hj2
      dsimp only at h hj1 ⊢
      rcases Nat.eq_or_lt_of_le (Nat.le_of_lt_succ hj1) with e | e
      · rw [e]; exact hlt
      · exact hinv hb j e hj2
    · intro v hv
      have := congrArg Event.tag (Option.some.inj hv)
      simp [standard_push, Push.event] at this
  · -- first loop, `a = b`
    intro i T ha hb heq ih hinv prev hprev
    have hbs := inc_b_spec ops B N k (get_b ops B k i.b_idx) i.b_idx
    refine out_events_standard_step ops A B N k D L M prev i.a_idx i.b_idx _ i.d_idx T
      ?_ (out_dummy_events_skip_range ops A B N k i.b_idx _ (le_of_lt (hbs.1 hb).1)
        (hbs.1 hb).2 ?_) (ih ?_ _ ?_)
    · intro e he hp
      obtain ⟨j, hj1, hj2, rfl⟩ := out_dummy_events_mem ops A B N k _ e he
      exact (hprev _ hp).2 ha j (le_trans (le_of_lt (hbs.1 hb).1) hj1) hj2 rfl
    · intro j hj1 hj2
      have e : get_b ops B k j = get_a ops A i.a_idx := by
        rcases Nat.eq_or_lt_of_le hj1 with e | e
        · rw [← e, heq]
        · rw [hbs.2.2.1 j e hj2, heq]
      rw [e]
      exact List.mem_map.2 ⟨i.a_idx, List.mem_range.2 ha, rfl⟩
    · intro h j hj1 hj2
      dsimp only at h hj1 ⊢
      have h6 := hbs.2.2.2 hb h
      have h7 := nondecreasing_le _ N hB i.b_idx _ (le_of_lt (hbs.1 hb).1) h
      rcases Nat.eq_or_lt_of_le (Nat.le_of_lt_succ hj1) with e | e
      · rw [e]; omega
      · have := hinv hb j e hj2; omega
    · intro v hv
      have := congrArg Event.tag (Option.some.inj hv)
      simp [standard_push, Push.event] at this
  · -- second loop
    intro i T ha hb ih hinv prev hprev
    refine out_events_standard_step ops A B N k D L M prev i.a_idx i.b_idx i.b_idx i.d_idx T
      ?_ rfl (ih ?_ _ ?_)
    · intro e he
      obtain ⟨j, hj1, hj2, _⟩ := out_dummy_events_mem ops A B N k _ e he
      omega
    · intro h
      exact absurd h hb
    · intro v hv
      have := congrArg Event.tag (Option.some.inj hv)
      simp [standard_push, Push.event] at this
  · -- third loop
    intro i T ha hb ih hinv prev hprev
    have h5 := (check_for_in_dummies_spec ops.W D L M (get_b ops B k i.b_idx) i.d_idx).2.2.2.2
    have hk : get_b ops B k i.b_idx ∉ a_keys ops A N := by
      rw [not_mem_a_keys]
      intro j hj
      have := hinv hb j (by omega) hj
      omega
    refine out_events_out_step ops A B N k D L M prev i.b_idx (i.b_idx + 1) i.d_idx T hb hk
      (fun hp => (hprev _ hp).1) rfl (ih ?_ _ ?_)
    · intro h j hj1 hj2
      dsimp only at h hj1 ⊢
      have := hinv hb j hj1 hj2
      have := nondecreasing_le _ N hB i.b_idx _ (Nat.le_add_right _ 1) h
      omega
    · intro v hv
      have ev : get_b ops B k i.b_idx = v := congrArg Event.x (Option.some.inj hv)
      dsimp only
      exact ⟨fun h => by rw [← ev]; exact h5 h, fun h => absurd h ha⟩
  · -- last loop
    intro i ha hb _ prev _
    rw [out_dummy_events_nil ops A B N k i.b_idx hb]
    refine filter_suppress_nil _ prev _ ?_
    intro e he
    obtain ⟨q, hq, rfl⟩ := List.mem_map.1 he
    obtain ⟨j, _, rfl⟩ := List.mem_map.1 hq
    rfl

theorem b_keys_sorted (ops : KmerOps) (B : Nat → Nat) (N k : Nat)
    (hB : nondecreasing (get_b ops B k) N) :
    (b_keys ops B N k).Pairwise (fun v w => v ≤ w) := by
  unfold b_keys
  rw [List.pairwise_map]
  refine List.Pairwise.imp_of_mem ?_ (List.pairwise_lt_range N)
  intro i j _ hj hij
  exact hB j (List.mem_range.1 hj) i hij

/-- C4. On input whose node keys `get_a` and `get_b` are non-decreasing, the `out_dummy` calls
the visitor receives from `merge_dummies` are, in order and each with length `k`, the keys of B
that are the key of no entry of A, consecutive equal ones collapsed to one. That sequence is
strictly increasing, it holds exactly the keys `get_b(j)`, `j < N`, that differ from `get_a(i)`
for every `i < N`, and the visitor receives exactly one `out_dummy` call for each such key and
none for any other value: ties in B yield a single call. -/
theorem out_dummy_events_are_b_minus_a (ops : KmerOps) (u : UniqueState)
    (f : FirstFlaggerState) (A B : Nat → Nat) (N k : Nat) (D : Nat → Nat) (M : Nat)
    (L : Nat → Nat)
    (hA : nondecreasing (get_a ops A) N) (hB : nondecreasing (get_b ops B k) N) :
    ((merge_dummies ops u f A B N k D M L).filter
        (fun e => decide (e.tag = edge_tag.out_dummy))).map Flagged.event =
      (uniqued ((b_keys ops B N k).filter (fun v => decide (v ∉ a_keys ops A N)))).map
        (fun v => Event.mk edge_tag.out_dummy v k) ∧
    (uniqued ((b_keys ops B N k).filter (fun v => decide (v ∉ a_keys ops A N)))).Pairwise
      (fun v w => v < w) ∧
    (∀ v, v ∈ uniqued ((b_keys ops B N k).filter (fun v => decide (v ∉ a_keys ops A N))) ↔
      ((∃ j, j < N ∧ v = get_b ops B k j) ∧ ∀ i, i < N → v ≠ get_a ops A i)) ∧
    (∀ v, (merge_dummies ops u f A B N k D M L).countP
        (fun e => decide (e.tag = edge_tag.out_dummy ∧ e.x = v)) =
      if (∃ j, j < N ∧ v = get_b ops B k j) ∧ ∀ i, i < N → v ≠ get_a ops A i then 1 else 0) := by
  have hlist : ((merge_dummies ops u f A B N k D M L).filter
        (fun e => decide (e.tag = edge_tag.out_dummy))).map Flagged.event =
      (uniqued ((b_keys ops B N k).filter (fun v => decide (v ∉ a_keys ops A N)))).map
        (fun v => Event.mk edge_tag.out_dummy v k) := by
    rw [merge_dummies_filter_events]
    unfold merge_dummies_pushes
    rw [merge_dummies_pushes_out_dummy ops A B N k D M L hA hB ⟨0, 0, 0⟩
      (fun _ j hj => absurd hj (Nat.not_lt_zero j)) none (fun _ h => by simp at h),
      ← remove_repeats_eq_suppress, ← remove_repeats_map_event]
    unfold out_dummy_events b_keys
    rw [List.range_eq_range']
    rfl
  have hsorted : (uniqued ((b_keys ops B N k).filter
      (fun v => decide (v ∉ a_keys ops A N)))).Pairwise (fun v w => v < w) :=
    uniqued_sorted _ (List.Pairwise.filter _ (b_keys_sorted ops B N k hB))
  have hmem : ∀ v, v ∈ uniqued ((b_keys ops B N k).filter
      (fun v => decide (v ∉ a_keys ops A N))) ↔
      ((∃ j, j < N ∧ v = get_b ops B k j) ∧ ∀ i, i < N → v ≠ get_a ops A i) := by
    intro v
    rw [uniqued_mem, List.mem_filter, decide_eq_true_eq, not_mem_a_keys]
    unfold b_keys
    simp only [List.mem_map, List.mem_range]
    constructor
    · rintro ⟨⟨j, hj, rfl⟩, h2⟩
      exact ⟨⟨j, hj, rfl⟩, fun i hi e => h2 i hi e.symm⟩
    · rintro ⟨⟨j, hj, rfl⟩, h2⟩
      exact ⟨⟨j, hj, rfl⟩, fun i hi e => h2 i hi e.symm⟩
  refine ⟨hlist, hsorted, hmem, ?_⟩
  intro v
  have hnodup := hsorted.imp (fun h => Nat.ne_of_lt h)
  have h1 : (merge_dummies ops u f A B N k D M L).countP
      (fun e => decide (e.tag = edge_tag.out_dummy ∧ e.x = v)) =
      (((merge_dummies ops u f A B N k D M L).filter
        (fun e => decide (e.tag = edge_tag.out_dummy))).map Flagged.event).countP
        (fun e => decide (e.x = v)) := by
    rw [List.countP_map, List.countP_filter]
    apply List.countP_congr
    intro e _
    simp [Flagged.event, and_comm]
  rw [h1, hlist, List.countP_map]
  have h2 : List.countP ((fun (e : Event) => decide (e.x = v)) ∘
      fun v => Event.mk edge_tag.out_dummy v k)
      (uniqued ((b_keys ops B N k).filter (fun v => decide (v ∉ a_keys ops A N)))) =
      List.count v
        (uniqued ((b_keys ops B N k).filter (fun v => decide (v ∉ a_keys ops A N)))) := by
    rw [List.count_eq_countP]
    apply List.countP_congr
    intro w _
    simp
  rw [h2, List.count_eq_of_nodup hnodup]
  by_cases hv : v ∈ uniqued ((b_keys ops B N k).filter (fun v => decide (v ∉ a_keys ops A N)))
  · rw [if_pos hv, if_pos ((hmem v).1 hv)]
  · rw [if_neg hv, if_neg (fun h => hv ((hmem v).2 h))]

/-- C4, at a concrete input: the keys of A are `5, 5, 9`, those of B are `1, 20, 20`; the tie
on `20`, drained after A is exhausted, yields one call. -/
theorem out_dummy_events_are_b_minus_a_witness :
    ((merge_dummies kmer64 ⟨false, edge_tag.standard, 0, 0⟩ ⟨false, 0, 0⟩
          (tbl [5, 5, 9]) (tbl [4, 80, 80]) 3 32 (tbl [1, 1, 2, 3]) 4 (tbl [1, 1, 2, 3])).filter
        (fun e => decide (e.tag = edge_tag.out_dummy))).map Flagged.event =
      [⟨edge_tag.out_dummy, 1, 32⟩, ⟨edge_tag.out_dummy, 20, 32⟩] :=
  (out_dummy_events_are_b_minus_a kmer64 ⟨false, edge_tag.standard, 0, 0⟩ ⟨false, 0, 0⟩
    (tbl [5, 5, 9]) (tbl [4, 80, 80]) 3 32 (tbl [1, 1, 2, 3]) 4 (tbl [1, 1, 2, 3])
    (by decide) (by decide)).1.trans (by decide)

/-! ## C6: the in_dummy events -/

theorem filter_suppress_all (P : Event → Bool) (prev : Option Event) (l : List Event)
    (h : ∀ e ∈ l, P e = true) : (suppress_repeats prev l).filter P = suppress_repeats prev l := by
  rw [List.filter_eq_self]
  intro e he
  exact h e ((suppress_repeats_sublist prev l).subset he)

theorem last_event_concat (prev : Option Event) (l : List Event) (e : Event) :
    last_event prev (l ++ [e]) = some e := by
  induction l generalizing prev with
  | nil => rfl
  | cons a r ih => exact ih (some a)

theorem dummy_events_split (D L : Nat → Nat) (M d d2 : Nat) (h1 : d ≤ d2) (h2 : d2 ≤ M) :
    dummy_events D L M d =
      ((List.range' d (d2 - d)).map (dummy_push D L)).map Push.event ++
        dummy_events D L M d2 := by
  unfold dummy_events
  have e : M - d = (M - d2) + (d2 - d) := by omega
  have e2 : d2 = d + 1 * (d2 - d) := by omega
  rw [e, ← List.range'_append d (d2 - d) (M - d2) 1, List.map_append, List.map_map, ← e2]
  rfl

theorem dummy_event_ne (D L : Nat → Nat) (i j : Nat) (h : D i ≠ D j) :
    (dummy_push D L i).event ≠ (dummy_push D L j).event :=
  fun e => h (congrArg Event.x e)

/-- What `Unique` forwards of the dummies from `d` on does not depend on the call before them,
as long as that call is not the `in_dummy` call of an equal dummy. -/
theorem dummy_events_head (D L : Nat → Nat) (M d : Nat) (prev : Option Event)
    (l : List Event) (hl : ∀ e, l.head? = some e → d < M ∧ e = (dummy_push D L d).event)
    (h2 : ∀ e, prev = some e → e.tag ≠ edge_tag.in_dummy)
    (h3 : 0 < d → d < M → (dummy_push D L (d - 1)).event ≠ (dummy_push D L d).event) :
    suppress_repeats prev l = suppress_repeats (dummy_before D L d) l := by
  refine suppress_repeats_head_congr _ _ _ (fun e he => ?_)
  obtain ⟨hd, rfl⟩ := hl e he
  constructor
  · intro h
    exact h2 _ h rfl
  · unfold dummy_before
    by_cases h0 : d = 0
    · rw [if_pos h0]; simp
    · rw [if_neg h0]
      intro h
      exact h3 (by omega) hd (Option.some.inj h)

/-- A step of `merge_dummies`, seen through `Unique` and restricted to the `in_dummy` calls. -/
theorem in_dummy_step (W : Nat) (D L : Nat → Nat) (M : Nat) (p : Push)
    (hp : p.tag ≠ edge_tag.in_dummy) (prev : Option Event) (d : Nat) (T : List Push)
    (h2 : ∀ e, prev = some e → e.tag ≠ edge_tag.in_dummy)
    (h3 : 0 < d → d < M → (dummy_push D L (d - 1)).event ≠ (dummy_push D L d).event)
    (ih : (0 < (check_for_in_dummies W D L M p.x d).2 →
        (check_for_in_dummies W D L M p.x d).2 < M →
        (dummy_push D L ((check_for_in_dummies W D L M p.x d).2 - 1)).event ≠
          (dummy_push D L (check_for_in_dummies W D L M p.x d).2).event) →
      (suppress_repeats (some p.event) (T.map Push.event)).filter
          (fun e => decide (e.tag = edge_tag.in_dummy)) =
        suppress_repeats (dummy_before D L (check_for_in_dummies W D L M p.x d).2)
          (dummy_events D L M (check_for_in_dummies W D L M p.x d).2)) :
    (suppress_repeats prev
        (((check_for_in_dummies W D L M p.x d).1 ++ p :: T).map Push.event)).filter
        (fun e => decide (e.tag = edge_tag.in_dummy)) =
      suppress_repeats (dummy_before D L d) (dummy_events D L M d) := by
  obtain ⟨c1, c2, c3, c4, c5⟩ := check_for_in_dummies_spec W D L M p.x d
  have hbound : (0 < (check_for_in_dummies W D L M p.x d).2 →
        (check_for_in_dummies W D L M p.x d).2 < M →
        (dummy_push D L ((check_for_in_dummies W D L M p.x d).2 - 1)).event ≠
          (dummy_push D L (check_for_in_dummies W D L M p.x d).2).event) := by
    intro h0 hM
    rcases Nat.eq_or_lt_of_le c1 with e | e
    · rw [← e] at h0 hM ⊢
      exact h3 h0 hM
    · apply dummy_event_ne
      intro hD
      have := c4 ((check_for_in_dummies W D L M p.x d).2 - 1) (by omega) (by omega)
      rw [hD] at this
      exact c5 hM this
  have hfilter : ((if last_event prev ((check_for_in_dummies W D L M p.x d).1.map Push.event) =
      some p.event then [] else [p.event]) : List Event).filter
        (fun e => decide (e.tag = edge_tag.in_dummy)) = [] := by
    have : p.event.tag ≠ edge_tag.in_dummy := hp
    split <;> simp [this]
  rw [List.map_append, List.map_cons, suppress_repeats_append, List.filter_append,
    filter_suppress_all _ prev _ (fun e he => by
      rw [flush_events_tag W D L M _ d e he]; rfl),
    suppress_repeats_cons, List.filter_append, hfilter, List.nil_append, ih hbound]
  by_cases hd : d < M
  · have hle : (check_for_in_dummies W D L M p.x d).2 ≤ M := by
      rcases c2 with h | h <;> omega
    rw [dummy_events_split D L M d _ c1 hle, suppress_repeats_append, ← c3]
    have hhead : suppress_repeats prev ((check_for_in_dummies W D L M p.x d).1.map Push.event) =
        suppress_repeats (dummy_before D L d)
          ((check_for_in_dummies W D L M p.x d).1.map Push.event) := by
      refine dummy_events_head D L M d prev _ (fun e he => ⟨hd, ?_⟩) h2 h3
      rw [c3] at he
      rcases Nat.eq_or_lt_of_le c1 with e1 | e1
      · rw [← e1] at he
        simp at he
      · obtain ⟨n, hn⟩ : ∃ n, (check_for_in_dummies W D L M p.x d).2 - d = n + 1 :=
          ⟨(check_for_in_dummies W D L M p.x d).2 - d - 1, by omega⟩
        rw [hn, List.range'_succ] at he
        simp only [List.map_cons, List.head?_cons, Option.some.injEq] at he
        exact he.symm
    rw [hhead]
    congr 1
    rcases Nat.eq_or_lt_of_le c1 with e1 | e1
    · have hnil : (check_for_in_dummies W D L M p.x d).1 = [] := by
        rw [c3, ← e1]; simp
      rw [hnil, ← e1]
      rfl
    · obtain ⟨n, hn⟩ : ∃ n, (check_for_in_dummies W D L M p.x d).2 - d = n + 1 :=
        ⟨(check_for_in_dummies W D L M p.x d).2 - d - 1, by omega⟩
      have hlast : (check_for_in_dummies W D L M p.x d).2 - 1 = d + n := by omega
      rw [c3, hn, List.range'_1_concat, List.map_append, List.map_append, List.map_singleton,
        List.map_singleton, last_event_concat]
      unfold dummy_before
      rw [if_neg (by omega), hlast]
  · have e1 : (check_for_in_dummies W D L M p.x d).2 = d := by
      rcases c2 with h | h <;> omega
    have hnil : (check_for_in_dummies W D L M p.x d).1 = [] := by
      rw [c3, e1]; simp
    rw [hnil, e1]
    rfl

/-- Along the run of `merge_dummies`, for every input, `Unique` forwards of the `in_dummy` calls
still to come those whose dummy differs from the dummy before it in the array. -/
theorem merge_dummies_pushes_in_dummy (ops : KmerOps) (A B : Nat → Nat) (N k : Nat)
    (D : Nat → Nat) (M : Nat) (L : Nat → Nat) (i : Indices) (prev : Option Event)
    (h2 : ∀ e, prev = some e → e.tag ≠ edge_tag.in_dummy)
    (h3 : 0 < i.d_idx → i.d_idx < M →
      (dummy_push D L (i.d_idx - 1)).event ≠ (dummy_push D L i.d_idx).event) :
    (suppress_repeats prev ((loops_from ops A B N k D M L i).map Push.event)).filter
        (fun e => decide (e.tag = edge_tag.in_dummy)) =
      suppress_repeats (dummy_before D L i.d_idx) (dummy_events D L M i.d_idx) := by
  revert h3
  revert prev
  refine loops_induct ops A B N k D M L
    (fun i T => ∀ prev : Option Event, (∀ e, prev = some e → e.tag ≠ edge_tag.in_dummy) →
      (0 < i.d_idx → i.d_idx < M →
        (dummy_push D L (i.d_idx - 1)).event ≠ (dummy_push D L i.d_idx).event) →
      (suppress_repeats prev (T.map Push.event)).filter
          (fun e => decide (e.tag = edge_tag.in_dummy)) =
        suppress_repeats (dummy_before D L i.d_idx) (dummy_events D L M i.d_idx))
    ?_ ?_ ?_ ?_ ?_ ?_ i
  · intro i T _ _ _ ih prev h2 h3
    exact in_dummy_step ops.W D L M (out_dummy_push ops B k i.b_idx)
      (by simp [out_dummy_push]) prev i.d_idx T h2 h3
      (fun hb => ih _ (fun e he => by rw [← Option.some.inj he]; simp [out_dummy_push, Push.event]) hb)
  · intro i T _ _ _ ih prev h2 h3
    exact in_dummy_step ops.W D L M (standard_push A k i.a_idx)
      (by simp [standard_push]) prev i.d_idx T h2 h3
      (fun hb => ih _ (fun e he => by rw [← Option.some.inj he]; simp [standard_push, Push.event]) hb)
  · intro i T _ _ _ ih prev h2 h3
    exact in_dummy_step ops.W D L M (standard_push A k i.a_idx)
      (by simp [standard_push]) prev i.d_idx T h2 h3
      (fun hb => ih _ (fun e he => by rw [← Option.some.inj he]; simp [standard_push, Push.event]) hb)
  · intro i T _ _ ih prev h2 h3
    exact in_dummy_step ops.W D L M (standard_push A k i.a_idx)
      (by simp [standard_push]) prev i.d_idx T h2 h3
      (fun hb => ih _ (fun e he => by rw [← Option.some.inj he]; simp [standard_push, Push.event]) hb)
  · intro i T _ _ ih prev h2 h3
    exact in_dummy_step ops.W D L M (out_dummy_push ops B k i.b_idx)
      (by simp [out_dummy_push]) prev i.d_idx T h2 h3
      (fun hb => ih _ (fun e he => by rw [← Option.some.inj he]; simp [out_dummy_push, Push.event]) hb)
  · intro i _ _ prev h2 h3
    have e : ((List.range' i.d_idx (M - i.d_idx)).map (dummy_push D L)).map Push.event =
        dummy_events D L M i.d_idx := by
      unfold dummy_events
      rw [List.map_map]
      rfl
    rw [e, filter_suppress_all _ prev _ (fun e he => by
      unfold dummy_events at he
      obtain ⟨j, _, rfl⟩ := List.mem_map.1 he
      rfl)]
    refine dummy_events_head D L M i.d_idx prev _ (fun e he => ?_) h2 h3
    unfold dummy_events at he
    by_cases hd : i.d_idx < M
    · obtain ⟨n, hn⟩ : ∃ n, M - i.d_idx = n + 1 := ⟨M - i.d_idx - 1, by omega⟩
      rw [hn, List.range'_succ] at he
      simp only [List.map_cons, List.head?_cons, Option.some.injEq] at he
      exact ⟨hd, he.symm⟩
    · have : M - i.d_idx = 0 := by omega
      rw [this] at he
      simp at he

/-- The `in_dummy` calls the visitor receives, for every input: the dummies, in array order,
without those that repeat the dummy before them. -/
theorem merge_dummies_in_dummy_events (ops : KmerOps) (u : UniqueState)
    (f : FirstFlaggerState) (A B : Nat → Nat) (N k : Nat) (D : Nat → Nat) (M : Nat)
    (L : Nat → Nat) :
    ((merge_dummies ops u f A B N k D M L).filter
        (fun e => decide (e.tag = edge_tag.in_dummy))).map Flagged.event =
      remove_repeats (dummy_events D L M 0) := by
  rw [merge_dummies_filter_events]
  unfold merge_dummies_pushes
  rw [merge_dummies_pushes_in_dummy ops A B N k D M L ⟨0, 0, 0⟩ none
    (fun _ h => by simp at h) (fun h => absurd h (lt_irrefl 0)), remove_repeats_eq_suppress]
  rfl

theorem lex_lt_of_le_of_ne (e1 e2 : Event) (ht : e2.tag = e1.tag) (hle : lex_le e1 e2)
    (hne : e2 ≠ e1) : lex_lt e1 e2 := by
  unfold lex_le at hle
  unfold lex_lt
  have h := (Event_ne_iff e2 e1).1 hne
  rcases hle with h1 | ⟨h1, h2⟩
  · exact Or.inl h1
  · right
    refine ⟨h1, ?_⟩
    rcases h with h | h | h
    · exact absurd ht h
    · exact absurd h1.symm h
    · omega

theorem lex_lt_trans (e1 e2 e3 : Event) (h1 : lex_lt e1 e2) (h2 : lex_lt e2 e3) :
    lex_lt e1 e3 := by
  unfold lex_lt at *
  omega

/-- Without its repeats a sequence in lexicographic order is strictly increasing. -/
theorem drop_repeats_strict (p : Event) (l : List Event) (ht : ∀ e ∈ l, e.tag = p.tag)
    (hs : (p :: l).Pairwise lex_le) :
    (drop_repeats p l).Pairwise lex_lt ∧ ∀ e ∈ drop_repeats p l, lex_lt p e := by
  induction l generalizing p with
  | nil => simp [drop_repeats]
  | cons e es ih =>
    have hpe : lex_le p e := List.rel_of_pairwise_cons hs (List.mem_cons_self e es)
    have hte : e.tag = p.tag := ht e (List.mem_cons_self e es)
    obtain ⟨ih1, ih2⟩ := ih e (fun q hq => by rw [ht q (List.mem_cons_of_mem _ hq), hte])
      (List.Pairwise.of_cons hs)
    rw [drop_repeats]
    by_cases h : e = p
    · rw [if_pos h]
      subst h
      exact ⟨ih1, ih2⟩
    · rw [if_neg h]
      have hlt := lex_lt_of_le_of_ne p e hte hpe h
      refine ⟨List.Pairwise.cons ih2 ih1, ?_⟩
      intro q hq
      rcases List.mem_cons.1 hq with e1 | e1
      · rw [e1]; exact hlt
      · exact lex_lt_trans p e q hlt (ih2 q e1)

theorem remove_repeats_nodup (l : List Event) (t : edge_tag) (ht : ∀ e ∈ l, e.tag = t)
    (hs : l.Pairwise lex_le) : (remove_repeats l).Nodup := by
  cases l with
  | nil => exact List.nodup_nil
  | cons p es =>
    obtain ⟨h1, h2⟩ := drop_repeats_strict p es
      (fun e he => by rw [ht e (List.mem_cons_of_mem _ he), ht p (List.mem_cons_self p es)]) hs
    have irr : ∀ a b : Event, lex_lt a b → a ≠ b := by
      intro a b hab e
      subst e
      unfold lex_lt at hab
      omega
    rw [remove_repeats]
    exact List.Pairwise.cons (fun q hq => irr p q (h2 q hq)) (h1.imp (fun h => irr _ _ h))

theorem mem_drop_repeats (p e : Event) (l : List Event) (h : e ∈ l) :
    e ∈ drop_repeats p l ∨ e = p := by
  induction l generalizing p with
  | nil => simp at h
  | cons a r ih =>
    rw [drop_repeats]
    by_cases ha : a = p
    · rw [if_pos ha]
      rcases List.mem_cons.1 h with e1 | e1
      · right; rw [e1, ha]
      · rcases ih a e1 with h1 | h1
        · left; exact h1
        · right; rw [h1, ha]
    · rw [if_neg ha]
      rcases List.mem_cons.1 h with e1 | e1
      · left; rw [e1]; exact List.mem_cons_self a _
      · rcases ih a e1 with h1 | h1
        · left; exact List.mem_cons_of_mem _ h1
        · left; rw [h1]; exact List.mem_cons_self a _

theorem mem_remove_repeats (e : Event) (l : List Event) : e ∈ remove_repeats l ↔ e ∈ l := by
  constructor
  · exact fun h => (remove_repeats_sublist l).subset h
  · intro h
    cases l with
    | nil => simp at h
    | cons p es =>
      rw [remove_repeats]
      rcases List.mem_cons.1 h with e1 | e1
      · rw [e1]; exact List.mem_cons_self p _
      · rcases mem_drop_repeats p e es e1 with h1 | h1
        · exact List.mem_cons_of_mem _ h1
        · rw [h1]; exact List.mem_cons_self p _

theorem dummy_events_eq_map (D L : Nat → Nat) (M : Nat) :
    dummy_events D L M 0 =
      ((List.range M).map (fun i => (D i, L i))).map
        (fun (q : Nat × Nat) => Event.mk edge_tag.in_dummy q.1 q.2) := by
  unfold dummy_events
  rw [List.map_map, List.range_eq_range']
  rfl

/-- C6, as amended. For every input of `merge_dummies` in which the pairs `(D[i], L[i])` are
non-decreasing in the lexicographic order (by k-mer value, and by length among equal k-mers),
the number of `in_dummy` calls the visitor receives equals the number of distinct pairs
`(D[i], L[i])` with `i < M`. -/
theorem in_dummy_count (ops : KmerOps) (u : UniqueState) (f : FirstFlaggerState)
    (A B : Nat → Nat) (N k : Nat) (D : Nat → Nat) (M : Nat) (L : Nat → Nat)
    (h : pairs_nondecreasing D L M) :
    (merge_dummies ops u f A B N k D M L).countP
        (fun e => decide (e.tag = edge_tag.in_dummy)) = distinct_pairs D L M := by
  have hsorted : (dummy_events D L M 0).Pairwise lex_le := by
    unfold dummy_events
    rw [List.pairwise_map]
    refine List.Pairwise.imp_of_mem ?_ (List.pairwise_lt_range' 0 _)
    intro i j _ hj hij
    rw [List.mem_range'_1] at hj
    exact h j (by omega) i hij
  have htag : ∀ e ∈ dummy_events D L M 0, e.tag = edge_tag.in_dummy := by
    intro e he
    unfold dummy_events at he
    obtain ⟨j, _, rfl⟩ := List.mem_map.1 he
    rfl
  have hnodup := remove_repeats_nodup _ _ htag hsorted
  have hperm : (remove_repeats (dummy_events D L M 0)).Perm (dummy_events D L M 0).dedup :=
    (List.perm_ext_iff_of_nodup hnodup (List.nodup_dedup _)).2
      (fun e => by rw [mem_remove_repeats, List.mem_dedup])
  have hinj : Function.Injective
      (fun (q : Nat × Nat) => Event.mk edge_tag.in_dummy q.1 q.2) := by
    intro q1 q2 e
    have e1 := congrArg Event.x e
    have e2 := congrArg Event.k e
    exact Prod.ext e1 e2
  rw [List.countP_eq_length_filter, ← List.length_map _ Flagged.event,
    merge_dummies_in_dummy_events, hperm.length_eq, dummy_events_eq_map,
    List.dedup_map_of_injective hinj, List.length_map]
  rfl

/-- C6, as amended, at a concrete input: the dummy `(1, 1)` occurs twice. -/
theorem in_dummy_count_witness :
    pairs_nondecreasing (tbl [1, 1, 2, 3]) (tbl [1, 1, 2, 3]) 4 ∧
    (merge_dummies kmer64 ⟨false, edge_tag.standard, 0, 0⟩ ⟨false, 0, 0⟩
        (tbl [5, 5, 9]) (tbl [4, 80, 80]) 3 32 (tbl [1, 1, 2, 3]) 4 (tbl [1, 1, 2, 3])).countP
        (fun e => decide (e.tag = edge_tag.in_dummy)) = 3 :=
  ⟨by decide, (in_dummy_count kmer64 ⟨false, edge_tag.standard, 0, 0⟩ ⟨false, 0, 0⟩
      (tbl [5, 5, 9]) (tbl [4, 80, 80]) 3 32 (tbl [1, 1, 2, 3]) 4 (tbl [1, 1, 2, 3])
      (by decide)).trans (by decide)⟩

/-- C6, as stated, fails: D is sorted by k-mer value, `5, 5, 5`, with lengths `1, 2, 1`; no
dummy repeats the one before it, so the visitor receives three `in_dummy` calls, while there are
two distinct pairs, `(5, 1)` and `(5, 2)`. -/
theorem in_dummy_count_unsorted_lengths :
    nondecreasing (tbl [5, 5, 5]) 3 ∧
    (merge_dummies kmer64 ⟨false, edge_tag.standard, 0, 0⟩ ⟨false, 0, 0⟩
        (tbl []) (tbl []) 0 32 (tbl [5, 5, 5]) 3 (tbl [1, 2, 1])).countP
        (fun e => decide (e.tag = edge_tag.in_dummy)) = 3 ∧
    distinct_pairs (tbl [5, 5, 5]) (tbl [1, 2, 1]) 3 = 2 := by
  decide

/-! ## C5: the k-mer of an out_dummy call -/

theorem k_minus_1_eq (k : Nat) (h1 : 1 ≤ k) (h2 : k < 4294967296) : k_minus_1 k = k - 1 := by
  unfold k_minus_1
  omega

theorem shift_mod (W x e : Nat) :
    ((x * 2 ^ NT_WIDTH) % 2 ^ W * 4 ^ e) % 2 ^ W = (x * 4 ^ (e + 1)) % 2 ^ W := by
  have h4 : (2 : Nat) ^ NT_WIDTH = 4 := rfl
  rw [h4, Nat.mod_mul_mod, pow_succ]
  congr 1
  ring

/-- What the loop of `generate_dummies` leaves in the buffer: the slots from `out + i` up to
`out + (k - 1)` hold the successive shifts of `dummy_node`, the others are untouched. -/
theorem generate_dummies_loop_spec (W k out : Nat) (fuel i dn : Nat) (buf : Nat → Nat)
    (hf : k_minus_1 k - i ≤ fuel) (s : Nat) :
    generate_dummies_loop W k out fuel i dn buf s =
      if out + i ≤ s ∧ s < out + k_minus_1 k then (dn * 4 ^ (s - (out + i) + 1)) % 2 ^ W
      else buf s := by
  induction fuel generalizing i dn buf with
  | zero =>
    have h : ¬ (out + i ≤ s ∧ s < out + k_minus_1 k) := by omega
    rw [if_neg h]
    rfl
  | succ n ih =>
    rw [generate_dummies_loop]
    by_cases hi : i < k_minus_1 k
    · rw [if_pos hi, ih (i + 1) _ _ (by omega)]
      by_cases h1 : out + (i + 1) ≤ s ∧ s < out + k_minus_1 k
      · have h2 : out + i ≤ s ∧ s < out + k_minus_1 k := by omega
        rw [if_pos h1, if_pos h2, shift_mod]
        congr 3
        omega
      · rw [if_neg h1]
        unfold write
        by_cases h3 : s = out + i
        · have h2 : out + i ≤ s ∧ s < out + k_minus_1 k := by omega
          rw [if_pos h3, if_pos h2, h3]
          have h4 : (2 : Nat) ^ NT_WIDTH = 4 := rfl
          rw [h4]
          simp
        · have h2 : ¬ (out + i ≤ s ∧ s < out + k_minus_1 k) := by omega
          rw [if_neg h3, if_neg h2]
    · rw [if_neg hi]
      have h : ¬ (out + i ≤ s ∧ s < out + k_minus_1 k) := by omega
      rw [if_neg h]

theorem generate_dummies_spec (W dn : Nat) (buf : Nat → Nat) (out k s : Nat) :
    generate_dummies W dn buf out k s =
      if out ≤ s ∧ s < out + k_minus_1 k then (dn * 4 ^ (s - out + 1)) % 2 ^ W else buf s := by
  unfold generate_dummies
  rw [generate_dummies_loop_spec W k out _ 0 dn buf (by omega) s]
  rfl

/-- What the loop of `prepare_incoming_dummy_edges` leaves in the buffer when it starts at
seed `i`: the chains of the seeds from `i` on are written, every other slot is untouched. -/
theorem prepare_incoming_dummy_edges_loop_spec (W nd k : Nat) (fuel i : Nat)
    (buf : Nat → Nat) (hf : nd - i ≤ fuel) :
    (∀ i2 j, i ≤ i2 → i2 < nd → j < k_minus_1 k →
      prepare_incoming_dummy_edges_loop W nd k fuel i buf (nd + i2 * k_minus_1 k + j) =
        (buf i2 * 4 ^ (j + 1)) % 2 ^ W) ∧
    (∀ s, s < nd + i * k_minus_1 k ∨ nd + nd * k_minus_1 k ≤ s →
      prepare_incoming_dummy_edges_loop W nd k fuel i buf s = buf s) := by
  induction fuel generalizing i buf with
  | zero =>
    refine ⟨fun i2 j h1 h2 _ => by omega, fun s _ => rfl⟩
  | succ n ih =>
    rw [prepare_incoming_dummy_edges_loop]
    by_cases hi : i < nd
    · rw [if_pos hi]
      obtain ⟨ih1, ih2⟩ := ih (i + 1)
        (generate_dummies W (buf i) buf (nd + i * k_minus_1 k) k) (by omega)
      have e1 : (i + 1) * k_minus_1 k = i * k_minus_1 k + k_minus_1 k := by ring
      have e2 : (i + 1) * k_minus_1 k ≤ nd * k_minus_1 k := Nat.mul_le_mul_right _ hi
      constructor
      · intro i2 j h1 h2 h3
        rcases Nat.eq_or_lt_of_le h1 with e | e
        · subst e
          have c1 : nd + i * k_minus_1 k + j < nd + (i + 1) * k_minus_1 k := by omega
          have c2 : nd + i * k_minus_1 k ≤ nd + i * k_minus_1 k + j ∧
              nd + i * k_minus_1 k + j < nd + i * k_minus_1 k + k_minus_1 k := by omega
          have c3 : nd + i * k_minus_1 k + j - (nd + i * k_minus_1 k) + 1 = j + 1 := by omega
          rw [ih2 _ (Or.inl c1), generate_dummies_spec, if_pos c2, c3]
        · have c1 : ¬ (nd + i * k_minus_1 k ≤ i2 ∧
              i2 < nd + i * k_minus_1 k + k_minus_1 k) := by omega
          rw [ih1 i2 j e h2 h3, generate_dummies_spec, if_neg c1]
      · intro s hs
        have c1 : s < nd + (i + 1) * k_minus_1 k ∨ nd + nd * k_minus_1 k ≤ s := by omega
        have c2 : ¬ (nd + i * k_minus_1 k ≤ s ∧
            s < nd + i * k_minus_1 k + k_minus_1 k) := by omega
        rw [ih2 s c1, generate_dummies_spec, if_neg c2]
    · rw [if_neg hi]
      refine ⟨fun i2 j h1 h2 _ => by omega, fun s _ => rfl⟩

/-- C11. For every `k` with `2 ≤ k` (a `uint32_t`), every `num_dummies` and every buffer, after
`prepare_incoming_dummy_edges` the first `num_dummies` slots hold the seeds unchanged, slot
`num_dummies + i * (k - 1) + j` holds seed `i` shifted left by `NT_WIDTH * (j + 1)` bits in the
k-mer word, that is `seed_i * 4 ^ (j + 1)` modulo `2 ^ W`, for `i < num_dummies` and
`j < k - 1`, and no slot from `num_dummies * k` on is written. -/
theorem prepare_incoming_dummy_edges_chains (W : Nat) (dummy_nodes k_values : Nat → Nat)
    (num_dummies k : Nat) (hk : 2 ≤ k) (hk32 : k < 4294967296) :
    (∀ s, s < num_dummies →
      (prepare_incoming_dummy_edges W dummy_nodes k_values num_dummies k).1 s = dummy_nodes s) ∧
    (∀ i j, i < num_dummies → j < k - 1 →
      (prepare_incoming_dummy_edges W dummy_nodes k_values num_dummies k).1
          (num_dummies + i * (k - 1) + j) =
        (dummy_nodes i * 4 ^ (j + 1)) % 2 ^ W ∧
      (dummy_nodes i * 4 ^ (j + 1)) % 2 ^ W =
        (dummy_nodes i * 2 ^ (NT_WIDTH * (j + 1))) % 2 ^ W) ∧
    (∀ s, num_dummies * k ≤ s →
      (prepare_incoming_dummy_edges W dummy_nodes k_values num_dummies k).1 s = dummy_nodes s) := by
  obtain ⟨h1, h2⟩ := prepare_incoming_dummy_edges_loop_spec W num_dummies k num_dummies 0
    dummy_nodes (by omega)
  have hkm := k_minus_1_eq k (by omega) hk32
  rw [hkm] at h1 h2
  refine ⟨fun s hs => h2 s (Or.inl (by omega)), fun i j hi hj => ⟨?_, ?_⟩, fun s hs => ?_⟩
  · exact h1 i j (Nat.zero_le _) hi hj
  · have : (4 : Nat) ^ (j + 1) = 2 ^ (NT_WIDTH * (j + 1)) := by
      unfold NT_WIDTH
      rw [pow_mul]
      rfl
    rw [this]
  · refine h2 s (Or.inr ?_)
    have : num_dummies * k = num_dummies + num_dummies * (k - 1) := by
      obtain ⟨m, rfl⟩ : ∃ m, k = m + 1 := ⟨k - 1, by omega⟩
      simp only [Nat.add_sub_cancel]
      ring
    omega

/-- C11, at a concrete input: two seeds `5` and `7`, `k = 3`. -/
theorem prepare_incoming_dummy_edges_chains_witness :
    (List.range 8).map (prepare_incoming_dummy_edges 64 (tbl [5, 7]) (tbl []) 2 3).1 =
      [5, 7, 20, 80, 28, 112, 0, 0] ∧
    (prepare_incoming_dummy_edges 64 (tbl [5, 7]) (tbl []) 2 3).1 (2 + 1 * (3 - 1) + 1) =
      (tbl [5, 7] 1 * 4 ^ (1 + 1)) % 2 ^ 64 :=
  ⟨by decide,
    ((prepare_incoming_dummy_edges_chains 64 (tbl [5, 7]) (tbl []) 2 3 (by decide)
      (by decide)).2.1 1 1 (by decide) (by decide)).1⟩

theorem sub64_eq (a b : Nat) (h1 : b ≤ a) (h2 : a < 2 ^ 64) : sub64 a b = a - b := by
  unfold sub64
  have e : (2 : Nat) ^ 64 = 18446744073709551616 := by norm_num
  rw [e] at h2 ⊢
  omega

/-- What the loop of `prepare_k_values` leaves in the length buffer: the slots from
`num_dummies + i` up to `num_dummies + num_dummies * (k - 1)` hold the value computed for
their offset, the others are untouched. -/
theorem prepare_k_values_loop_spec (nd k : Nat) (fuel i : Nat) (kv : Nat → Nat)
    (hf : nd * k_minus_1 k - i ≤ fuel) (s : Nat) :
    prepare_k_values_loop nd k fuel i kv s =
      if nd + i ≤ s ∧ s < nd + nd * k_minus_1 k then
        sub64 (sub64 k ((s - nd) % k_minus_1 k)) 1 % 256
      else kv s := by
  induction fuel generalizing i kv with
  | zero =>
    have h : ¬ (nd + i ≤ s ∧ s < nd + nd * k_minus_1 k) := by omega
    rw [if_neg h]
    rfl
  | succ n ih =>
    rw [prepare_k_values_loop]
    by_cases hi : i < nd * k_minus_1 k
    · rw [if_pos hi, ih (i + 1) _ (by omega)]
      by_cases h1 : nd + (i + 1) ≤ s ∧ s < nd + nd * k_minus_1 k
      · have h2 : nd + i ≤ s ∧ s < nd + nd * k_minus_1 k := by omega
        rw [if_pos h1, if_pos h2]
      · rw [if_neg h1]
        unfold write
        by_cases h3 : s = nd + i
        · have h2 : nd + i ≤ s ∧ s < nd + nd * k_minus_1 k := by omega
          have h4 : s - nd = i := by omega
          rw [if_pos h3, if_pos h2, h4]
        · have h2 : ¬ (nd + i ≤ s ∧ s < nd + nd * k_minus_1 k) := by omega
          rw [if_neg h3, if_neg h2]
    · rw [if_neg hi]
      have h : ¬ (nd + i ≤ s ∧ s < nd + nd * k_minus_1 k) := by omega
      rw [if_neg h]

theorem prepare_k_values_spec (kv : Nat → Nat) (nd k s : Nat) (hk : 2 ≤ k) (hk8 : k ≤ 255) :
    prepare_k_values kv nd k s =
      if s < nd then k
      else if s < nd + nd * (k - 1) then k - 1 - (s - nd) % (k - 1)
      else kv s := by
  unfold prepare_k_values
  rw [prepare_k_values_loop_spec nd k _ 0 _ (by omega) s, k_minus_1_eq k (by omega) (by omega)]
  by_cases h1 : s < nd
  · have h2 : ¬ (nd + 0 ≤ s ∧ s < nd + nd * (k - 1)) := by omega
    have h3 : k % 256 = k := by omega
    rw [if_neg h2, if_pos h1]
    unfold memset
    rw [if_pos h1, h3]
  · rw [if_neg h1]
    by_cases h2 : s < nd + nd * (k - 1)
    · have h3 : nd + 0 ≤ s ∧ s < nd + nd * (k - 1) := by omega
      have h4 : (s - nd) % (k - 1) < k - 1 := Nat.mod_lt _ (by omega)
      have e64 : (2 : Nat) ^ 64 = 18446744073709551616 := by norm_num
      rw [if_pos h3, if_pos h2, sub64_eq k _ (by omega) (by rw [e64]; omega),
        sub64_eq _ 1 (by omega) (by rw [e64]; omega)]
      omega
    · have h3 : ¬ (nd + 0 ≤ s ∧ s < nd + nd * (k - 1)) := by omega
      rw [if_neg h3, if_neg h2]
      unfold memset
      rw [if_neg h1]

/-- C12. For every `k` with `2 ≤ k ≤ 255` and every `num_dummies`, `prepare_k_values` fills the
length array so that index `i < num_dummies` holds `k` and index
`num_dummies + i * (k - 1) + j`, for `i < num_dummies` and `j < k - 1`, the slot of descendant
`j` of seed `i`, holds `k - 1 - j`; every one of the `num_dummies * k` lengths lies in
`[1, k]`. The length array `prepare_incoming_dummy_edges` leaves is this one. -/
theorem prepare_k_values_lengths (dummy_nodes k_values : Nat → Nat) (W num_dummies k : Nat)
    (hk : 2 ≤ k) (hk8 : k ≤ 255) :
    (prepare_incoming_dummy_edges W dummy_nodes k_values num_dummies k).2 =
      prepare_k_values k_values num_dummies k ∧
    (∀ i, i < num_dummies → prepare_k_values k_values num_dummies k i = k) ∧
    (∀ i j, i < num_dummies → j < k - 1 →
      prepare_k_values k_values num_dummies k (num_dummies + i * (k - 1) + j) = k - 1 - j) ∧
    (∀ s, s < num_dummies * k →
      1 ≤ prepare_k_values k_values num_dummies k s ∧
        prepare_k_values k_values num_dummies k s ≤ k) := by
  refine ⟨by simp only [prepare_incoming_dummy_edges], fun i hi => ?_, fun i j hi hj => ?_,
    fun s hs => ?_⟩
  · rw [prepare_k_values_spec _ _ _ _ hk hk8, if_pos hi]
  · have e1 : (i + 1) * (k - 1) = i * (k - 1) + (k - 1) := by ring
    have e2 : (i + 1) * (k - 1) ≤ num_dummies * (k - 1) := Nat.mul_le_mul_right _ hi
    have c1 : ¬ (num_dummies + i * (k - 1) + j < num_dummies) := by omega
    have c2 : num_dummies + i * (k - 1) + j < num_dummies + num_dummies * (k - 1) := by omega
    have c3 : num_dummies + i * (k - 1) + j - num_dummies = j + i * (k - 1) := by omega
    rw [prepare_k_values_spec _ _ _ _ hk hk8, if_neg c1, if_pos c2, c3,
      Nat.add_mul_mod_self_right, Nat.mod_eq_of_lt hj]
  · have e : num_dummies * k = num_dummies + num_dummies * (k - 1) := by
      obtain ⟨m, rfl⟩ : ∃ m, k = m + 1 := ⟨k - 1, by omega⟩
      simp only [Nat.add_sub_cancel]
      ring
    rw [prepare_k_values_spec _ _ _ _ hk hk8]
    by_cases h1 : s < num_dummies
    · rw [if_pos h1]
      omega
    · have h2 : s < num_dummies + num_dummies * (k - 1) := by omega
      have h4 : (s - num_dummies) % (k - 1) < k - 1 := Nat.mod_lt _ (by omega)
      rw [if_neg h1, if_pos h2]
      omega

/-- C12, at a concrete input: three seeds, `k = 4`. -/
theorem prepare_k_values_lengths_witness :
    (List.range 12).map (prepare_k_values (tbl []) 3 4) = [4, 4, 4, 3, 2, 1, 3, 2, 1, 3, 2, 1] ∧
    prepare_k_values (tbl []) 3 4 (3 + 2 * (4 - 1) + 1) = 4 - 1 - 1 :=
  ⟨by decide,
    (prepare_k_values_lengths (tbl []) (tbl []) 64 3 4 (by decide) (by decide)).2.2.1 2 1
      (by decide) (by decide)⟩

/-! ## C13: the number of calls -/

theorem flush_countP_other (W : Nat) (D L : Nat → Nat) (M s d : Nat) (t : edge_tag)
    (ht : t ≠ edge_tag.in_dummy) :
    (check_for_in_dummies W D L M s d).1.countP (fun p => decide (p.tag = t)) = 0 := by
  rw [List.countP_eq_zero]
  intro p hp
  obtain ⟨j, _, _, rfl⟩ := (flush_mem W D L M s d p).1 hp
  simp only [dummy_push, decide_eq_true_eq]
  exact fun h => ht h.symm

theorem flush_countP_in_dummy (W : Nat) (D L : Nat → Nat) (M s d : Nat) :
    (check_for_in_dummies W D L M s d).1.countP
        (fun p => decide (p.tag = edge_tag.in_dummy)) =
      (check_for_in_dummies W D L M s d).2 - d := by
  obtain ⟨_, _, h3, _, _⟩ := check_for_in_dummies_spec W D L M s d
  have hall : ∀ p ∈ (check_for_in_dummies W D L M s d).1,
      (fun p : Push => decide (p.tag = edge_tag.in_dummy)) p = true := by
    intro p hp
    obtain ⟨j, _, _, rfl⟩ := (flush_mem W D L M s d p).1 hp
    simp [dummy_push]
  rw [List.countP_eq_length.2 hall]
  conv_lhs => rw [h3]
  simp

/-- Counting the calls by tag: the `standard` calls still to come are those of the entries of
A left, the `in_dummy` calls those of the dummies left. -/
theorem merge_dummies_pushes_counts (ops : KmerOps) (A B : Nat → Nat) (N k : Nat)
    (D : Nat → Nat) (M : Nat) (L : Nat → Nat) (i : Indices) :
    (loops_from ops A B N k D M L i).countP (fun p => decide (p.tag = edge_tag.standard)) =
      N - i.a_idx ∧
    (loops_from ops A B N k D M L i).countP (fun p => decide (p.tag = edge_tag.in_dummy)) =
      M - i.d_idx := by
  have hstep : ∀ (s d : Nat) (T : List Push),
      (∀ t, ((check_for_in_dummies ops.W D L M s d).1 ++ T).countP
          (fun p => decide (p.tag = t)) =
        (check_for_in_dummies ops.W D L M s d).1.countP (fun p => decide (p.tag = t)) +
          T.countP (fun p => decide (p.tag = t))) := fun s d T t => List.countP_append _ _ _
  have hd : ∀ (s d : Nat), d ≤ (check_for_in_dummies ops.W D L M s d).2 ∧
      ((check_for_in_dummies ops.W D L M s d).2 ≤ M ∨
        (check_for_in_dummies ops.W D L M s d).2 = d) := fun s d =>
    ⟨(check_for_in_dummies_spec ops.W D L M s d).1,
      (check_for_in_dummies_spec ops.W D L M s d).2.1⟩
  refine loops_induct ops A B N k D M L
    (fun i T => T.countP (fun p => decide (p.tag = edge_tag.standard)) = N - i.a_idx ∧
      T.countP (fun p => decide (p.tag = edge_tag.in_dummy)) = M - i.d_idx) ?_ ?_ ?_ ?_ ?_ ?_ i
  · intro i T ha hb _ ih
    obtain ⟨h1, h2⟩ := hd (get_b ops B k i.b_idx) i.d_idx
    rw [hstep, hstep, flush_countP_other _ _ _ _ _ _ _ (by decide), flush_countP_in_dummy,
      List.countP_cons, List.countP_cons, ih.1, ih.2]
    simp only [out_dummy_push]
    constructor
    · simp
    · simp only [reduceCtorEq, decide_False, Bool.false_eq_true, if_false]
      omega
  · intro i T ha hb _ ih
    obtain ⟨h1, h2⟩ := hd (A i.a_idx) i.d_idx
    rw [hstep, hstep, flush_countP_other _ _ _ _ _ _ _ (by decide), flush_countP_in_dummy,
      List.countP_cons, List.countP_cons, ih.1, ih.2]
    simp only [standard_push]
    constructor
    · simp only [decide_True, if_true]
      omega
    · simp only [reduceCtorEq, decide_False, Bool.false_eq_true, if_false]
      omega
  · intro i T ha hb _ ih
    obtain ⟨h1, h2⟩ := hd (A i.a_idx) i.d_idx
    rw [hstep, hstep, flush_countP_other _ _ _ _ _ _ _ (by decide), flush_countP_in_dummy,
      List.countP_cons, List.countP_cons, ih.1, ih.2]
    simp only [standard_push]
    constructor
    · simp only [decide_True, if_true]
      omega
    · simp only [reduceCtorEq, decide_False, Bool.false_eq_true, if_false]
      omega
  · intro i T ha hb ih
    obtain ⟨h1, h2⟩ := hd (A i.a_idx) i.d_idx
    rw [hstep, hstep, flush_countP_other _ _ _ _ _ _ _ (by decide), flush_countP_in_dummy,
      List.countP_cons, List.countP_cons, ih.1, ih.2]
    simp only [standard_push]
    constructor
    · simp only [decide_True, if_true]
      omega
    · simp only [reduceCtorEq, decide_False, Bool.false_eq_true, if_false]
      omega
  · intro i T ha hb ih
    obtain ⟨h1, h2⟩ := hd (get_b ops B k i.b_idx) i.d_idx
    rw [hstep, hstep, flush_countP_other _ _ _ _ _ _ _ (by decide), flush_countP_in_dummy,
      List.countP_cons, List.countP_cons, ih.1, ih.2]
    simp only [out_dummy_push]
    constructor
    · simp only [reduceCtorEq, decide_False, Bool.false_eq_true, if_false]
      omega
    · simp only [reduceCtorEq, decide_False, Bool.false_eq_true, if_false]
      omega
  · intro i ha hb
    constructor
    · rw [List.countP_eq_zero.2]
      · omega
      · intro p hp
        obtain ⟨j, _, rfl⟩ := List.mem_map.1 hp
        simp [dummy_push]
    · rw [List.countP_eq_length.2]
      · simp
      · intro p hp
        obtain ⟨j, _, rfl⟩ := List.mem_map.1 hp
        simp [dummy_push]

theorem uncommon_from_succ (ops : KmerOps) (A B : Nat → Nat) (N k b : Nat) (h : b < N) :
    uncommon_from ops A B N k b =
      (if get_b ops B k b ∉ a_keys ops A N then 1 else 0) + uncommon_from ops A B N k (b + 1) := by
  unfold uncommon_from
  obtain ⟨n, hn⟩ : ∃ n, N - b = n + 1 := ⟨N - b - 1, by omega⟩
  have hn2 : N - (b + 1) = n := by omega
  rw [hn, hn2, List.range'_succ, List.countP_cons]
  by_cases hm : get_b ops B k b ∉ a_keys ops A N
  · simp only [hm, not_false_eq_true, decide_True, if_true]
    omega
  · simp only [hm, decide_False, Bool.false_eq_true, if_false]
    omega

theorem uncommon_from_mono (ops : KmerOps) (A B : Nat → Nat) (N k b b2 : Nat) (h : b ≤ b2) :
    uncommon_from ops A B N k b2 ≤ uncommon_from ops A B N k b := by
  obtain ⟨n, rfl⟩ : ∃ n, b2 = b + n := ⟨b2 - b, by omega⟩
  clear h
  induction n with
  | zero => exact le_refl _
  | succ n ih =>
    by_cases hb : b + n < N
    · have := uncommon_from_succ ops A B N k (b + n) hb
      have e : b + (n + 1) = b + n + 1 := rfl
      rw [e]
      omega
    · have e1 : uncommon_from ops A B N k (b + (n + 1)) = 0 := by
        unfold uncommon_from
        have : N - (b + (n + 1)) = 0 := by omega
        rw [this]
        rfl
      rw [e1]
      exact Nat.zero_le _

theorem uncommon_from_zero (ops : KmerOps) (A B : Nat → Nat) (N k : Nat) :
    uncommon_from ops A B N k 0 = N - common ops A B N k := by
  unfold uncommon_from common
  have h := List.length_eq_countP_add_countP
    (fun j => decide (get_b ops B k j ∈ a_keys ops A N)) (List.range N)
  rw [List.length_range] at h
  have e : List.countP (fun j => decide (get_b ops B k j ∉ a_keys ops A N))
      (List.range' 0 (N - 0)) =
      List.countP (fun a => decide ¬ (decide (get_b ops B k a ∈ a_keys ops A N) = true))
        (List.range N) := by
    rw [List.range_eq_range']
    apply List.countP_congr
    intro j _
    simp
  rw [e]
  omega

/-- On input whose keys are non-decreasing, the `out_dummy` calls still to come are at most as
many as the entries of B left whose key is no key of A. -/
theorem merge_dummies_pushes_out_count (ops : KmerOps) (A B : Nat → Nat) (N k : Nat)
    (D : Nat → Nat) (M : Nat) (L : Nat → Nat)
    (hA : nondecreasing (get_a ops A) N) (hB : nondecreasing (get_b ops B k) N)
    (i : Indices)
    (hinv : i.b_idx < N → ∀ j, j < i.a_idx → j < N → get_a ops A j < get_b ops B k i.b_idx) :
    (loops_from ops A B N k D M L i).countP (fun p => decide (p.tag = edge_tag.out_dummy)) ≤
      uncommon_from ops A B N k i.b_idx := by
  revert hinv
  refine loops_induct ops A B N k D M L
    (fun i T =>
      (i.b_idx < N → ∀ j, j < i.a_idx → j < N → get_a ops A j < get_b ops B k i.b_idx) →
      T.countP (fun p => decide (p.tag = edge_tag.out_dummy)) ≤
        uncommon_from ops A B N k i.b_idx) ?_ ?_ ?_ ?_ ?_ ?_ i
  · -- first loop, `b < a`
    intro i T ha hb hlt ih hinv
    have hbs := inc_b_spec ops B N k (get_b ops B k i.b_idx) i.b_idx
    have hk : get_b ops B k i.b_idx ∉ a_keys ops A N := by
      rw [not_mem_a_keys]
      intro j hj
      rcases Nat.lt_or_ge j i.a_idx with h | h
      · have := hinv hb j h hj; omega
      · have := nondecreasing_le _ N hA i.a_idx j h hj; omega
    have IH := ih (by
      intro h j hj1 hj2
      dsimp only at h hj1 ⊢
      have := hinv hb j hj1 hj2
      have := nondecreasing_le _ N hB i.b_idx _ (le_of_lt (hbs.1 hb).1) h
      omega)
    dsimp only at IH
    have hm := uncommon_from_mono ops A B N k (i.b_idx + 1) _ (hbs.1 hb).1
    have hs := uncommon_from_succ ops A B N k i.b_idx hb
    rw [if_pos hk] at hs
    rw [List.countP_append, flush_countP_other _ _ _ _ _ _ _ (by decide), List.countP_cons]
    simp only [out_dummy_push, decide_True, if_true]
    omega
  · -- first loop, `a < b`
    intro i T ha hb hlt ih hinv
    have IH := ih (by
      intro h j hj1 hj2
      dsimp only at h hj1 ⊢
      rcases Nat.eq_or_lt_of_le (Nat.le_of_lt_succ hj1) with e | e
      · rw [e]; exact hlt
      · exact hinv hb j e hj2)
    dsimp only at IH
    rw [List.countP_append, flush_countP_other _ _ _ _ _ _ _ (by decide), List.countP_cons]
    simp only [standard_push, reduceCtorEq, decide_False, Bool.false_eq_true, if_false]
    omega
  · -- first loop, `a = b`
    intro i T ha hb heq ih hinv
    have hbs := inc_b_spec ops B N k (get_b ops B k i.b_idx) i.b_idx
    have IH := ih (by
      intro h j hj1 hj2
      dsimp only at h hj1 ⊢
      have h6 := hbs.2.2.2 hb h
      have h7 := nondecreasing_le _ N hB i.b_idx _ (le_of_lt (hbs.1 hb).1) h
      rcases Nat.eq_or_lt_of_le (Nat.le_of_lt_succ hj1) with e | e
      · rw [e]; omega
      · have := hinv hb j e hj2; omega)
    dsimp only at IH
    have hm := uncommon_from_mono ops A B N k i.b_idx _ (le_of_lt (hbs.1 hb).1)
    rw [List.countP_append, flush_countP_other _ _ _ _ _ _ _ (by decide), List.countP_cons]
    simp only [standard_push, reduceCtorEq, decide_False, Bool.false_eq_true, if_false]
    omega
  · -- second loop
    intro i T ha hb ih hinv
    have IH := ih (fun h => absurd h hb)
    dsimp only at IH
    rw [List.countP_append, flush_countP_other _ _ _ _ _ _ _ (by decide), List.countP_cons]
    simp only [standard_push, reduceCtorEq, decide_False, Bool.false_eq_true, if_false]
    omega
  · -- third loop
    intro i T ha hb ih hinv
    have hk : get_b ops B k i.b_idx ∉ a_keys ops A N := by
      rw [not_mem_a_keys]
      intro j hj
      have := hinv hb j (by omega) hj
      omega
    have IH := ih (by
      intro h j hj1 hj2
      dsimp only at h hj1 ⊢
      have := hinv hb j hj1 hj2
      have := nondecreasing_le _ N hB i.b_idx _ (Nat.le_add_right _ 1) h
      omega)
    dsimp only at IH
    have hs := uncommon_from_succ ops A B N k i.b_idx hb
    rw [if_pos hk] at hs
    rw [List.countP_append, flush_countP_other _ _ _ _ _ _ _ (by decide), List.countP_cons]
    simp only [out_dummy_push, decide_True, if_true]
    omega
  · -- last loop
    intro i ha hb _
    rw [List.countP_eq_zero.2]
    · exact Nat.zero_le _
    · intro p hp
      obtain ⟨j, _, rfl⟩ := List.mem_map.1 hp
      simp [dummy_push]

theorem length_eq_countP_tags (l : List Event) :
    l.length = l.countP (fun e => decide (e.tag = edge_tag.standard)) +
      l.countP (fun e => decide (e.tag = edge_tag.out_dummy)) +
      l.countP (fun e => decide (e.tag = edge_tag.in_dummy)) := by
  induction l with
  | nil => rfl
  | cons e es ih =>
    rw [List.length_cons, List.countP_cons, List.countP_cons, List.countP_cons, ih]
    cases h : e.tag <;> simp <;> omega

theorem raw_countP (ops : KmerOps) (A B : Nat → Nat) (N k : Nat) (D : Nat → Nat) (M : Nat)
    (L : Nat → Nat) (t : edge_tag) :
    (merge_dummies_raw ops A B N k D M L).countP (fun e => decide (e.tag = t)) =
      (loops_from ops A B N k D M L ⟨0, 0, 0⟩).countP (fun p => decide (p.tag = t)) := by
  unfold merge_dummies_raw merge_dummies_pushes
  rw [List.countP_map]
  rfl

/-- C13. For every input with non-decreasing node keys, `merge_dummies` pushes into the adapter
stack, before uniquification, exactly `N` `standard` events, exactly `M` `in_dummy` events and
at most `N - common` `out_dummy` events, where `common` is the number of entries of B whose
node key is the node key of some entry of A: at most `N + (N - common) + M` events in all. -/
theorem merge_dummies_raw_bound (ops : KmerOps) (A B : Nat → Nat) (N k : Nat)
    (D : Nat → Nat) (M : Nat) (L : Nat → Nat)
    (hA : nondecreasing (get_a ops A) N) (hB : nondecreasing (get_b ops B k) N) :
    (merge_dummies_raw ops A B N k D M L).countP
        (fun e => decide (e.tag = edge_tag.standard)) = N ∧
    (merge_dummies_raw ops A B N k D M L).countP
        (fun e => decide (e.tag = edge_tag.in_dummy)) = M ∧
    (merge_dummies_raw ops A B N k D M L).countP
        (fun e => decide (e.tag = edge_tag.out_dummy)) ≤ N - common ops A B N k ∧
    (merge_dummies_raw ops A B N k D M L).length ≤ N + (N - common ops A B N k) + M := by
  have h1 := (merge_dummies_pushes_counts ops A B N k D M L ⟨0, 0, 0⟩).1
  have h2 := (merge_dummies_pushes_counts ops A B N k D M L ⟨0, 0, 0⟩).2
  have h3 := merge_dummies_pushes_out_count ops A B N k D M L hA hB ⟨0, 0, 0⟩
    (fun _ j hj => absurd hj (Nat.not_lt_zero j))
  rw [uncommon_from_zero] at h3
  dsimp only at h1 h2 h3
  have hl := length_eq_countP_tags (merge_dummies_raw ops A B N k D M L)
  rw [raw_countP, raw_countP, raw_countP] at hl
  rw [raw_countP, raw_countP, raw_countP]
  refine ⟨by omega, by omega, h3, by omega⟩

/-- C13, at a concrete input: `N = 3`, `M = 4`, and no entry of B shares its key with A. -/
theorem merge_dummies_raw_bound_witness :
    (merge_dummies_raw kmer64 (tbl [5, 5, 9]) (tbl [4, 80, 80]) 3 32 (tbl [1, 1, 2, 3]) 4
        (tbl [1, 1, 2, 3])).length ≤
      3 + (3 - common kmer64 (tbl [5, 5, 9]) (tbl [4, 80, 80]) 3 32) + 4 ∧
    common kmer64 (tbl [5, 5, 9]) (tbl [4, 80, 80]) 3 32 = 0 :=
  ⟨(merge_dummies_raw_bound kmer64 (tbl [5, 5, 9]) (tbl [4, 80, 80]) 3 32 (tbl [1, 1, 2, 3]) 4
      (tbl [1, 1, 2, 3]) (by decide) (by decide)).2.2.2, by decide⟩

/-! ## C14: the statics do not matter -/

/-- A freshly built `FirstFlagger` makes the same calls whatever its statics hold. -/
theorem FirstFlagger_run_fresh (ops : KmerOps) (f g : FirstFlaggerState) (l : List Event) :
    FirstFlagger.run ops (add_first_flag f) l = FirstFlagger.run ops (add_first_flag g) l := by
  cases l with
  | nil => rfl
  | cons e es =>
    simp only [FirstFlagger.run, FirstFlagger.call, add_first_flag, Bool.true_or]

/-- C14. `merge_dummies` is deterministic and history-independent: the calls the visitor
receives are a function of `(A, B, N, k, D, M, L)` alone. Whatever the function-scope statics
`last_kmer` of `Unique` and `last_start_node`, `last_k` of `FirstFlagger`, and the uninitialised
members `last_tag`, `last_k`, hold when the adapters are built, as after any earlier run, the
sequence delivered is the same. -/
theorem merge_dummies_history_independent (ops : KmerOps) (u u2 : UniqueState)
    (f f2 : FirstFlaggerState) (A B : Nat → Nat) (N k : Nat) (D : Nat → Nat) (M : Nat)
    (L : Nat → Nat) :
    merge_dummies ops u f A B N k D M L = merge_dummies ops u2 f2 A B N k D M L := by
  unfold merge_dummies
  rw [Unique_run_fresh, Unique_run_fresh, FirstFlagger_run_fresh ops f f2]

/-! ## C15 and C16: no records, no checks -/

theorem loops_from_no_records (ops : KmerOps) (A B : Nat → Nat) (k : Nat) (D : Nat → Nat)
    (M : Nat) (L : Nat → Nat) :
    loops_from ops A B 0 k D M L ⟨0, 0, 0⟩ = (List.range' 0 (M - 0)).map (dummy_push D L) := by
  rw [loops_from_eq, if_neg (by simp), if_neg (by simp), if_neg (by simp)]

theorem merge_dummies_eq_nil_iff (ops : KmerOps) (u : UniqueState) (f : FirstFlaggerState)
    (A B : Nat → Nat) (N k : Nat) (D : Nat → Nat) (M : Nat) (L : Nat → Nat) :
    merge_dummies ops u f A B N k D M L = [] ↔ merge_dummies_pushes ops A B N k D M L = [] := by
  have h := merge_dummies_events ops u f A B N k D M L
  constructor
  · intro h0
    rw [h0] at h
    cases hp : merge_dummies_pushes ops A B N k D M L with
    | nil => rfl
    | cons p ps =>
      rw [hp] at h
      simp [remove_repeats] at h
  · intro h0
    rw [h0] at h
    have h2 : (merge_dummies ops u f A B N k D M L).map Flagged.event = [] := h
    exact List.map_eq_nil_iff.1 h2

/-- C15, as amended. With `N = 0` and `M = 0`, `merge_dummies` delivers zero events; the
discovery pass counts no seed when `N = 0`, so that a caller who sizes the dummy array from it
has `M = 0`. With `N = 0` alone the last loop still runs: the visitor receives `in_dummy` calls
only, those of the dummies `D[0], ..., D[M - 1]` that differ from the dummy before them. -/
theorem merge_dummies_no_records (ops : KmerOps) (u : UniqueState) (f : FirstFlaggerState)
    (A B : Nat → Nat) (k : Nat) (D : Nat → Nat) (M : Nat) (L : Nat → Nat) :
    merge_dummies ops u f A B 0 k D 0 L = [] ∧
    count_incoming_dummy_edges ops A B 0 k = 0 ∧
    (merge_dummies ops u f A B 0 k D M L).map Flagged.event =
      remove_repeats (dummy_events D L M 0) := by
  refine ⟨?_, rfl, ?_⟩
  · rw [merge_dummies_eq_nil_iff]
    unfold merge_dummies_pushes
    rw [loops_from_no_records]
    rfl
  · rw [merge_dummies_events]
    unfold merge_dummies_pushes
    rw [loops_from_no_records]
    unfold dummy_events
    rw [List.map_map]
    rfl

/-- C15, as stated, fails: with `N = 0` and one dummy the visitor receives one event. -/
theorem merge_dummies_no_records_one_dummy :
    merge_dummies kmer64 ⟨false, edge_tag.standard, 0, 0⟩ ⟨false, 0, 0⟩
        (tbl []) (tbl []) 0 32 (tbl [5]) 1 (tbl [1]) =
      [⟨edge_tag.in_dummy, 5, 1, true⟩] := by
  decide

/-- C16, as amended. `merge_dummies` checks nothing at entry and rejects no input: for every
`N`, `M` and every content of the tables, whether or not the tables have that many entries, it
runs its loops to their exit, and the visitor receives no call only when `N = 0` and
`M = 0`. -/
theorem merge_dummies_rejects_nothing (ops : KmerOps) (u : UniqueState)
    (f : FirstFlaggerState) (A B : Nat → Nat) (N k : Nat) (D : Nat → Nat) (M : Nat)
    (L : Nat → Nat) :
    merge_dummies ops u f A B N k D M L = [] ↔ N = 0 ∧ M = 0 := by
  rw [merge_dummies_eq_nil_iff]
  have hc := merge_dummies_pushes_counts ops A B N k D M L ⟨0, 0, 0⟩
  dsimp only at hc
  constructor
  · intro h
    unfold merge_dummies_pushes at h
    rw [h] at hc
    simp only [List.countP_nil] at hc
    omega
  · rintro ⟨rfl, rfl⟩
    unfold merge_dummies_pushes
    rw [loops_from_no_records]
    rfl

/-- Whatever lies in memory past the one entry of the dummy array and of the length array, a
call with `M = 2` delivers the dummy `D[0]` to the visitor. -/
theorem merge_dummies_short_dummy_array_head (D L : Nat → Nat) (hD : D 0 = 1) (hL : L 0 = 1) :
    (merge_dummies kmer64 ⟨false, edge_tag.standard, 0, 0⟩ ⟨false, 0, 0⟩
        (tbl [4]) (tbl [4]) 1 32 D 2 L).head? = some ⟨edge_tag.in_dummy, 1, 1, true⟩ := by
  have hp : ∃ T, merge_dummies_pushes kmer64 (tbl [4]) (tbl [4]) 1 32 D 2 L =
      dummy_push D L 0 :: T := by
    unfold merge_dummies_pushes
    rw [loops_from_eq, if_pos (by decide), if_pos (by decide), check_for_in_dummies_eq,
      if_pos (by decide), if_pos (by rw [hD]; decide)]
    exact ⟨_, rfl⟩
  obtain ⟨T, hT⟩ := hp
  unfold merge_dummies merge_dummies_raw
  rw [hT, Unique_run_fresh]
  simp [remove_repeats, FirstFlagger.run, FirstFlagger.call, add_first_flag, dummy_push,
    Push.event, hD, hL]

/-- C16, as stated, fails: the dummy array and the length array have one entry while
`M = 2`; no failure is reported and the visitor receives calls, the first of them before the
arrays are read past their end. -/
theorem merge_dummies_short_dummy_array :
    [1].length < 2 ∧
    merge_dummies kmer64 ⟨false, edge_tag.standard, 0, 0⟩ ⟨false, 0, 0⟩
        (tbl [4]) (tbl [4]) 1 32 (tbl [1]) 2 (tbl [1]) =
      [⟨edge_tag.in_dummy, 1, 1, true⟩, ⟨edge_tag.in_dummy, 0, 0, true⟩,
        ⟨edge_tag.out_dummy, 1, 32, true⟩, ⟨edge_tag.standard, 4, 32, true⟩] := by
  decide

/-! ## C17: tables with the same nodes -/

theorem filter_eq_nil_tag (l : List Flagged) (t : edge_tag)
    (h : (l.filter (fun e => decide (e.tag = t))).map Flagged.event = []) :
    ∀ e ∈ l, e.tag ≠ t := by
  intro e he ht
  have h2 : l.filter (fun e => decide (e.tag = t)) = [] := List.map_eq_nil_iff.1 h
  rw [List.filter_eq_nil_iff] at h2
  exact h2 e he (by simpa using ht)

/-- When every start node of A is an end node of B, the start nodes and the end nodes each
non-decreasing, `find_incoming_dummy_edges` writes no seed. -/
theorem incoming_dummy_seeds_nil (ops : KmerOps) (A B : Nat → Nat) (N k : Nat)
    (hA : nondecreasing (fun i => ops.get_start_node (A i)) N)
    (hB : nondecreasing (fun i => ops.get_end_node (B i) k) N)
    (hsub : ∀ i, i < N → ∃ j, j < N ∧ ops.get_start_node (A i) = ops.get_end_node (B j) k) :
    incoming_dummy_seeds ops A B N k = [] := by
  have sa := uniqued_sorted _ (table_range_sorted (fun x => ops.get_start_node x) A N hA)
  have sb := uniqued_sorted _ (table_range_sorted (fun x => ops.get_end_node x k) B N hB)
  have e : incoming_dummy_seeds ops A B N k =
      (uniqued ((table_range A N).map (fun x => ops.get_start_node x))).filter
        (fun v => decide (v ∉ uniqued ((table_range B N).map (fun x => ops.get_end_node x k)))) := by
    unfold incoming_dummy_seeds find_incoming_dummy_edges set_difference
    exact set_difference_loop_sorted _ _ _ (le_refl _) sa sb
  rw [e, List.filter_eq_nil_iff]
  intro v hv
  rw [uniqued_mem, table_range_mem (fun x => ops.get_start_node x)] at hv
  obtain ⟨i, hi, rfl⟩ := hv
  obtain ⟨j, hj, hij⟩ := hsub i hi
  have : ops.get_start_node (A i) ∈
      uniqued ((table_range B N).map (fun x => ops.get_end_node x k)) := by
    rw [uniqued_mem, table_range_mem (fun x => ops.get_end_node x k)]
    exact ⟨j, hj, hij⟩
  simpa using this

/-- C17, as amended. When every node key `get_b(j)` of B is the node key `get_a(i)` of some
entry of A, the node keys non-decreasing, `merge_dummies` delivers no `out_dummy` event; when
moreover the dummy array is empty, `M = 0`, it delivers `standard` events only. The discovery
pass yields no seed, hence `M = 0`, when every start node of A is an end node of B. That B is
the same sequence as A gives neither: the merge compares start nodes of A with end nodes of
B. -/
theorem same_nodes_only_standard (ops : KmerOps) (u : UniqueState) (f : FirstFlaggerState)
    (A B : Nat → Nat) (N k : Nat) (D : Nat → Nat) (M : Nat) (L : Nat → Nat)
    (hA : nondecreasing (get_a ops A) N) (hB : nondecreasing (get_b ops B k) N)
    (hsub : ∀ j, j < N → get_b ops B k j ∈ a_keys ops A N) :
    (∀ e ∈ merge_dummies ops u f A B N k D M L, e.tag ≠ edge_tag.out_dummy) ∧
    (M = 0 → ∀ e ∈ merge_dummies ops u f A B N k D M L, e.tag = edge_tag.standard) ∧
    (nondecreasing (fun i => ops.get_start_node (A i)) N →
      nondecreasing (fun i => ops.get_end_node (B i) k) N →
      (∀ i, i < N → ∃ j, j < N ∧ ops.get_start_node (A i) = ops.get_end_node (B j) k) →
      count_incoming_dummy_edges ops A B N k = 0) := by
  have hout : ∀ e ∈ merge_dummies ops u f A B N k D M L, e.tag ≠ edge_tag.out_dummy := by
    apply filter_eq_nil_tag
    rw [merge_dummies_filter_events]
    unfold merge_dummies_pushes
    rw [merge_dummies_pushes_out_dummy ops A B N k D M L hA hB ⟨0, 0, 0⟩
      (fun _ j hj => absurd hj (Nat.not_lt_zero j)) none (fun _ h => by simp at h),
      out_dummy_events_skip_range ops A B N k 0 N (Nat.zero_le _) (le_refl _)
        (fun j _ hj => hsub j hj),
      out_dummy_events_nil ops A B N k N (lt_irrefl N)]
    rfl
  refine ⟨hout, ?_, ?_⟩
  · intro hM e he
    have hin : ∀ e ∈ merge_dummies ops u f A B N k D M L, e.tag ≠ edge_tag.in_dummy := by
      apply filter_eq_nil_tag
      rw [merge_dummies_in_dummy_events, hM]
      rfl
    have h1 := hout e he
    have h2 := hin e he
    cases h : e.tag
    · rfl
    · exact absurd h h2
    · exact absurd h h1
  · intro h1 h2 h3
    unfold count_incoming_dummy_edges
    simp only []
    rw [find_incoming_dummy_edges_sink, incoming_dummy_seeds_nil ops A B N k h1 h2 h3]
    rfl

/-- C17, as amended, at a concrete input: the node keys of A and of B are both `5, 5, 9`. -/
theorem same_nodes_only_standard_witness :
    (∀ e ∈ merge_dummies kmer64 ⟨false, edge_tag.standard, 0, 0⟩ ⟨false, 0, 0⟩
        (tbl [5, 5, 9]) (tbl [20, 21, 36]) 3 32 (tbl []) 0 (tbl []),
      e.tag = edge_tag.standard) ∧
    (merge_dummies kmer64 ⟨false, edge_tag.standard, 0, 0⟩ ⟨false, 0, 0⟩
        (tbl [5, 5, 9]) (tbl [20, 21, 36]) 3 32 (tbl []) 0 (tbl [])).length = 2 :=
  ⟨(same_nodes_only_standard kmer64 ⟨false, edge_tag.standard, 0, 0⟩ ⟨false, 0, 0⟩
      (tbl [5, 5, 9]) (tbl [20, 21, 36]) 3 32 (tbl []) 0 (tbl []) (by decide) (by decide)
      (by decide)).2.1 rfl, by decide⟩

/-- C17, as stated, fails: with B the same sequence as A, the single edge `8`, the end node of
the edge is not its start node and the visitor receives an `out_dummy` event. -/
theorem same_tables_out_dummy :
    merge_dummies kmer64 ⟨false, edge_tag.standard, 0, 0⟩ ⟨false, 0, 0⟩
        (tbl [8]) (tbl [8]) 1 32 (tbl []) 0 (tbl []) =
      [⟨edge_tag.out_dummy, 2, 32, true⟩, ⟨edge_tag.standard, 8, 32, true⟩] := by
  decide

/-! ## C18: the single edge `ACG` -/

/-- A single edge whose start node key is not its end node key, whatever the packing of
k-mers and whatever the dummies: the visitor receives an `out_dummy` call for the end node. -/
theorem single_edge_out_dummy (ops : KmerOps) (u : UniqueState) (f : FirstFlaggerState)
    (A B : Nat → Nat) (k : Nat) (D : Nat → Nat) (M : Nat) (L : Nat → Nat)
    (h : get_a ops A 0 ≠ get_b ops B k 0) :
    ∃ fl, (⟨edge_tag.out_dummy, get_b ops B k 0, k, fl⟩ : Flagged) ∈
      merge_dummies ops u f A B 1 k D M L := by
  have hp : out_dummy_push ops B k 0 ∈ merge_dummies_pushes ops A B 1 k D M L := by
    unfold merge_dummies_pushes
    rw [loops_from_eq, if_pos (by decide)]
    by_cases h1 : get_b ops B k 0 < get_a ops A 0
    · rw [if_pos h1]
      exact List.mem_append_right _ (List.mem_cons_self _ _)
    · have h2 : get_a ops A 0 < get_b ops B k 0 := by omega
      rw [if_neg h1, if_pos h2, loops_from_eq, if_neg (by simp), if_neg (by simp),
        if_pos (by simp)]
      exact List.mem_append_right _ (List.mem_cons_of_mem _
        (List.mem_append_right _ (List.mem_cons_self _ _)))
  have he : (out_dummy_push ops B k 0).event ∈
      (merge_dummies ops u f A B 1 k D M L).map Flagged.event := by
    rw [merge_dummies_events, mem_remove_repeats]
    exact List.mem_map_of_mem _ hp
  obtain ⟨e, hm, hev⟩ := List.mem_map.1 he
  refine ⟨e.first, ?_⟩
  have e2 : (⟨edge_tag.out_dummy, get_b ops B k 0, k, e.first⟩ : Flagged) = e := by
    cases e
    simp only [Flagged.event, out_dummy_push, Push.event, Event.mk.injEq] at hev
    simp only [Flagged.mk.injEq, and_true]
    exact ⟨hev.1.symm, hev.2.1.symm, hev.2.2.symm⟩
  rw [e2]
  exact hm

/-- C18, as amended. Scenario 1, `k = 3` and `A = B = [ACG]`: the discovery pass finds one seed,
the start node `AC`; its expansion has the lengths `3, 2, 1`; with the expanded array sorted,
lengths `1, 2, 3`, `merge_dummies` delivers exactly five events to the visitor, in this order:
`(in_dummy, length 1, first)`, `(in_dummy, length 2, first)`, `(in_dummy, the seed, length 3,
first)`, `(standard, ACG, 3, first)` and, after the standard event, `(out_dummy, get_b(0), 3,
first)` for the end node `CG`, which no edge leaves. The last event does not hang on how k-mers
are packed: for every single edge whose start node key `get_a(0)` differs from its end node key
`get_b(0)`, the visitor receives an `out_dummy` call for the end node. -/
theorem scenario_single_edge (u : UniqueState) (f : FirstFlaggerState) :
    incoming_dummy_seeds kmer64 (tbl [kmer3 0 1 2]) (tbl [kmer3 0 1 2]) 1 3 = [4 ^ 31] ∧
    (List.range 3).map (prepare_incoming_dummy_edges 64 (tbl [4 ^ 31]) (tbl []) 1 3).1 =
      [4 ^ 31, 0, 0] ∧
    (List.range 3).map (prepare_incoming_dummy_edges 64 (tbl [4 ^ 31]) (tbl []) 1 3).2 =
      [3, 2, 1] ∧
    merge_dummies kmer64 u f (tbl [kmer3 0 1 2]) (tbl [kmer3 0 1 2]) 1 3
        (tbl [0, 0, 4 ^ 31]) 3 (tbl [1, 2, 3]) =
      [⟨edge_tag.in_dummy, 0, 1, true⟩, ⟨edge_tag.in_dummy, 0, 2, true⟩,
        ⟨edge_tag.in_dummy, 4 ^ 31, 3, true⟩, ⟨edge_tag.standard, kmer3 0 1 2, 3, true⟩,
        ⟨edge_tag.out_dummy, get_b kmer64 (tbl [kmer3 0 1 2]) 3 0, 3, true⟩] ∧
    ∀ (ops : KmerOps) (A B : Nat → Nat) (k : Nat) (D : Nat → Nat) (M : Nat) (L : Nat → Nat),
      get_a ops A 0 ≠ get_b ops B k 0 →
      ∃ fl, (⟨edge_tag.out_dummy, get_b ops B k 0, k, fl⟩ : Flagged) ∈
        merge_dummies ops u f A B 1 k D M L := by
  refine ⟨by decide, by decide, by decide, ?_, ?_⟩
  · unfold merge_dummies
    rw [Unique_run_fresh, FirstFlagger_run_fresh kmer64 f ⟨false, 0, 0⟩]
    decide
  · intro ops A B k D M L h
    exact single_edge_out_dummy ops u f A B k D M L h

/-- C18, as stated, fails: in Scenario 1 the visitor receives five events, not four; the last
one is an `out_dummy` event, delivered after the `standard` event. -/
theorem scenario_single_edge_five_events :
    (merge_dummies kmer64 ⟨false, edge_tag.standard, 0, 0⟩ ⟨false, 0, 0⟩
        (tbl [kmer3 0 1 2]) (tbl [kmer3 0 1 2]) 1 3
        (tbl [0, 0, 4 ^ 31]) 3 (tbl [1, 2, 3])).length = 5 ∧
    (merge_dummies kmer64 ⟨false, edge_tag.standard, 0, 0⟩ ⟨false, 0, 0⟩
        (tbl [kmer3 0 1 2]) (tbl [kmer3 0 1 2]) 1 3
        (tbl [0, 0, 4 ^ 31]) 3 (tbl [1, 2, 3])).map (fun e => e.tag) =
      [edge_tag.in_dummy, edge_tag.in_dummy, edge_tag.in_dummy, edge_tag.standard,
        edge_tag.out_dummy] := by
  decide

/-! ## C19: a branching node -/

/-- The last event a `Unique` adapter forwards is the last event it receives. -/
theorem last_event_suppress (prev : Option Event) (l : List Event) :
    last_event prev (suppress_repeats prev l) = last_event prev l := by
  induction l generalizing prev with
  | nil => rfl
  | cons e es ih =>
    rw [suppress_repeats]
    by_cases h : prev = some e
    · rw [if_pos h, ih prev, last_event, h]
    · rw [if_neg h, last_event, last_event, ih (some e)]

/-- What a fresh `Unique` adapter forwards of an input that ends with `e` ends with `e`. -/
theorem suppress_repeats_concat (P : List Event) (e : Event) :
    ∃ Q, suppress_repeats none (P ++ [e]) = Q ++ [e] := by
  have h := last_event_suppress none (P ++ [e])
  rw [last_event_concat] at h
  rcases List.eq_nil_or_concat (suppress_repeats none (P ++ [e])) with h0 | ⟨Q, b, hb⟩
  · rw [h0] at h
    exact absurd h (by simp [last_event])
  · rw [List.concat_eq_append] at hb
    rw [hb, last_event_concat] at h
    exact ⟨Q, by rw [hb, Option.some.inj h]⟩

/-- Two events one right after the other in the input of a `FirstFlagger`: both are passed on,
one right after the other, and the flag of the second compares it with the first. -/
theorem FirstFlagger_run_adjacent (ops : KmerOps) (s : FirstFlaggerState) (Q : List Event)
    (e e2 : Event) (R : List Event) :
    ∃ F1 fl F2, FirstFlagger.run ops s (Q ++ e :: e2 :: R) =
      F1 ++ ⟨e.tag, e.x, e.k, fl⟩ ::
        ⟨e2.tag, e2.x, e2.k,
          decide (ops.get_start_node e2.x ≠ ops.get_start_node e.x) || decide (e2.k ≠ e.k)⟩ ::
        F2 := by
  induction Q generalizing s with
  | nil =>
    refine ⟨[], (FirstFlagger.call ops s e).1.first,
      FirstFlagger.run ops (FirstFlagger.call ops (FirstFlagger.call ops s e).2 e2).2 R, ?_⟩
    simp only [List.nil_append, FirstFlagger.run, FirstFlagger.call, Bool.false_or]
  | cons a Q ih =>
    obtain ⟨F1, fl, F2, h⟩ := ih (FirstFlagger.call ops s a).2
    refine ⟨(FirstFlagger.call ops s a).1 :: F1, fl, F2, ?_⟩
    rw [List.cons_append, FirstFlagger.run, h, List.cons_append]

/-- Two consecutive entries of table A with the same start node, `get_start_node(x) = x << 2`
on both, and the node keys of B non-decreasing: the `standard` call of the second entry is made
right after the `standard` call of the first. -/
theorem merge_dummies_pushes_branching (ops : KmerOps) (A B : Nat → Nat) (N k : Nat)
    (D : Nat → Nat) (M : Nat) (L : Nat → Nat) (j : Nat) (hj : j + 1 < N)
    (hB : nondecreasing (get_b ops B k) N)
    (hsh : shl ops.W (A j) = shl ops.W (A (j + 1)))
    (hkey : get_a ops A j = get_a ops A (j + 1)) (i : Indices) :
    (i.a_idx ≤ j → ∃ P1 P2, loops_from ops A B N k D M L i =
      P1 ++ standard_push A k j :: standard_push A k (j + 1) :: P2) ∧
    (i.a_idx = j + 1 → (i.d_idx < M → ¬ shl ops.W (D i.d_idx) ≤ shl ops.W (A (j + 1))) →
      (i.b_idx < N → get_a ops A (j + 1) < get_b ops B k i.b_idx) →
      ∃ P2, loops_from ops A B N k D M L i = standard_push A k (j + 1) :: P2) := by
  have step : ∀ (i : Indices) (T : List Push) (b2 : Nat),
      (b2 < N → get_a ops A i.a_idx < get_b ops B k b2) →
      ((i.a_idx + 1 ≤ j → ∃ P1 P2, T =
          P1 ++ standard_push A k j :: standard_push A k (j + 1) :: P2) ∧
        (i.a_idx + 1 = j + 1 →
          ((check_for_in_dummies ops.W D L M (A i.a_idx) i.d_idx).2 < M →
            ¬ shl ops.W (D (check_for_in_dummies ops.W D L M (A i.a_idx) i.d_idx).2) ≤
              shl ops.W (A (j + 1))) →
          (b2 < N → get_a ops A (j + 1) < get_b ops B k b2) →
          ∃ P2, T = standard_push A k (j + 1) :: P2)) →
      (i.a_idx ≤ j → ∃ P1 P2,
        (check_for_in_dummies ops.W D L M (A i.a_idx) i.d_idx).1 ++
            standard_push A k i.a_idx :: T =
          P1 ++ standard_push A k j :: standard_push A k (j + 1) :: P2) ∧
      (i.a_idx = j + 1 → (i.d_idx < M → ¬ shl ops.W (D i.d_idx) ≤ shl ops.W (A (j + 1))) →
        (i.b_idx < N → get_a ops A (j + 1) < get_b ops B k i.b_idx) →
        ∃ P2, (check_for_in_dummies ops.W D L M (A i.a_idx) i.d_idx).1 ++
          standard_push A k i.a_idx :: T = standard_push A k (j + 1) :: P2) := by
    intro i T b2 hb2 ih
    refine ⟨fun hle => ?_, fun he hd _ => ?_⟩
    · rcases Nat.eq_or_lt_of_le hle with e | e
      · have hstop := (check_for_in_dummies_spec ops.W D L M (A i.a_idx) i.d_idx).2.2.2.2
        rw [e] at hstop hb2
        obtain ⟨P2, h2⟩ := ih.2 (by omega) (by rw [e, ← hsh]; exact hstop)
          (fun h => by rw [← hkey]; exact hb2 h)
        exact ⟨(check_for_in_dummies ops.W D L M (A i.a_idx) i.d_idx).1, P2, by rw [h2, e]⟩
      · obtain ⟨P1, P2, h2⟩ := ih.1 (by omega)
        exact ⟨(check_for_in_dummies ops.W D L M (A i.a_idx) i.d_idx).1 ++
          standard_push A k i.a_idx :: P1, P2, by rw [h2]; simp⟩
    · rw [he, flush_nil_of_not_le ops.W D L M (A (j + 1)) i.d_idx hd]
      exact ⟨T, rfl⟩
  refine loops_induct ops A B N k D M L
    (fun i T =>
      (i.a_idx ≤ j → ∃ P1 P2, T =
        P1 ++ standard_push A k j :: standard_push A k (j + 1) :: P2) ∧
      (i.a_idx = j + 1 → (i.d_idx < M → ¬ shl ops.W (D i.d_idx) ≤ shl ops.W (A (j + 1))) →
        (i.b_idx < N → get_a ops A (j + 1) < get_b ops B k i.b_idx) →
        ∃ P2, T = standard_push A k (j + 1) :: P2)) ?_ ?_ ?_ ?_ ?_ ?_ i
  · intro i T ha hb hlt ih
    dsimp only at ih ⊢
    refine ⟨fun hle => ?_, fun he _ hc => ?_⟩
    · obtain ⟨P1, P2, h2⟩ := ih.1 hle
      exact ⟨(check_for_in_dummies ops.W D L M (get_b ops B k i.b_idx) i.d_idx).1 ++
        out_dummy_push ops B k i.b_idx :: P1, P2, by rw [h2]; simp⟩
    · have := hc hb
      rw [he] at hlt
      omega
  · intro i T ha hb hlt ih
    dsimp only at ih ⊢
    exact step i T i.b_idx (fun _ => hlt) ih
  · intro i T ha hb heq ih
    dsimp only at ih ⊢
    obtain ⟨h1, _, _, h4⟩ := inc_b_spec ops B N k (get_b ops B k i.b_idx) i.b_idx
    refine ⟨(step i T (inc_b ops B N k (get_b ops B k i.b_idx) i.b_idx) ?_ ih).1,
      fun he _ hc => ?_⟩
    · intro h
      have hne := h4 hb h
      have hle := nondecreasing_le _ N hB i.b_idx _ (Nat.le_of_lt (h1 hb).1) h
      omega
    · have := hc hb
      rw [he] at heq
      omega
  · intro i T ha hb ih
    dsimp only at ih ⊢
    exact step i T i.b_idx (fun h => absurd h hb) ih
  · intro i T ha hb ih
    dsimp only at ih ⊢
    exact ⟨fun hle => by omega, fun he => by omega⟩
  · intro i ha hb
    exact ⟨fun hle => by omega, fun he => by omega⟩

/-- C19. Branching node: with the node keys of table B non-decreasing and
`get_start_node(x) = x << 2` on the two entries, if the consecutive entries `A[j]`, `A[j + 1]`
are different k-mers with the same start node, then the visitor receives
`(standard, A[j], k, _)` and right after it `(standard, A[j + 1], k, first = false)`, with no
call in between; the order of table A is not needed. -/
theorem branching_node_second_not_first (ops : KmerOps) (u : UniqueState)
    (f : FirstFlaggerState) (A B : Nat → Nat) (N k : Nat) (D : Nat → Nat) (M : Nat)
    (L : Nat → Nat) (j : Nat) (hj : j + 1 < N)
    (hB : nondecreasing (get_b ops B k) N)
    (hs0 : ops.get_start_node (A j) = shl ops.W (A j))
    (hs1 : ops.get_start_node (A (j + 1)) = shl ops.W (A (j + 1)))
    (hne : A j ≠ A (j + 1))
    (hsame : ops.get_start_node (A j) = ops.get_start_node (A (j + 1))) :
    ∃ l1 fl l2, merge_dummies ops u f A B N k D M L =
      l1 ++ ⟨edge_tag.standard, A j, k, fl⟩ :: ⟨edge_tag.standard, A (j + 1), k, false⟩ ::
        l2 := by
  have hsh : shl ops.W (A j) = shl ops.W (A (j + 1)) := by rw [← hs0, ← hs1, hsame]
  have hkey : get_a ops A j = get_a ops A (j + 1) := by unfold get_a; rw [hsame]
  obtain ⟨P1, P2, h⟩ :=
    (merge_dummies_pushes_branching ops A B N k D M L j hj hB hsh hkey ⟨0, 0, 0⟩).1
      (Nat.zero_le _)
  have e1 : (P1 ++ standard_push A k j :: standard_push A k (j + 1) :: P2).map Push.event =
      (P1.map Push.event ++ [(standard_push A k j).event]) ++
        (standard_push A k (j + 1)).event :: P2.map Push.event := by simp
  have hne2 : ¬ some (standard_push A k j).event = some (standard_push A k (j + 1)).event := by
    intro hh
    have := Option.some.inj hh
    simp only [standard_push, Push.event, Event.mk.injEq, true_and, and_true] at this
    exact hne this
  obtain ⟨Q, hQ⟩ := suppress_repeats_concat (P1.map Push.event) (standard_push A k j).event
  unfold merge_dummies merge_dummies_raw merge_dummies_pushes
  rw [h, Unique_run_fresh, remove_repeats_eq_suppress, e1, suppress_repeats_append,
    last_event_concat, hQ, suppress_repeats, if_neg hne2, List.append_assoc,
    List.singleton_append]
  obtain ⟨F1, fl, F2, hF⟩ := FirstFlagger_run_adjacent ops (add_first_flag f) Q
    (standard_push A k j).event (standard_push A k (j + 1)).event
    (suppress_repeats (some (standard_push A k (j + 1)).event) (P2.map Push.event))
  refine ⟨F1, fl, F2, ?_⟩
  rw [hF]
  simp [standard_push, Push.event, hsame]

/-- C19 at Scenario 3: `k = 3` and the edges `ACG`, `ACT` of start node `AC`, tables A and B
both `[ACG, ACT]`, with the expanded dummies of the seed `AC`. -/
theorem branching_node_second_not_first_witness :
    ∃ l1 fl l2, merge_dummies kmer64 ⟨false, edge_tag.standard, 0, 0⟩ ⟨false, 0, 0⟩
        (tbl [kmer3 0 1 2, kmer3 0 1 3]) (tbl [kmer3 0 1 2, kmer3 0 1 3]) 2 3
        (tbl [0, 0, 4 ^ 31]) 3 (tbl [1, 2, 3]) =
      l1 ++ ⟨edge_tag.standard, tbl [kmer3 0 1 2, kmer3 0 1 3] 0, 3, fl⟩ ::
        ⟨edge_tag.standard, tbl [kmer3 0 1 2, kmer3 0 1 3] (0 + 1), 3, false⟩ :: l2 :=
  branching_node_second_not_first kmer64 ⟨false, edge_tag.standard, 0, 0⟩ ⟨false, 0, 0⟩
    (tbl [kmer3 0 1 2, kmer3 0 1 3]) (tbl [kmer3 0 1 2, kmer3 0 1 3]) 2 3
    (tbl [0, 0, 4 ^ 31]) 3 (tbl [1, 2, 3]) 0 (by decide) (by decide) (by decide) (by decide)
    (by decide) (by decide)

/-! ## C20: the array reads -/

theorem inc_b_reads_loop_fuel (ops : KmerOps) (B : Nat → Nat) (N k b : Nat) (n m b_idx : Nat)
    (hn : N - b_idx ≤ n) (hm : N - b_idx ≤ m) :
    inc_b_reads_loop ops B N k b n b_idx = inc_b_reads_loop ops B N k b m b_idx := by
  induction n generalizing m b_idx with
  | zero =>
    have h : ¬ b_idx < N := by omega
    cases m <;> simp [inc_b_reads_loop, h]
  | succ n ih =>
    cases m with
    | zero =>
      have h : ¬ b_idx < N := by omega
      simp [inc_b_reads_loop, h]
    | succ m =>
      simp only [inc_b_reads_loop]
      split
      · split
        · rw [ih m (b_idx + 1) (by omega) (by omega)]
        · rfl
      · rfl

/-- The reads of `inc_b()` as the source makes them: whenever `b_idx < num_records` holds at
the loop test, `get_b(++b_idx)` reads `table_b[b_idx + 1]`. The model follows the loop to its
exit. -/
theorem inc_b_reads_eq (ops : KmerOps) (B : Nat → Nat) (N k b b_idx : Nat) :
    inc_b_reads ops B N k b b_idx =
      if b_idx < N then
        Read.table_b (b_idx + 1) ::
          (if get_b ops B k (b_idx + 1) = b then inc_b_reads ops B N k b (b_idx + 1) else [])
      else [] := by
  unfold inc_b_reads
  by_cases h : b_idx < N
  · obtain ⟨n, hn⟩ : ∃ n, N - b_idx = n + 1 := ⟨N - b_idx - 1, by omega⟩
    rw [hn, inc_b_reads_loop]
    simp only [h, if_true]
    split
    · rw [inc_b_reads_loop_fuel ops B N k b n (N - (b_idx + 1)) (b_idx + 1) (by omega)
        (le_refl _)]
    · rfl
  · have h0 : N - b_idx = 0 := by omega
    rw [h0]
    simp [inc_b_reads_loop, h]

theorem check_for_in_dummies_reads_loop_fuel (W : Nat) (D : Nat → Nat) (M s n m d : Nat)
    (hn : M - d ≤ n) (hm : M - d ≤ m) :
    check_for_in_dummies_reads_loop W D M s n d =
      check_for_in_dummies_reads_loop W D M s m d := by
  induction n generalizing m d with
  | zero =>
    have h : ¬ d < M := by omega
    cases m <;> simp [check_for_in_dummies_reads_loop, h]
  | succ n ih =>
    cases m with
    | zero =>
      have h : ¬ d < M := by omega
      simp [check_for_in_dummies_reads_loop, h]
    | succ m =>
      simp only [check_for_in_dummies_reads_loop]
      split
      · split
        · rw [ih m (d + 1) (by omega) (by omega)]
        · rfl
      · rfl

/-- The reads of `check_for_in_dummies(s)` as the source makes them. The model follows the
loop to its exit. -/
theorem check_for_in_dummies_reads_eq (W : Nat) (D : Nat → Nat) (M s d : Nat) :
    check_for_in_dummies_reads W D M s d =
      if d < M then
        Read.in_dummies d :: Read.dummy_lengths d ::
          (if shl W (D d) ≤ shl W s then check_for_in_dummies_reads W D M s (d + 1) else [])
      else [] := by
  unfold check_for_in_dummies_reads
  by_cases h : d < M
  · obtain ⟨n, hn⟩ : ∃ n, M - d = n + 1 := ⟨M - d - 1, by omega⟩
    rw [hn, check_for_in_dummies_reads_loop]
    simp only [h, if_true]
    split
    · rw [check_for_in_dummies_reads_loop_fuel W D M s n (M - (d + 1)) (d + 1) (by omega)
        (le_refl _)]
    · rfl
  · have h0 : M - d = 0 := by omega
    rw [h0]
    simp [check_for_in_dummies_reads_loop, h]

theorem main_loop_reads_fuel (ops : KmerOps) (A B : Nat → Nat) (N k : Nat) (D : Nat → Nat)
    (M : Nat) (L : Nat → Nat) (n m : Nat) (i : Indices)
    (hn : (N - i.a_idx) + (N - i.b_idx) ≤ n) (hm : (N - i.a_idx) + (N - i.b_idx) ≤ m) :
    main_loop_reads ops A B N k D M L n i = main_loop_reads ops A B N k D M L m i := by
  induction n generalizing m i with
  | zero =>
    have h : ¬ (i.a_idx < N ∧ i.b_idx < N) := by omega
    cases m <;> simp [main_loop_reads, h]
  | succ n ih =>
    cases m with
    | zero =>
      have h : ¬ (i.a_idx < N ∧ i.b_idx < N) := by omega
      simp [main_loop_reads, h]
    | succ m =>
      simp only [main_loop_reads]
      by_cases h : i.a_idx < N ∧ i.b_idx < N
      · have hb := (inc_b_spec ops B N k (get_b ops B k i.b_idx) i.b_idx).1 h.2
        simp only [h, and_self, if_true]
        split
        · rw [ih m _ (by simp only; omega) (by simp only; omega)]
        · split
          · rw [ih m _ (by simp only; omega) (by simp only; omega)]
          · rw [ih m _ (by simp only; omega) (by simp only; omega)]
      · simp only [h, if_false]

theorem drain_d_reads_eq (M d : Nat) :
    drain_d_reads M (M - d) d =
      if d < M then
        Read.in_dummies d :: Read.dummy_lengths d :: drain_d_reads M (M - (d + 1)) (d + 1)
      else [] := by
  by_cases h : d < M
  · obtain ⟨n, hn⟩ : ∃ n, M - d = n + 1 := ⟨M - d - 1, by omega⟩
    have hn2 : M - (d + 1) = n := by omega
    rw [hn, hn2, drain_d_reads, if_pos h]
  · have h0 : M - d = 0 := by omega
    rw [h0, if_neg h]
    rfl

/-- The array reads of the four loops of `merge_dummies` as one recursion on the indices, step
by step as `loops_from_eq` gives the calls. The model follows every loop to its exit. -/
theorem loops_reads_from_eq (ops : KmerOps) (A B : Nat → Nat) (N k : Nat) (D : Nat → Nat)
    (M : Nat) (L : Nat → Nat) (i : Indices) :
    loops_reads_from ops A B N k D M L i =
      if i.a_idx < N ∧ i.b_idx < N then
        Read.table_a i.a_idx :: Read.table_a i.a_idx :: Read.table_b i.b_idx ::
          (if get_b ops B k i.b_idx < get_a ops A i.a_idx then
            check_for_in_dummies_reads ops.W D M (get_b ops B k i.b_idx) i.d_idx ++
              (inc_b_reads ops B N k (get_b ops B k i.b_idx) i.b_idx ++
                loops_reads_from ops A B N k D M L
                  ⟨i.a_idx, inc_b ops B N k (get_b ops B k i.b_idx) i.b_idx,
                    (check_for_in_dummies ops.W D L M (get_b ops B k i.b_idx) i.d_idx).2⟩)
          else if get_a ops A i.a_idx < get_b ops B k i.b_idx then
            check_for_in_dummies_reads ops.W D M (A i.a_idx) i.d_idx ++
              loops_reads_from ops A B N k D M L
                ⟨i.a_idx + 1, i.b_idx,
                  (check_for_in_dummies ops.W D L M (A i.a_idx) i.d_idx).2⟩
          else
            check_for_in_dummies_reads ops.W D M (A i.a_idx) i.d_idx ++
              (inc_b_reads ops B N k (get_b ops B k i.b_idx) i.b_idx ++
                loops_reads_from ops A B N k D M L
                  ⟨i.a_idx + 1, inc_b ops B N k (get_b ops B k i.b_idx) i.b_idx,
                    (check_for_in_dummies ops.W D L M (A i.a_idx) i.d_idx).2⟩))
      else if i.a_idx < N then
        Read.table_a i.a_idx ::
          (check_for_in_dummies_reads ops.W D M (A i.a_idx) i.d_idx ++
            loops_reads_from ops A B N k D M L
              ⟨i.a_idx + 1, i.b_idx, (check_for_in_dummies ops.W D L M (A i.a_idx) i.d_idx).2⟩)
      else if i.b_idx < N then
        Read.table_b i.b_idx ::
          (check_for_in_dummies_reads ops.W D M (get_b ops B k i.b_idx) i.d_idx ++
            loops_reads_from ops A B N k D M L
              ⟨i.a_idx, i.b_idx + 1,
                (check_for_in_dummies ops.W D L M (get_b ops B k i.b_idx) i.d_idx).2⟩)
      else drain_d_reads M (M - i.d_idx) i.d_idx := by
  have stop : ∀ j : Indices, ¬ (j.a_idx < N ∧ j.b_idx < N) →
      main_loop ops A B N k D M L ((N - j.a_idx) + (N - j.b_idx)) j = ([], j) := by
    intro j hj
    cases h : (N - j.a_idx) + (N - j.b_idx) <;> simp [main_loop, hj]
  have stopr : ∀ j : Indices, ¬ (j.a_idx < N ∧ j.b_idx < N) →
      main_loop_reads ops A B N k D M L ((N - j.a_idx) + (N - j.b_idx)) j = [] := by
    intro j hj
    cases h : (N - j.a_idx) + (N - j.b_idx) <;> simp [main_loop_reads, hj]
  by_cases h : i.a_idx < N ∧ i.b_idx < N
  · have hb := (inc_b_spec ops B N k (get_b ops B k i.b_idx) i.b_idx).1 h.2
    obtain ⟨n, hn⟩ : ∃ n, (N - i.a_idx) + (N - i.b_idx) = n + 1 :=
      ⟨(N - i.a_idx) + (N - i.b_idx) - 1, by omega⟩
    rw [if_pos h]
    unfold loops_reads_from
    rw [hn]
    simp only [main_loop, main_loop_reads, h, and_self, if_true]
    by_cases h1 : get_b ops B k i.b_idx < get_a ops A i.a_idx
    · simp only [h1, if_true]
      rw [main_loop_fuel ops A B N k D M L n _ _ (by simp only; omega) (le_refl _),
        main_loop_reads_fuel ops A B N k D M L n _ _ (by simp only; omega) (le_refl _)]
      simp only [List.append_assoc, List.cons_append]
    · simp only [h1, if_false]
      by_cases h2 : get_a ops A i.a_idx < get_b ops B k i.b_idx
      · simp only [h2, if_true]
        rw [main_loop_fuel ops A B N k D M L n _ _ (by simp only; omega) (le_refl _),
          main_loop_reads_fuel ops A B N k D M L n _ _ (by simp only; omega) (le_refl _)]
        simp only [List.append_assoc, List.cons_append]
      · simp only [h2, if_false]
        rw [main_loop_fuel ops A B N k D M L n _ _ (by simp only; omega) (le_refl _),
          main_loop_reads_fuel ops A B N k D M L n _ _ (by simp only; omega) (le_refl _)]
        simp only [List.append_assoc, List.cons_append]
  · rw [if_neg h]
    by_cases ha : i.a_idx < N
    · have hb : ¬ i.b_idx < N := fun hb => h ⟨ha, hb⟩
      have h2 : ¬ (i.a_idx + 1 < N ∧ i.b_idx < N) := fun hh => hb hh.2
      obtain ⟨n, hn⟩ : ∃ n, N - i.a_idx = n + 1 := ⟨N - i.a_idx - 1, by omega⟩
      have hn2 : N - (i.a_idx + 1) = n := by omega
      rw [if_pos ha]
      unfold loops_reads_from
      rw [stop i h, stopr i h, stop ⟨i.a_idx + 1, i.b_idx, _⟩ h2,
        stopr ⟨i.a_idx + 1, i.b_idx, _⟩ h2]
      simp only [List.nil_append]
      rw [hn, hn2]
      simp only [drain_a, drain_a_reads, ha, if_true, List.append_assoc, List.cons_append]
    · rw [if_neg ha]
      have da : ∀ d, drain_a ops.W A N k D M L (N - i.a_idx) i.a_idx d = ([], d) := by
        intro d
        cases h3 : N - i.a_idx <;> simp [drain_a, ha]
      have dar : ∀ d, drain_a_reads ops.W A N D M L (N - i.a_idx) i.a_idx d = [] := by
        intro d
        cases h3 : N - i.a_idx <;> simp [drain_a_reads, ha]
      by_cases hb : i.b_idx < N
      · have h2 : ¬ (i.a_idx < N ∧ i.b_idx + 1 < N) := fun hh => ha hh.1
        obtain ⟨n, hn⟩ : ∃ n, N - i.b_idx = n + 1 := ⟨N - i.b_idx - 1, by omega⟩
        have hn2 : N - (i.b_idx + 1) = n := by omega
        rw [if_pos hb]
        unfold loops_reads_from
        rw [stop i h, stopr i h, stop ⟨i.a_idx, i.b_idx + 1, _⟩ h2,
          stopr ⟨i.a_idx, i.b_idx + 1, _⟩ h2]
        simp only [List.nil_append, da, dar]
        rw [hn, hn2]
        simp only [drain_b, drain_b_reads, hb, if_true, List.append_assoc, List.cons_append]
      · rw [if_neg hb]
        have db : ∀ d, drain_b ops B N k D M L (N - i.b_idx) i.b_idx d = ([], d) := by
          intro d
          cases h3 : N - i.b_idx <;> simp [drain_b, hb]
        have dbr : ∀ d, drain_b_reads ops B N k D M L (N - i.b_idx) i.b_idx d = [] := by
          intro d
          cases h3 : N - i.b_idx <;> simp [drain_b_reads, hb]
        unfold loops_reads_from
        rw [stop i h, stopr i h]
        simp only [List.nil_append, da, dar, db, dbr]

/-- Every read of `inc_b()` is a read of `table_b`, at an index past `b_idx` and not past
`num_records`. -/
theorem inc_b_reads_bound (ops : KmerOps) (B : Nat → Nat) (N k b b_idx : Nat) (r : Read)
    (hr : r ∈ inc_b_reads ops B N k b b_idx) :
    ∃ j, r = Read.table_b j ∧ b_idx < j ∧ j ≤ N := by
  generalize hn : N - b_idx = n at hr
  induction n generalizing b_idx with
  | zero =>
    have h : ¬ b_idx < N := by omega
    rw [inc_b_reads_eq, if_neg h] at hr
    simp at hr
  | succ n ih =>
    have h : b_idx < N := by omega
    rw [inc_b_reads_eq, if_pos h] at hr
    rcases List.mem_cons.1 hr with e | hr2
    · exact ⟨b_idx + 1, e, by omega, by omega⟩
    · by_cases hb : get_b ops B k (b_idx + 1) = b
      · rw [if_pos hb] at hr2
        obtain ⟨j, h1, h2, h3⟩ := ih (b_idx + 1) hr2 (by omega)
        exact ⟨j, h1, by omega, h3⟩
      · rw [if_neg hb] at hr2
        simp at hr2

/-- When `inc_b()` starts on the last entry of table B, it reads `table_b[num_records]`, and
nothing else. -/
theorem inc_b_reads_last (ops : KmerOps) (B : Nat → Nat) (N k b b_idx : Nat)
    (h : b_idx + 1 = N) : inc_b_reads ops B N k b b_idx = [Read.table_b N] := by
  have h1 : b_idx < N := by omega
  have h2 : ¬ b_idx + 1 < N := by omega
  rw [inc_b_reads_eq, if_pos h1, inc_b_reads_eq, if_neg h2, h]
  simp

/-- Every read of `check_for_in_dummies(s)` is in bounds. -/
theorem check_for_in_dummies_reads_bound (W : Nat) (D : Nat → Nat) (N M s d : Nat) (r : Read)
    (hr : r ∈ check_for_in_dummies_reads W D M s d) : Read.in_bounds N M r := by
  generalize hn : M - d = n at hr
  induction n generalizing d with
  | zero =>
    have h : ¬ d < M := by omega
    rw [check_for_in_dummies_reads_eq, if_neg h] at hr
    simp at hr
  | succ n ih =>
    have h : d < M := by omega
    rw [check_for_in_dummies_reads_eq, if_pos h] at hr
    rcases List.mem_cons.1 hr with e | hr2
    · rw [e]; exact h
    · rcases List.mem_cons.1 hr2 with e | hr3
      · rw [e]; exact h
      · by_cases hc : shl W (D d) ≤ shl W s
        · rw [if_pos hc] at hr3
          exact ih (d + 1) hr3 (by omega)
        · rw [if_neg hc] at hr3
          simp at hr3

/-- Every read of the last loop is in bounds. -/
theorem drain_d_reads_bound (N M fuel d : Nat) (r : Read)
    (hr : r ∈ drain_d_reads M fuel d) : Read.in_bounds N M r := by
  induction fuel generalizing d with
  | zero => simp [drain_d_reads] at hr
  | succ n ih =>
    rw [drain_d_reads] at hr
    by_cases h : d < M
    · rw [if_pos h] at hr
      rcases List.mem_cons.1 hr with e | hr2
      · rw [e]; exact h
      · rcases List.mem_cons.1 hr2 with e | hr3
        · rw [e]; exact h
        · exact ih (d + 1) hr3
    · rw [if_neg h] at hr
      simp at hr

/-- Every array read of the four loops is in bounds, but for reads of `table_b[num_records]`,
one entry past the end of table B. -/
theorem loops_reads_from_bound (ops : KmerOps) (A B : Nat → Nat) (N k : Nat) (D : Nat → Nat)
    (M : Nat) (L : Nat → Nat) (i : Indices) (r : Read)
    (hr : r ∈ loops_reads_from ops A B N k D M L i) :
    Read.in_bounds N M r ∨ r = Read.table_b N := by
  have hinc : ∀ b b_idx, r ∈ inc_b_reads ops B N k b b_idx →
      Read.in_bounds N M r ∨ r = Read.table_b N := by
    intro b b_idx h
    obtain ⟨j, h1, _, h3⟩ := inc_b_reads_bound ops B N k b b_idx r h
    rcases Nat.eq_or_lt_of_le h3 with e | e
    · exact Or.inr (by rw [h1, e])
    · exact Or.inl (by rw [h1]; exact e)
  generalize hn : (N - i.a_idx) + (N - i.b_idx) = n at hr
  induction n using Nat.strong_induction_on generalizing i with
  | _ n ih =>
    rw [loops_reads_from_eq] at hr
    by_cases h : i.a_idx < N ∧ i.b_idx < N
    · have hb := (inc_b_spec ops B N k (get_b ops B k i.b_idx) i.b_idx).1 h.2
      rw [if_pos h] at hr
      rcases List.mem_cons.1 hr with e | hr
      · exact Or.inl (by rw [e]; exact h.1)
      rcases List.mem_cons.1 hr with e | hr
      · exact Or.inl (by rw [e]; exact h.1)
      rcases List.mem_cons.1 hr with e | hr
      · exact Or.inl (by rw [e]; exact h.2)
      by_cases h1 : get_b ops B k i.b_idx < get_a ops A i.a_idx
      · rw [if_pos h1] at hr
        rcases List.mem_append.1 hr with hr | hr
        · exact Or.inl (check_for_in_dummies_reads_bound _ _ N M _ _ r hr)
        rcases List.mem_append.1 hr with hr | hr
        · exact hinc _ _ hr
        · exact ih _ (by simp only; omega) _ hr rfl
      · rw [if_neg h1] at hr
        by_cases h2 : get_a ops A i.a_idx < get_b ops B k i.b_idx
        · rw [if_pos h2] at hr
          rcases List.mem_append.1 hr with hr | hr
          · exact Or.inl (check_for_in_dummies_reads_bound _ _ N M _ _ r hr)
          · exact ih _ (by simp only; omega) _ hr rfl
        · rw [if_neg h2] at hr
          rcases List.mem_append.1 hr with hr | hr
          · exact Or.inl (check_for_in_dummies_reads_bound _ _ N M _ _ r hr)
          rcases List.mem_append.1 hr with hr | hr
          · exact hinc _ _ hr
          · exact ih _ (by simp only; omega) _ hr rfl
    · rw [if_neg h] at hr
      by_cases ha : i.a_idx < N
      · rw [if_pos ha] at hr
        rcases List.mem_cons.1 hr with e | hr
        · exact Or.inl (by rw [e]; exact ha)
        rcases List.mem_append.1 hr with hr | hr
        · exact Or.inl (check_for_in_dummies_reads_bound _ _ N M _ _ r hr)
        · exact ih _ (by simp only; omega) _ hr rfl
      · rw [if_neg ha] at hr
        by_cases hb : i.b_idx < N
        · rw [if_pos hb] at hr
          rcases List.mem_cons.1 hr with e | hr
          · exact Or.inl (by rw [e]; exact hb)
          rcases List.mem_append.1 hr with hr | hr
          · exact Or.inl (check_for_in_dummies_reads_bound _ _ N M _ _ r hr)
          · exact ih _ (by simp only; omega) _ hr rfl
        · rw [if_neg hb] at hr
          exact Or.inl (drain_d_reads_bound N M _ _ r hr)

/-- Every array read `merge_dummies` makes is in bounds, but for reads of
`table_b[num_records]`: each index at which it reads `table_a` is below `num_records`, each
index at which it reads `in_dummies` or `dummy_lengths` is below `num_incoming_dummies`, and
each index at which it reads `table_b` is at most `num_records`. -/
theorem merge_dummies_reads_bound (ops : KmerOps) (A B : Nat → Nat) (N k : Nat)
    (D : Nat → Nat) (M : Nat) (L : Nat → Nat) (r : Read)
    (hr : r ∈ merge_dummies_reads ops A B N k D M L) :
    Read.in_bounds N M r ∨ r = Read.table_b N :=
  loops_reads_from_bound ops A B N k D M L ⟨0, 0, 0⟩ r hr

/-- C20 fails at the single edge `AAA`, a loop at node `AA`: `k = 3`, `num_records = 1`,
tables A and B both `[AAA]`, no incoming dummy (the discovery pass finds none). The reads of
`merge_dummies` are `table_a[0]` twice, `table_b[0]` and then, made by `inc_b()` in
`get_b(++b_idx)`, `table_b[1]`: an index that is not below `num_records`. -/
theorem merge_dummies_reads_past_the_end :
    incoming_dummy_seeds kmer64 (tbl [kmer3 0 0 0]) (tbl [kmer3 0 0 0]) 1 3 = [] ∧
    merge_dummies_reads kmer64 (tbl [kmer3 0 0 0]) (tbl [kmer3 0 0 0]) 1 3 (tbl []) 0
        (tbl []) =
      [Read.table_a 0, Read.table_a 0, Read.table_b 0, Read.table_b 1] ∧
    ¬ Read.in_bounds 1 0 (Read.table_b 1) := by
  decide

end Cosmo
